import Mathlib

set_option maxRecDepth 100000
set_option linter.unusedVariables false
set_option linter.unreachableTactic false
set_option linter.unnecessarySeqFocus false
set_option linter.unusedTactic false

/-!
Shallow embedding of the ByteAlchemy cipher engine: the pure-Python AES
implementation (core/decoder/aes_pure.py) and the SM4 implementation
(core/decoder/sm4.py), together with their mode-of-operation, padding,
S-box parsing and base64 transport layers, and proofs about the
behavioural claims of the design specification.

Bytes are modelled as natural numbers below 256, byte strings as lists of
naturals, and Python exceptions as the error case of `Except String`.
-/

namespace ByteAlchemy

/-- Predicate stating every element of a byte string is a byte (< 256). -/
def Bytes (l : List Nat) : Prop := ∀ x ∈ l, x < 256

instance (l : List Nat) : Decidable (Bytes l) := by unfold Bytes; infer_instance

/-- XOR of two byte strings, truncating to the shorter operand, mirroring
Python listcomps of the form `bytes([a ^ b for a, b in zip(xs, ys)])`. -/
def lxor (a b : List Nat) : List Nat := List.zipWith (fun x y => x ^^^ y) a b

/-- Big-endian conversion of a byte string to a natural number, mirroring
`int.from_bytes(iv_bytes, byteorder='big')`. -/
def natFromBytesBE (l : List Nat) : Nat := l.foldl (fun acc b => acc * 256 + b) 0

/-- Big-endian serialisation of a natural to `n` bytes, mirroring
`v.to_bytes(n, byteorder='big')` for in-range `v` (the overflow check of
`to_bytes` is performed at the call sites that can overflow). -/
def natToBytesBE (n v : Nat) : List Nat := (List.range n).map fun i => v / 256 ^ (n - 1 - i) % 256

/-- Supported block-cipher modes of operation. -/
inductive Mode where
  | ECB
  | CBC
  | CFB
  | OFB
  | CTR
deriving DecidableEq, Repr

/-- Whether the mode is processed as a stream mode (`mode in ['CFB','OFB','CTR']`). -/
def Mode.isStream : Mode → Bool
  | .CFB | .OFB | .CTR => true
  | _ => false

/-- Supported padding schemes. -/
inductive Padding where
  | pkcs7
  | zeropadding
  | iso10126
  | ansix923
  | nopadding
deriving DecidableEq, Repr

namespace Aes

/-- Standard AES S-box `AesPure.STANDARD_SBOX`. -/
def STANDARD_SBOX : List Nat := [
  99, 124, 119, 123, 242, 107, 111, 197, 48, 1, 103, 43, 254, 215, 171, 118,
  202, 130, 201, 125, 250, 89, 71, 240, 173, 212, 162, 175, 156, 164, 114, 192,
  183, 253, 147, 38, 54, 63, 247, 204, 52, 165, 229, 241, 113, 216, 49, 21,
  4, 199, 35, 195, 24, 150, 5, 154, 7, 18, 128, 226, 235, 39, 178, 117,
  9, 131, 44, 26, 27, 110, 90, 160, 82, 59, 214, 179, 41, 227, 47, 132,
  83, 209, 0, 237, 32, 252, 177, 91, 106, 203, 190, 57, 74, 76, 88, 207,
  208, 239, 170, 251, 67, 77, 51, 133, 69, 249, 2, 127, 80, 60, 159, 168,
  81, 163, 64, 143, 146, 157, 56, 245, 188, 182, 218, 33, 16, 255, 243, 210,
  205, 12, 19, 236, 95, 151, 68, 23, 196, 167, 126, 61, 100, 93, 25, 115,
  96, 129, 79, 220, 34, 42, 144, 136, 70, 238, 184, 20, 222, 94, 11, 219,
  224, 50, 58, 10, 73, 6, 36, 92, 194, 211, 172, 98, 145, 149, 228, 121,
  231, 200, 55, 109, 141, 213, 78, 169, 108, 86, 244, 234, 101, 122, 174, 8,
  186, 120, 37, 46, 28, 166, 180, 198, 232, 221, 116, 31, 75, 189, 139, 138,
  112, 62, 181, 102, 72, 3, 246, 14, 97, 53, 87, 185, 134, 193, 29, 158,
  225, 248, 152, 17, 105, 217, 142, 148, 155, 30, 135, 233, 206, 85, 40, 223,
  140, 161, 137, 13, 191, 230, 66, 104, 65, 153, 45, 15, 176, 84, 187, 22]

/-- Literal value of the inverse of the standard S-box (used only as a
proof-side normal form of `rsboxList STANDARD_SBOX`). -/
def RSBOX_STD : List Nat := [
  82, 9, 106, 213, 48, 54, 165, 56, 191, 64, 163, 158, 129, 243, 215, 251,
  124, 227, 57, 130, 155, 47, 255, 135, 52, 142, 67, 68, 196, 222, 233, 203,
  84, 123, 148, 50, 166, 194, 35, 61, 238, 76, 149, 11, 66, 250, 195, 78,
  8, 46, 161, 102, 40, 217, 36, 178, 118, 91, 162, 73, 109, 139, 209, 37,
  114, 248, 246, 100, 134, 104, 152, 22, 212, 164, 92, 204, 93, 101, 182, 146,
  108, 112, 72, 80, 253, 237, 185, 218, 94, 21, 70, 87, 167, 141, 157, 132,
  144, 216, 171, 0, 140, 188, 211, 10, 247, 228, 88, 5, 184, 179, 69, 6,
  208, 44, 30, 143, 202, 63, 15, 2, 193, 175, 189, 3, 1, 19, 138, 107,
  58, 145, 17, 65, 79, 103, 220, 234, 151, 242, 207, 206, 240, 180, 230, 115,
  150, 172, 116, 34, 231, 173, 53, 133, 226, 249, 55, 232, 28, 117, 223, 110,
  71, 241, 26, 113, 29, 41, 197, 137, 111, 183, 98, 14, 170, 24, 190, 27,
  252, 86, 62, 75, 198, 210, 121, 32, 154, 219, 192, 254, 120, 205, 90, 244,
  31, 221, 168, 51, 136, 7, 199, 49, 177, 18, 16, 89, 39, 128, 236, 95,
  96, 81, 127, 169, 25, 181, 74, 13, 45, 229, 122, 159, 147, 201, 156, 239,
  160, 224, 59, 77, 174, 42, 245, 176, 200, 235, 187, 60, 131, 83, 153, 97,
  23, 43, 4, 126, 186, 119, 214, 38, 225, 105, 20, 99, 85, 33, 12, 125]

/-- Rijndael round constants (`AesPure.RCON`). -/
def RCON : List Nat := [0, 1, 2, 4, 8, 16, 32, 64, 128, 27, 54]

/-- S-box lookup `sbox[b]` (Python list indexing; in-range at every call site). -/
def sboxAt (sbox : List Nat) (b : Nat) : Nat := sbox.getD b 0

/-- Inverse S-box construction from `AesPure.__init__`:
`for i in range(256): rsbox[sbox[i]] = i` starting from a list of zeros. -/
def rsboxList (sbox : List Nat) : List Nat :=
  (List.range 256).foldl (fun acc i => acc.set (sboxAt sbox i) i) (List.replicate 256 0)

/-- S-box table resolution in `AesPure.__init__`:
`if sbox and len(sbox) == 256: self.sbox = sbox else: self.sbox = STANDARD_SBOX`. -/
def resolveSbox (sboxOpt : Option (List Nat)) : List Nat :=
  match sboxOpt with
  | some sb => if sb.length = 256 then sb else STANDARD_SBOX
  | none => STANDARD_SBOX

/-- Word substitution `AesPure._sub_word`. -/
def subWord (sbox : List Nat) (w : List Nat) : List Nat := w.map (sboxAt sbox)

/-- Word rotation `AesPure._rot_word` (`word[1:] + word[:1]`). -/
def rotWord (w : List Nat) : List Nat := w.drop 1 ++ w.take 1

/-- Key-length normalisation at the head of `AesPure.key_expansion`, returning
the effective key together with the round count. -/
def normalizeKey (key : List Nat) : List Nat × Nat :=
  if key.length = 16 then (key, 10)
  else if key.length = 24 then (key, 12)
  else if key.length = 32 then (key, 14)
  else
    let key' :=
      if key.length < 16 then key ++ List.replicate (16 - key.length) 0
      else if key.length < 24 then key.take 16
      else if key.length < 32 then key.take 24
      else key.take 32
    (key', if key'.length = 16 then 10 else if key'.length = 24 then 12 else 14)

/-- One iteration of the key-expansion loop of `AesPure.key_expansion`,
appending word `i` to the schedule. -/
def keyExpandStep (sbox : List Nat) (swapKS : Bool) (Nk : Nat)
    (words : List (List Nat)) (i : Nat) : List (List Nat) :=
  let temp := words.getD (i - 1) []
  let temp :=
    if i % Nk = 0 then
      let t := subWord sbox (rotWord temp)
      let t := if swapKS then t.reverse else t
      t.set 0 (t.getD 0 0 ^^^ RCON.getD (i / Nk) 0)
    else if 6 < Nk ∧ i % Nk = 4 then subWord sbox temp
    else temp
  words ++ [(List.range 4).map fun j => (words.getD (i - Nk) []).getD j 0 ^^^ temp.getD j 0]

/-- Full word schedule of `AesPure.key_expansion` for an already-normalised key. -/
def expandWords (sbox : List Nat) (swapKS : Bool) (key : List Nat) (Nk rounds : Nat) :
    List (List Nat) :=
  let initWords := (List.range Nk).map fun i => (key.drop (4 * i)).take 4
  (List.range' Nk (4 * (rounds + 1) - Nk)).foldl (keyExpandStep sbox swapKS Nk) initWords

/-- Round-key groups `[words[i:i+4] for i in range(0, len(words), 4)]` computed
from a raw (unnormalised) key. -/
def roundKeysOf (sbox : List Nat) (swapKS : Bool) (key : List Nat) :
    List (List (List Nat)) :=
  let nk := (normalizeKey key).1
  let rounds := (normalizeKey key).2
  let words := expandWords sbox swapKS nk (nk.length / 4) rounds
  (List.range ((words.length + 3) / 4)).map fun g => (words.drop (4 * g)).take 4

/-- GF(2^8) doubling `AesPure._xtime`. -/
def xtime (a : Nat) : Nat :=
  if a &&& 0x80 ≠ 0 then ((a <<< 1) ^^^ 0x1B) &&& 0xFF else (a <<< 1) &&& 0xFF

/-- AES 4x4 byte state, row-major: field `sIJ` is `state[I][J]`. -/
structure St where
  s00 : Nat
  s01 : Nat
  s02 : Nat
  s03 : Nat
  s10 : Nat
  s11 : Nat
  s12 : Nat
  s13 : Nat
  s20 : Nat
  s21 : Nat
  s22 : Nat
  s23 : Nat
  s30 : Nat
  s31 : Nat
  s32 : Nat
  s33 : Nat
deriving DecidableEq, Repr

/-- Boundedness of a whole state: every entry is a byte. -/
def St.Bounded (s : St) : Prop :=
  s.s00 < 256 ∧ s.s01 < 256 ∧ s.s02 < 256 ∧ s.s03 < 256 ∧
  s.s10 < 256 ∧ s.s11 < 256 ∧ s.s12 < 256 ∧ s.s13 < 256 ∧
  s.s20 < 256 ∧ s.s21 < 256 ∧ s.s22 < 256 ∧ s.s23 < 256 ∧
  s.s30 < 256 ∧ s.s31 < 256 ∧ s.s32 < 256 ∧ s.s33 < 256

instance (s : St) : Decidable s.Bounded := by unfold St.Bounded; infer_instance

/-- Loading a 16-byte block into the state, including the transpose performed
at the top of `encrypt_block`/`decrypt_block`: `state[i][j] = block[4*j+i]`. -/
def toSt (block : List Nat) : St :=
  ⟨block.getD 0 0, block.getD 4 0, block.getD 8 0, block.getD 12 0,
   block.getD 1 0, block.getD 5 0, block.getD 9 0, block.getD 13 0,
   block.getD 2 0, block.getD 6 0, block.getD 10 0, block.getD 14 0,
   block.getD 3 0, block.getD 7 0, block.getD 11 0, block.getD 15 0⟩

/-- Flattening of the state at the bottom of `encrypt_block`/`decrypt_block`
(`for j in range(4): for i in range(4): output.append(state[i][j])`). -/
def ofSt (s : St) : List Nat :=
  [s.s00, s.s10, s.s20, s.s30, s.s01, s.s11, s.s21, s.s31,
   s.s02, s.s12, s.s22, s.s32, s.s03, s.s13, s.s23, s.s33]

/-- Byte-wise substitution `AesPure._sub_bytes`. -/
def subBytes (sb : Nat → Nat) (s : St) : St :=
  ⟨sb s.s00, sb s.s01, sb s.s02, sb s.s03, sb s.s10, sb s.s11, sb s.s12, sb s.s13,
   sb s.s20, sb s.s21, sb s.s22, sb s.s23, sb s.s30, sb s.s31, sb s.s32, sb s.s33⟩

/-- Row rotation `AesPure._shift_rows` (row i rotated left by i). -/
def shiftRows (s : St) : St :=
  ⟨s.s00, s.s01, s.s02, s.s03, s.s11, s.s12, s.s13, s.s10,
   s.s22, s.s23, s.s20, s.s21, s.s33, s.s30, s.s31, s.s32⟩

/-- Inverse row rotation `AesPure._inv_shift_rows` (row i rotated right by i). -/
def invShiftRows (s : St) : St :=
  ⟨s.s00, s.s01, s.s02, s.s03, s.s13, s.s10, s.s11, s.s12,
   s.s22, s.s23, s.s20, s.s21, s.s31, s.s32, s.s33, s.s30⟩

/-- Column swap `AesPure._magic_swap_state`: within each column, rows 0 and 3
and rows 1 and 2 are exchanged. -/
def magicSwap (s : St) : St :=
  ⟨s.s30, s.s31, s.s32, s.s33, s.s20, s.s21, s.s22, s.s23,
   s.s10, s.s11, s.s12, s.s13, s.s00, s.s01, s.s02, s.s03⟩

/-- Conditional column swap (`if self.swap_data_round: self._magic_swap_state(state)`). -/
def condSwap (flag : Bool) (s : St) : St := if flag then magicSwap s else s

/-- Component 0 of the MixColumns formula of `AesPure._mix_columns`. -/
def mixA (a b c d : Nat) : Nat := a ^^^ (a ^^^ b ^^^ c ^^^ d) ^^^ xtime (a ^^^ b)

/-- Component 1 of the MixColumns formula of `AesPure._mix_columns`. -/
def mixB (a b c d : Nat) : Nat := b ^^^ (a ^^^ b ^^^ c ^^^ d) ^^^ xtime (b ^^^ c)

/-- Component 2 of the MixColumns formula of `AesPure._mix_columns`. -/
def mixC (a b c d : Nat) : Nat := c ^^^ (a ^^^ b ^^^ c ^^^ d) ^^^ xtime (c ^^^ d)

/-- Component 3 of the MixColumns formula of `AesPure._mix_columns`. -/
def mixD (a b c d : Nat) : Nat := d ^^^ (a ^^^ b ^^^ c ^^^ d) ^^^ xtime (d ^^^ a)

/-- One state column (`state[0][j] .. state[3][j]`). -/
structure Col where
  c0 : Nat
  c1 : Nat
  c2 : Nat
  c3 : Nat
deriving DecidableEq, Repr

/-- Action of `AesPure._mix_columns` on one column. -/
def colMix (x : Col) : Col :=
  ⟨mixA x.c0 x.c1 x.c2 x.c3, mixB x.c0 x.c1 x.c2 x.c3,
   mixC x.c0 x.c1 x.c2 x.c3, mixD x.c0 x.c1 x.c2 x.c3⟩

/-- Per-column preprocessing of `AesPure._inv_mix_columns` (the extra
doublings XORed into the column before `_mix_columns` is reused). -/
def colPre (x : Col) : Col :=
  ⟨x.c0 ^^^ xtime (xtime (x.c0 ^^^ x.c2)), x.c1 ^^^ xtime (xtime (x.c1 ^^^ x.c3)),
   x.c2 ^^^ xtime (xtime (x.c0 ^^^ x.c2)), x.c3 ^^^ xtime (xtime (x.c1 ^^^ x.c3))⟩

/-- Component-wise XOR of two columns (proof-side gadget for the
GF(2)-linearity argument). -/
def colXor (x y : Col) : Col := ⟨x.c0 ^^^ y.c0, x.c1 ^^^ y.c1, x.c2 ^^^ y.c2, x.c3 ^^^ y.c3⟩

/-- Column `j` of the state. -/
def St.col0 (s : St) : Col := ⟨s.s00, s.s10, s.s20, s.s30⟩

/-- Column 1 of the state. -/
def St.col1 (s : St) : Col := ⟨s.s01, s.s11, s.s21, s.s31⟩

/-- Column 2 of the state. -/
def St.col2 (s : St) : Col := ⟨s.s02, s.s12, s.s22, s.s32⟩

/-- Column 3 of the state. -/
def St.col3 (s : St) : Col := ⟨s.s03, s.s13, s.s23, s.s33⟩

/-- Rebuilding a state from its four columns. -/
def stOfCols (j0 j1 j2 j3 : Col) : St :=
  ⟨j0.c0, j1.c0, j2.c0, j3.c0, j0.c1, j1.c1, j2.c1, j3.c1,
   j0.c2, j1.c2, j2.c2, j3.c2, j0.c3, j1.c3, j2.c3, j3.c3⟩

/-- Column-wise diffusion `AesPure._mix_columns`. -/
def mixColumns (s : St) : St :=
  stOfCols (colMix s.col0) (colMix s.col1) (colMix s.col2) (colMix s.col3)

/-- Preprocessing step of `AesPure._inv_mix_columns`. -/
def invMixPre (s : St) : St :=
  stOfCols (colPre s.col0) (colPre s.col1) (colPre s.col2) (colPre s.col3)

/-- Inverse diffusion `AesPure._inv_mix_columns`. -/
def invMixColumns (s : St) : St := mixColumns (invMixPre s)

/-- Round-key addition `AesPure._add_round_key`
(`state[i][j] ^= round_key[j][i]`). -/
def addRoundKey (rk : List (List Nat)) (s : St) : St :=
  ⟨s.s00 ^^^ (rk.getD 0 []).getD 0 0, s.s01 ^^^ (rk.getD 1 []).getD 0 0,
   s.s02 ^^^ (rk.getD 2 []).getD 0 0, s.s03 ^^^ (rk.getD 3 []).getD 0 0,
   s.s10 ^^^ (rk.getD 0 []).getD 1 0, s.s11 ^^^ (rk.getD 1 []).getD 1 0,
   s.s12 ^^^ (rk.getD 2 []).getD 1 0, s.s13 ^^^ (rk.getD 3 []).getD 1 0,
   s.s20 ^^^ (rk.getD 0 []).getD 2 0, s.s21 ^^^ (rk.getD 1 []).getD 2 0,
   s.s22 ^^^ (rk.getD 2 []).getD 2 0, s.s23 ^^^ (rk.getD 3 []).getD 2 0,
   s.s30 ^^^ (rk.getD 0 []).getD 3 0, s.s31 ^^^ (rk.getD 1 []).getD 3 0,
   s.s32 ^^^ (rk.getD 2 []).getD 3 0, s.s33 ^^^ (rk.getD 3 []).getD 3 0⟩

/-- Main encryption round body of `AesPure.encrypt_block` for round key `rk`. -/
def encRound (sb : Nat → Nat) (swapDR : Bool) (rk : List (List Nat)) (s : St) : St :=
  addRoundKey rk (mixColumns (shiftRows (condSwap swapDR (subBytes sb s))))

/-- Final encryption round of `AesPure.encrypt_block` (no MixColumns). -/
def encFinal (sb : Nat → Nat) (swapDR : Bool) (rk : List (List Nat)) (s : St) : St :=
  addRoundKey rk (shiftRows (condSwap swapDR (subBytes sb s)))

/-- Main decryption round body of `AesPure.decrypt_block` for round key `rk`. -/
def decRound (rsb : Nat → Nat) (swapDR : Bool) (rk : List (List Nat)) (s : St) : St :=
  invMixColumns (addRoundKey rk (condSwap swapDR (subBytes rsb (invShiftRows s))))

/-- Final decryption round of `AesPure.decrypt_block` (no InvMixColumns). -/
def decFinal (rsb : Nat → Nat) (swapDR : Bool) (rk : List (List Nat)) (s : St) : St :=
  addRoundKey rk (condSwap swapDR (subBytes rsb (invShiftRows s)))

/-- State-level `AesPure.encrypt_block`. -/
def encryptSt (sb : Nat → Nat) (swapDR : Bool) (rks : List (List (List Nat)))
    (rounds : Nat) (s : St) : St :=
  encFinal sb swapDR (rks.getD rounds [])
    ((List.range' 1 (rounds - 1)).foldl (fun t i => encRound sb swapDR (rks.getD i []) t)
      (addRoundKey (rks.getD 0 []) s))

/-- State-level `AesPure.decrypt_block` (loop `for i in range(rounds-1, 0, -1)`). -/
def decryptSt (rsb : Nat → Nat) (swapDR : Bool) (rks : List (List (List Nat)))
    (rounds : Nat) (s : St) : St :=
  decFinal rsb swapDR (rks.getD 0 [])
    (((List.range' 1 (rounds - 1)).reverse).foldl
      (fun t i => decRound rsb swapDR (rks.getD i []) t)
      (addRoundKey (rks.getD rounds []) s))

/-- Cipher instance state derived by `AesPure.__init__` from key, optional
custom S-box and the two magic-swap flags. -/
structure Ctx where
  sbox : List Nat
  rsbox : List Nat
  roundKeys : List (List (List Nat))
  rounds : Nat
  swapDR : Bool

/-- Construction of an `AesPure` instance (`__init__` followed by
`key_expansion`). -/
def mkCtx (key : List Nat) (sboxOpt : Option (List Nat)) (swapKS swapDR : Bool) : Ctx :=
  let sbox := resolveSbox sboxOpt
  { sbox := sbox
    rsbox := rsboxList sbox
    roundKeys := roundKeysOf sbox swapKS key
    rounds := (normalizeKey key).2
    swapDR := swapDR }

/-- Byte-level `AesPure.encrypt_block`. -/
def encryptBlock (ctx : Ctx) (block : List Nat) : List Nat :=
  ofSt (encryptSt (sboxAt ctx.sbox) ctx.swapDR ctx.roundKeys ctx.rounds (toSt block))

/-- Byte-level `AesPure.decrypt_block`. -/
def decryptBlock (ctx : Ctx) (block : List Nat) : List Nat :=
  ofSt (decryptSt (sboxAt ctx.rsbox) ctx.swapDR ctx.roundKeys ctx.rounds (toSt block))

end Aes


namespace Sm4

/-- Standard SM4 S-box `SM4Encoders.STANDARD_SBOX` (GB/T 32907-2016). -/
def STANDARD_SBOX : List Nat := [
  214, 144, 233, 254, 204, 225, 61, 183, 22, 182, 20, 194, 40, 251, 44, 5,
  43, 103, 154, 118, 42, 190, 4, 195, 170, 68, 19, 38, 73, 134, 6, 153,
  156, 66, 80, 244, 145, 239, 152, 122, 51, 84, 11, 67, 237, 207, 172, 98,
  228, 179, 28, 169, 201, 8, 232, 149, 128, 223, 148, 250, 117, 143, 63, 166,
  71, 7, 167, 252, 243, 115, 23, 186, 131, 89, 60, 25, 230, 133, 79, 168,
  104, 107, 129, 178, 113, 100, 218, 139, 248, 235, 15, 75, 112, 86, 157, 53,
  30, 36, 14, 94, 99, 88, 209, 162, 37, 34, 124, 59, 1, 33, 120, 135,
  212, 0, 70, 87, 159, 211, 39, 82, 76, 54, 2, 231, 160, 196, 200, 158,
  234, 191, 138, 210, 64, 199, 56, 181, 163, 247, 242, 206, 249, 97, 21, 161,
  224, 174, 93, 164, 155, 52, 26, 85, 173, 147, 50, 48, 245, 140, 177, 227,
  29, 246, 226, 46, 130, 102, 202, 96, 192, 41, 35, 171, 13, 83, 78, 111,
  213, 219, 55, 69, 222, 253, 142, 47, 3, 255, 106, 114, 109, 108, 91, 81,
  141, 27, 175, 146, 187, 221, 188, 127, 17, 217, 92, 65, 31, 16, 90, 216,
  10, 193, 49, 136, 165, 205, 123, 189, 45, 116, 208, 18, 184, 229, 180, 176,
  137, 105, 151, 74, 12, 150, 119, 126, 101, 185, 241, 9, 197, 110, 198, 132,
  24, 240, 125, 236, 58, 220, 77, 32, 121, 238, 95, 62, 215, 203, 57, 72]

/-- System parameter `SM4Encoders.SM4_FK`. -/
def SM4_FK : List Nat := [
  2746333894, 1453994832, 1736282519, 2993693404]

/-- Fixed parameter `SM4Encoders.SM4_CK`. -/
def SM4_CK : List Nat := [
  462357, 472066609, 943670861, 1415275113, 1886879365, 2358483617, 2830087869, 3301692121,
  3773296373, 4228057617, 404694573, 876298825, 1347903077, 1819507329, 2291111581, 2762715833,
  3234320085, 3705924337, 4177462797, 337322537, 808926789, 1280531041, 1752135293, 2223739545,
  2695343797, 3166948049, 3638552301, 4110090761, 269950501, 741554753, 1213159005, 1684763257]

/-- S-box lookup `self.sbox[i]` (Python list indexing). -/
def sboxAt (sbox : List Nat) (b : Nat) : Nat := sbox.getD b 0

/-- S-box resolution of `SM4Encoders.__init__`
(`if sbox and len(sbox) == 256` with fallback to the standard table). -/
def resolveSbox (sboxOpt : Option (List Nat)) : List Nat :=
  match sboxOpt with
  | some sb => if sb.length = 256 then sb else STANDARD_SBOX
  | none => STANDARD_SBOX

/-- 32-bit rotate left `SM4Encoders._rotl`. -/
def rotl (x n : Nat) : Nat := ((x <<< n) &&& 0xffffffff) ||| ((x >>> (32 - n)) &&& 0xffffffff)

/-- Non-linear transform `SM4Encoders._tau` (standard byte order). -/
def tau (sbox : List Nat) (a : Nat) : Nat :=
  let b0 := sboxAt sbox ((a >>> 24) &&& 0xff)
  let b1 := sboxAt sbox ((a >>> 16) &&& 0xff)
  let b2 := sboxAt sbox ((a >>> 8) &&& 0xff)
  let b3 := sboxAt sbox (a &&& 0xff)
  (b0 <<< 24) ||| (b1 <<< 16) ||| (b2 <<< 8) ||| b3

/-- Non-linear transform `SM4Encoders._tau_swapped` (reversed byte order). -/
def tauSwapped (sbox : List Nat) (a : Nat) : Nat :=
  let b0 := sboxAt sbox ((a >>> 24) &&& 0xff)
  let b1 := sboxAt sbox ((a >>> 16) &&& 0xff)
  let b2 := sboxAt sbox ((a >>> 8) &&& 0xff)
  let b3 := sboxAt sbox (a &&& 0xff)
  (b3 <<< 24) ||| (b2 <<< 16) ||| (b1 <<< 8) ||| b0

/-- Key-schedule linear transform `SM4Encoders._l_key`. -/
def lKey (b : Nat) : Nat := b ^^^ rotl b 13 ^^^ rotl b 23

/-- Round linear transform `SM4Encoders._l`. -/
def lRound (b : Nat) : Nat :=
  b ^^^ rotl b 2 ^^^ rotl b 10 ^^^ rotl b 18 ^^^ rotl b 24

/-- Key normalisation of `SM4Encoders.set_key`: `struct.unpack('>4I', key)`
succeeds only on exactly 16 bytes; otherwise the key is zero-padded (if
shorter) or truncated (if longer) to 16 bytes. -/
def normKey16 (key : List Nat) : List Nat :=
  if key.length < 16 then key ++ List.replicate (16 - key.length) 0
  else key.take 16

/-- Big-endian 32-bit word `i` of a 16-byte string (`struct.unpack('>4I', b)[i]`). -/
def wordAt (b : List Nat) (i : Nat) : Nat :=
  ((b.getD (4 * i) 0 * 256 + b.getD (4 * i + 1) 0) * 256 + b.getD (4 * i + 2) 0) * 256 +
    b.getD (4 * i + 3) 0

/-- Big-endian serialisation of one 32-bit word to 4 bytes (one word of
`struct.pack('>4I', ...)`). -/
def wordBytes (w : Nat) : List Nat :=
  [w / 16777216 % 256, w / 65536 % 256, w / 256 % 256, w % 256]

/-- Round-key schedule `SM4Encoders.set_key` (before the decryption-order
reversal): the 32 words `sk[0..31]`. -/
def skOf (sbox : List Nat) (swapKS : Bool) (key : List Nat) : List Nat :=
  let k := normKey16 key
  let K : List Nat :=
    [wordAt k 0 ^^^ SM4_FK.getD 0 0, wordAt k 1 ^^^ SM4_FK.getD 1 0,
     wordAt k 2 ^^^ SM4_FK.getD 2 0, wordAt k 3 ^^^ SM4_FK.getD 3 0]
  let Kfull := (List.range 32).foldl (fun K i =>
    let rk := K.getD (i + 1) 0 ^^^ K.getD (i + 2) 0 ^^^ K.getD (i + 3) 0 ^^^ SM4_CK.getD i 0
    let rk := if swapKS then tauSwapped sbox rk else tau sbox rk
    let rk := lKey rk
    K ++ [K.getD i 0 ^^^ rk]) K
  Kfull.drop 4

/-- Four 32-bit working registers `X[0..3]` of `SM4Encoders.one_round`. -/
structure Quad where
  x0 : Nat
  x1 : Nat
  x2 : Nat
  x3 : Nat
deriving DecidableEq, Repr

/-- One Feistel round of the loop in `SM4Encoders.one_round`, for round
function `F` (the S-box/`_l` composition) and round key `k`. -/
def feistelStep (F : Nat → Nat) (w : Quad) (k : Nat) : Quad :=
  let temp := F (w.x1 ^^^ w.x2 ^^^ w.x3 ^^^ k)
  ⟨w.x1, w.x2, w.x3, w.x0 ^^^ temp⟩

/-- Reversal of the register tuple, as in the final
`struct.pack('>4I', X[3], X[2], X[1], X[0])`. -/
def quadRev (w : Quad) : Quad := ⟨w.x3, w.x2, w.x1, w.x0⟩

/-- Round function applied inside the loop of `SM4Encoders.one_round`:
`_l` after the selected `_tau` variant. -/
def roundF (sbox : List Nat) (swapDR : Bool) (t : Nat) : Nat :=
  lRound (if swapDR then tauSwapped sbox t else tau sbox t)

/-- Serialisation of the four registers in reversed order
(`struct.pack('>4I', X[3], X[2], X[1], X[0])`). -/
def packRev (w : Quad) : List Nat :=
  wordBytes w.x3 ++ wordBytes w.x2 ++ wordBytes w.x1 ++ wordBytes w.x0

/-- Block transform `SM4Encoders.one_round`: `struct.unpack` raises
`struct.error` unless the block is exactly 16 bytes. -/
def oneRound (sbox : List Nat) (swapDR : Bool) (sk : List Nat) (block : List Nat) :
    Except String (List Nat) :=
  if block.length ≠ 16 then .error "struct.error: unpack requires a buffer of 16 bytes"
  else .ok (packRev (sk.foldl (feistelStep (roundF sbox swapDR))
    ⟨wordAt block 0, wordAt block 1, wordAt block 2, wordAt block 3⟩))

end Sm4

/-! Text transport layer: base64 and hex codecs and S-box argument parsing.
These model the behaviour of the Python standard-library helpers
(`base64.b64encode`/`b64decode`, `binascii.unhexlify`, `json.loads`) on the
shapes of data the engine feeds them. -/

/-- Base64 alphabet in table order. -/
def B64_ALPHABET : List Char :=
  "ABCDEFGHIJKLMNOPQRSTUVWXYZabcdefghijklmnopqrstuvwxyz0123456789+/".toList

/-- Character for a 6-bit group. -/
def b64charOf (n : Nat) : Char := B64_ALPHABET.getD n '?'

/-- Whether a character belongs to the base64 alphabet. -/
def isB64Char (c : Char) : Bool := B64_ALPHABET.contains c

/-- Index of a base64 character in the alphabet. -/
def b64invOf (c : Char) : Nat := B64_ALPHABET.indexOf c

/-- Standard base64 encoding with '=' padding (`base64.b64encode`). -/
def b64encode : List Nat → List Char
  | a :: b :: c :: rest =>
    let w := (a * 256 + b) * 256 + c
    b64charOf (w / 262144) :: b64charOf (w / 4096 % 64) ::
      b64charOf (w / 64 % 64) :: b64charOf (w % 64) :: b64encode rest
  | [a, b] =>
    let w := (a * 256 + b) * 4
    [b64charOf (w / 4096), b64charOf (w / 64 % 64), b64charOf (w % 64), '=']
  | [a] =>
    let w := a * 16
    [b64charOf (w / 64), b64charOf (w % 64), '=', '=']
  | [] => []

/-- Decoding of a base64 quantum stream whose length is a multiple of 4
(`'='` is accepted only as final-quantum padding). -/
def b64decodeGroups : List Char → Option (List Nat)
  | [] => some []
  | c1 :: c2 :: c3 :: c4 :: rest =>
    if isB64Char c1 ∧ isB64Char c2 then
      let v1 := b64invOf c1
      let v2 := b64invOf c2
      if c3 = '=' then
        if c4 = '=' ∧ rest = [] then some [v1 * 4 + v2 / 16] else none
      else if isB64Char c3 then
        let v3 := b64invOf c3
        if c4 = '=' then
          if rest = [] then some [v1 * 4 + v2 / 16, v2 % 16 * 16 + v3 / 4] else none
        else if isB64Char c4 then
          match b64decodeGroups rest with
          | some tail => some ([v1 * 4 + v2 / 16, v2 % 16 * 16 + v3 / 4,
              v3 % 4 * 64 + b64invOf c4] ++ tail)
          | none => none
        else none
      else none
    else none
  | _ => none

/-- Standard base64 decoding (`base64.b64decode` with `validate=False`):
characters outside the alphabet and '=' are discarded, then the remaining
length must be a multiple of four or `binascii.Error` is raised. -/
def b64decode (s : List Char) : Option (List Nat) :=
  let filtered := s.filter fun c => isB64Char c || c == '='
  if filtered.length % 4 ≠ 0 then none else b64decodeGroups filtered

/-- Value of one hexadecimal digit. -/
def hexVal (c : Char) : Option Nat :=
  if '0' ≤ c ∧ c ≤ '9' then some (c.toNat - 48)
  else if 'a' ≤ c ∧ c ≤ 'f' then some (c.toNat - 87)
  else if 'A' ≤ c ∧ c ≤ 'F' then some (c.toNat - 55)
  else none

/-- Hex-string decoding (`bytes.fromhex` / `binascii.unhexlify`): fails on an
odd number of digits or any non-hex character. -/
def hexDecode : List Char → Option (List Nat)
  | [] => some []
  | c1 :: c2 :: rest =>
    match hexVal c1, hexVal c2, hexDecode rest with
    | some h, some l, some tail => some ((h * 16 + l) :: tail)
    | _, _, _ => none
  | _ => none

/-- Whitespace skipping for the JSON reader. -/
def skipWs : List Char → List Char
  | [] => []
  | c :: rest => if c = ' ' ∨ c = '\t' ∨ c = '\n' ∨ c = '\r' then skipWs rest else c :: rest

/-- Reading of one non-negative decimal integer. -/
def readNat (s : List Char) : Option (Nat × List Char) :=
  let digits := s.takeWhile Char.isDigit
  if digits = [] then none
  else some (digits.foldl (fun acc c => acc * 10 + (c.toNat - 48)) 0, s.dropWhile Char.isDigit)

/-- Reading of the comma-separated element list of a JSON array. -/
def jsonElems (fuel : Nat) (s : List Char) : Option (List Nat × List Char) :=
  match fuel with
  | 0 => none
  | fuel + 1 =>
    match readNat (skipWs s) with
    | none => none
    | some (n, rest) =>
      match skipWs rest with
      | ',' :: rest2 =>
        match jsonElems fuel rest2 with
        | some (ns, rest3) => some (n :: ns, rest3)
        | none => none
      | ']' :: rest2 => some ([n], rest2)
      | _ => none

/-- Parsing of a JSON array of non-negative integers, modelling the
`json.loads` call of `_parse_sbox` on the shapes the engine consumes
(any other JSON document counts as failure, as does a parsed non-list). -/
def jsonNatArray (s : List Char) : Option (List Nat) :=
  match skipWs s with
  | '[' :: rest =>
    match skipWs rest with
    | ']' :: rest2 => if skipWs rest2 = [] then some [] else none
    | _ =>
      match jsonElems (s.length + 1) rest with
      | some (ns, rest2) => if skipWs rest2 = [] then some ns else none
      | none => none
  | _ => none

/-- Raw `sbox` argument at the call boundary: absent (`None`/empty), a Python
list, or a string. -/
inductive SboxArg where
  | absent
  | ofList (l : List Nat)
  | ofStr (s : List Char)

/-- Hex-string branch of `_parse_sbox`: spaces and newlines are stripped, the
rest must unhexlify to exactly 256 bytes. -/
def parseSboxHex (s : List Char) : Option (List Nat) :=
  match hexDecode (s.filter fun c => c ≠ ' ' ∧ c ≠ '\n') with
  | some bs => if bs.length = 256 then some bs else none
  | none => none

/-- S-box argument resolution `_parse_sbox` (shared verbatim by
`AesPureEncoders._parse_sbox` and `SM4Encoders._parse_sbox`): a 256-element
list is returned as-is; a string is tried as JSON and then as hex; every
other input yields no table (a wrong-length list fails the `isinstance`
check and then both `except` blocks swallow the resulting errors). -/
def parseSbox : SboxArg → Option (List Nat)
  | .absent => none
  | .ofList l => if l.length = 256 then some l else none
  | .ofStr s =>
    if s = [] then none
    else
      match jsonNatArray s with
      | some arr =>
        if arr.length = 256 then some arr else parseSboxHex s
      | none => parseSboxHex s

/-- Declared transport encoding of the ciphertext input (`data_type`). -/
inductive DataType where
  | default
  | hex
  | base64
deriving DecidableEq, Repr

/-- Outcome of the ciphertext-parsing step at the top of `decrypt`. -/
inductive ParsedData where
  | bytes (l : List Nat)
  | earlyOut (l : List Nat)
  | fail (e : String)

/-- Ciphertext parsing at the top of `decrypt`: a declared encoding that fails
to parse raises; an undeclared (default base64) failure returns the
cipher-specific marker value as a normal result. -/
def parseCipherData (marker : List Nat) (dataType : DataType) (data : List Char) : ParsedData :=
  match dataType with
  | .hex =>
    match hexDecode (data.filter fun c => c ≠ ' ' ∧ c ≠ '\n') with
    | some bs => .bytes bs
    | none => .fail "input data parse failure (hex)"
  | .base64 =>
    match b64decode data with
    | some bs => .bytes bs
    | none => .fail "input data parse failure (base64)"
  | .default =>
    match b64decode data with
    | some bs => .bytes bs
    | none => .earlyOut marker

namespace AesEnc

/-- Padding `AesPureEncoders._pad`. The random filler of ISO 10126 is
modelled as zero bytes: only its length and final byte are ever inspected. -/
def pad (data : List Nat) (p : Padding) : List Nat :=
  match p with
  | .nopadding => data
  | .pkcs7 => data ++ List.replicate (16 - data.length % 16) (16 - data.length % 16)
  | .zeropadding => data ++ List.replicate (16 - data.length % 16) 0
  | .iso10126 => data ++ List.replicate (16 - data.length % 16 - 1) 0 ++ [16 - data.length % 16]
  | .ansix923 => data ++ List.replicate (16 - data.length % 16 - 1) 0 ++ [16 - data.length % 16]

/-- Unpadding `AesPureEncoders._unpad`; `data[-1]` on an empty input raises
`IndexError`, and a trailing length byte outside 1..16 raises `ValueError`. -/
def unpad (data : List Nat) (p : Padding) : Except String (List Nat) :=
  match p with
  | .nopadding => .ok data
  | .zeropadding => .ok ((data.reverse.dropWhile (fun b => b = 0)).reverse)
  | _ =>
    if data = [] then .error "IndexError"
    else
      let padLen := data.getLastD 0
      if 16 < padLen ∨ padLen < 1 then .error "Invalid padding length"
      else .ok (data.take (data.length - padLen))

/-- ECB encryption loop of `AesPureEncoders.encrypt`: a trailing chunk
shorter than 16 bytes terminates the loop (`break`). -/
def ecbEnc (ctx : Aes.Ctx) (l : List Nat) : List Nat :=
  if l.length < 16 then []
  else Aes.encryptBlock ctx (l.take 16) ++ ecbEnc ctx (l.drop 16)
termination_by l.length
decreasing_by simp; omega

/-- ECB decryption loop of `AesPureEncoders.decrypt` (same `break` guard). -/
def ecbDec (ctx : Aes.Ctx) (l : List Nat) : List Nat :=
  if l.length < 16 then []
  else Aes.decryptBlock ctx (l.take 16) ++ ecbDec ctx (l.drop 16)
termination_by l.length
decreasing_by simp; omega

/-- CBC encryption loop of `AesPureEncoders.encrypt`: a trailing partial
chunk is XORed (truncating) with the previous block and handed to
`encrypt_block`, which raises `IndexError` on a short state. -/
def cbcEnc (ctx : Aes.Ctx) (prev l : List Nat) : Except String (List Nat) :=
  if h : l = [] then .ok []
  else if (lxor (l.take 16) prev).length < 16 then
    .error "IndexError: encrypt_block on a short block"
  else
    match cbcEnc ctx (Aes.encryptBlock ctx (lxor (l.take 16) prev)) (l.drop 16) with
    | .ok rest => .ok (Aes.encryptBlock ctx (lxor (l.take 16) prev) ++ rest)
    | .error e => .error e
termination_by l.length
decreasing_by simp only [List.length_drop]; have := List.length_pos.mpr h; omega

/-- CBC decryption loop of `AesPureEncoders.decrypt` (`break` on a short
trailing chunk). -/
def cbcDec (ctx : Aes.Ctx) (prev l : List Nat) : List Nat :=
  if l.length < 16 then []
  else lxor (Aes.decryptBlock ctx (l.take 16)) prev ++ cbcDec ctx (l.take 16) (l.drop 16)
termination_by l.length
decreasing_by simp; omega

/-- CTR keystream loop, shared by `encrypt` and `decrypt` (both sides run the
identical XOR loop): the counter is an unbounded integer and
`ctr.to_bytes(16, 'big')` raises `OverflowError` once it reaches 2^128. -/
def ctrProc (ctx : Aes.Ctx) (ctr : Nat) (l : List Nat) : Except String (List Nat) :=
  if h : l = [] then .ok []
  else if 2 ^ 128 ≤ ctr then .error "OverflowError: int too big to convert"
  else
    match ctrProc ctx (ctr + 1) (l.drop 16) with
    | .ok rest => .ok (lxor (l.take 16)
        ((Aes.encryptBlock ctx (natToBytesBE 16 ctr)).take (l.take 16).length) ++ rest)
    | .error e => .error e
termination_by l.length
decreasing_by simp only [List.length_drop]; have := List.length_pos.mpr h; omega

/-- OFB keystream loop, shared by `encrypt` and `decrypt` (identical code). -/
def ofbProc (ctx : Aes.Ctx) (lastIv l : List Nat) : List Nat :=
  if h : l = [] then []
  else lxor (l.take 16) ((Aes.encryptBlock ctx lastIv).take (l.take 16).length) ++
    ofbProc ctx (Aes.encryptBlock ctx lastIv) (l.drop 16)
termination_by l.length
decreasing_by simp only [List.length_drop]; have := List.length_pos.mpr h; omega

/-- CFB encryption loop of `AesPureEncoders.encrypt`: the keystream source is
the previous ciphertext block. -/
def cfbEnc (ctx : Aes.Ctx) (lastBlock l : List Nat) : List Nat :=
  if h : l = [] then []
  else lxor (l.take 16) ((Aes.encryptBlock ctx lastBlock).take (l.take 16).length) ++
    cfbEnc ctx
      (if (l.take 16).length = 16 then
        lxor (l.take 16) ((Aes.encryptBlock ctx lastBlock).take (l.take 16).length)
      else lastBlock)
      (l.drop 16)
termination_by l.length
decreasing_by simp only [List.length_drop]; have := List.length_pos.mpr h; omega

/-- CFB decryption loop of `AesPureEncoders.decrypt`: the keystream source is
the received ciphertext block itself. -/
def cfbDec (ctx : Aes.Ctx) (lastBlock l : List Nat) : List Nat :=
  if h : l = [] then []
  else lxor (l.take 16) ((Aes.encryptBlock ctx lastBlock).take (l.take 16).length) ++
    cfbDec ctx (if (l.take 16).length = 16 then l.take 16 else lastBlock) (l.drop 16)
termination_by l.length
decreasing_by simp only [List.length_drop]; have := List.length_pos.mpr h; omega

/-- Mode dispatch of `AesPureEncoders.encrypt` over already-padded data. -/
def encryptRaw (ctx : Aes.Ctx) (mode : Mode) (iv padded : List Nat) :
    Except String (List Nat) :=
  match mode with
  | .ECB => .ok (ecbEnc ctx padded)
  | .CBC => cbcEnc ctx iv padded
  | .CTR => ctrProc ctx (natFromBytesBE iv) padded
  | .OFB => .ok (ofbProc ctx iv padded)
  | .CFB => .ok (cfbEnc ctx iv padded)

/-- Full `AesPureEncoders.encrypt` at the byte level: `dataBytes` is the
UTF-8/hex-decoded plaintext, `key` the derived key bytes, `ivBytes` the
derived 16-byte IV when one was supplied. When no IV was supplied and the
mode is not ECB, the zero IV is used and prepended to the ciphertext before
base64 encoding. -/
def encrypt (key : List Nat) (mode : Mode) (ivBytes : Option (List Nat))
    (padding : Padding) (sboxArg : SboxArg) (swapKS swapDR : Bool)
    (dataBytes : List Nat) : Except String (List Char) :=
  if dataBytes = [] then .ok []
  else
    let ctx := Aes.mkCtx key (parseSbox sboxArg) swapKS swapDR
    let iv := match ivBytes with
      | some v => v
      | none => List.replicate 16 0
    let padded := if mode.isStream ∧ padding = .nopadding then dataBytes
      else pad dataBytes padding
    match encryptRaw ctx mode iv padded with
    | .error e => .error e
    | .ok res =>
      if ivBytes = none ∧ mode ≠ .ECB then .ok (b64encode (iv ++ res))
      else .ok (b64encode res)

/-- IV resolution of `AesPureEncoders.decrypt`: with no supplied IV and a
non-ECB mode, the first 16 ciphertext bytes are consumed as the IV, and an
input shorter than that raises `ValueError`. -/
def ivResolve (mode : Mode) (ivBytes : Option (List Nat)) (encrypted : List Nat) :
    Except String (List Nat × List Nat) :=
  match mode with
  | .ECB => .ok ([], encrypted)
  | _ =>
    match ivBytes with
    | some v => .ok (v, encrypted)
    | none =>
      if encrypted.length < 16 then .error "encrypted data too short to extract IV"
      else .ok (encrypted.take 16, encrypted.drop 16)

/-- Marker string `"[Error] Invalid input data"` returned (as a normal value)
by `AesPureEncoders.decrypt` when undeclared base64 input fails to parse. -/
def invalidInputMarker : List Nat := "[Error] Invalid input data".toList.map Char.toNat

/-- Full `AesPureEncoders.decrypt` at the byte level, up to and including
unpadding (the final printable-text rendering is the identity on the byte
content and is not modelled). A padding-removal failure is swallowed and the
still-padded bytes are returned. -/
def decrypt (key : List Nat) (mode : Mode) (ivBytes : Option (List Nat))
    (padding : Padding) (sboxArg : SboxArg) (swapKS swapDR : Bool)
    (dataType : DataType) (data : List Char) : Except String (List Nat) :=
  if data = [] then .ok []
  else
    let ctx := Aes.mkCtx key (parseSbox sboxArg) swapKS swapDR
    match parseCipherData invalidInputMarker dataType data with
    | .fail e => .error e
    | .earlyOut m => .ok m
    | .bytes encrypted =>
      match ivResolve mode ivBytes encrypted with
      | .error e => .error e
      | .ok (iv, dataContent) =>
        let res : Except String (List Nat) :=
          match mode with
          | .ECB => .ok (ecbDec ctx dataContent)
          | .CBC => .ok (cbcDec ctx iv dataContent)
          | .CTR => ctrProc ctx (natFromBytesBE iv) dataContent
          | .OFB => .ok (ofbProc ctx iv dataContent)
          | .CFB => .ok (cfbDec ctx iv dataContent)
        match res with
        | .error e => .error e
        | .ok r =>
          if mode.isStream then .ok r
          else
            match unpad r padding with
            | .ok u => .ok u
            | .error _ => .ok r

end AesEnc

namespace Sm4Enc

/-- Padding `SM4Encoders._pad_data`; unlike the AES `_pad`, an already
aligned input is left unpadded by `zeropadding`. ISO 10126 random filler is
modelled as zero bytes (only its length and final byte are ever read). -/
def pad (data : List Nat) (p : Padding) : List Nat :=
  match p with
  | .pkcs7 => data ++ List.replicate (16 - data.length % 16) (16 - data.length % 16)
  | .zeropadding =>
    if data.length % 16 = 0 then data
    else data ++ List.replicate (16 - data.length % 16) 0
  | .iso10126 => data ++ List.replicate (16 - data.length % 16 - 1) 0 ++ [16 - data.length % 16]
  | .ansix923 => data ++ List.replicate (16 - data.length % 16 - 1) 0 ++ [16 - data.length % 16]
  | .nopadding => data

/-- Unpadding `SM4Encoders._unpad_data`; the PKCS#7 branch additionally
verifies every padding byte. -/
def unpad (data : List Nat) (p : Padding) : Except String (List Nat) :=
  match p with
  | .pkcs7 =>
    if data = [] then .error "IndexError"
    else
      let padLen := data.getLastD 0
      if 16 < padLen ∨ padLen < 1 then .error "Invalid PKCS7 padding length"
      else if data.drop (data.length - padLen) ≠ List.replicate padLen padLen then
        .error "Invalid PKCS7 padding bytes"
      else .ok (data.take (data.length - padLen))
  | .zeropadding => .ok ((data.reverse.dropWhile (fun b => b = 0)).reverse)
  | .iso10126 | .ansix923 =>
    if data = [] then .error "IndexError"
    else
      let padLen := data.getLastD 0
      if 16 < padLen ∨ padLen < 1 then .error "Invalid padding length"
      else .ok (data.take (data.length - padLen))
  | .nopadding => .ok data

/-- SM4 cipher instance as configured by `SM4Encoders.__init__` plus
`set_key` (the round keys are reversed when `mode=1` i.e. decryption). -/
structure Ctx where
  sbox : List Nat
  sk : List Nat
  swapDR : Bool

/-- Construction mirroring `SM4Encoders(custom_sbox)` followed by
`set_key(key_bytes, mode, ...)`. -/
def mkCtx (key : List Nat) (sboxOpt : Option (List Nat)) (decryptOrder : Bool)
    (swapKS swapDR : Bool) : Ctx :=
  let sbox := Sm4.resolveSbox sboxOpt
  let sk := Sm4.skOf sbox swapKS key
  { sbox := sbox, sk := if decryptOrder then sk.reverse else sk, swapDR := swapDR }

/-- Block call `sm4.one_round(block)`. -/
def blockOp (ctx : Ctx) (b : List Nat) : Except String (List Nat) :=
  Sm4.oneRound ctx.sbox ctx.swapDR ctx.sk b

/-- Value computed by `one_round` on a well-formed 16-byte block (the
non-error branch of `blockOp`). -/
def blockVal (ctx : Ctx) (b : List Nat) : List Nat :=
  Sm4.packRev (ctx.sk.foldl (Sm4.feistelStep (Sm4.roundF ctx.sbox ctx.swapDR))
    ⟨Sm4.wordAt b 0, Sm4.wordAt b 1, Sm4.wordAt b 2, Sm4.wordAt b 3⟩)

/-- ECB encryption loop of `SM4Encoders.sm4_encrypt` (`break` on a trailing
chunk shorter than 16 bytes). -/
def ecbEnc (ctx : Ctx) (l : List Nat) : Except String (List Nat) :=
  if l.length < 16 then .ok []
  else
    match blockOp ctx (l.take 16) with
    | .error e => .error e
    | .ok enc =>
      match ecbEnc ctx (l.drop 16) with
      | .ok rest => .ok (enc ++ rest)
      | .error e => .error e
termination_by l.length
decreasing_by simp; omega

/-- ECB decryption loop of `SM4Encoders.sm4_decrypt`: unlike every other ECB
loop in the engine there is no short-chunk guard, so a trailing partial
block reaches `one_round` and raises `struct.error`. -/
def ecbDec (ctx : Ctx) (l : List Nat) : Except String (List Nat) :=
  if h : l = [] then .ok []
  else
    match blockOp ctx (l.take 16) with
    | .error e => .error e
    | .ok dec =>
      match ecbDec ctx (l.drop 16) with
      | .ok rest => .ok (dec ++ rest)
      | .error e => .error e
termination_by l.length
decreasing_by simp only [List.length_drop]; have := List.length_pos.mpr h; omega

/-- CBC encryption loop of `SM4Encoders.sm4_encrypt`: a trailing partial
chunk is XORed (truncating) into a short block that makes `one_round`
raise `struct.error`. -/
def cbcEnc (ctx : Ctx) (lastBlock l : List Nat) : Except String (List Nat) :=
  if h : l = [] then .ok []
  else
    match blockOp ctx (lxor (l.take 16) lastBlock) with
    | .error e => .error e
    | .ok out =>
      match cbcEnc ctx out (l.drop 16) with
      | .ok rest => .ok (out ++ rest)
      | .error e => .error e
termination_by l.length
decreasing_by simp only [List.length_drop]; have := List.length_pos.mpr h; omega

/-- CBC decryption loop of `SM4Encoders.sm4_decrypt` (again without a
short-chunk guard). -/
def cbcDec (ctx : Ctx) (lastBlock l : List Nat) : Except String (List Nat) :=
  if h : l = [] then .ok []
  else
    match blockOp ctx (l.take 16) with
    | .error e => .error e
    | .ok out =>
      match cbcDec ctx (l.take 16) (l.drop 16) with
      | .ok rest => .ok (lxor out lastBlock ++ rest)
      | .error e => .error e
termination_by l.length
decreasing_by simp only [List.length_drop]; have := List.length_pos.mpr h; omega

/-- CTR keystream loop shared by `sm4_encrypt` and `sm4_decrypt`: the counter
is unbounded and `ctr.to_bytes(16, 'big')` raises `OverflowError` at 2^128. -/
def ctrProc (ctx : Ctx) (ctr : Nat) (l : List Nat) : Except String (List Nat) :=
  if h : l = [] then .ok []
  else if 2 ^ 128 ≤ ctr then .error "OverflowError: int too big to convert"
  else
    match blockOp ctx (natToBytesBE 16 ctr) with
    | .error e => .error e
    | .ok keystream =>
      match ctrProc ctx (ctr + 1) (l.drop 16) with
      | .ok rest => .ok (lxor (l.take 16) (keystream.take (l.take 16).length) ++ rest)
      | .error e => .error e
termination_by l.length
decreasing_by simp only [List.length_drop]; have := List.length_pos.mpr h; omega

/-- OFB keystream loop shared by `sm4_encrypt` and `sm4_decrypt`. -/
def ofbProc (ctx : Ctx) (lastIv l : List Nat) : Except String (List Nat) :=
  if h : l = [] then .ok []
  else
    match blockOp ctx lastIv with
    | .error e => .error e
    | .ok keystream =>
      match ofbProc ctx keystream (l.drop 16) with
      | .ok rest => .ok (lxor (l.take 16) (keystream.take (l.take 16).length) ++ rest)
      | .error e => .error e
termination_by l.length
decreasing_by simp only [List.length_drop]; have := List.length_pos.mpr h; omega

/-- CFB encryption loop of `SM4Encoders.sm4_encrypt`. -/
def cfbEnc (ctx : Ctx) (lastBlock l : List Nat) : Except String (List Nat) :=
  if h : l = [] then .ok []
  else
    match blockOp ctx lastBlock with
    | .error e => .error e
    | .ok keystream =>
      match cfbEnc ctx
          (if (l.take 16).length = 16 then lxor (l.take 16) (keystream.take (l.take 16).length)
          else lastBlock) (l.drop 16) with
      | .ok rest => .ok (lxor (l.take 16) (keystream.take (l.take 16).length) ++ rest)
      | .error e => .error e
termination_by l.length
decreasing_by simp only [List.length_drop]; have := List.length_pos.mpr h; omega

/-- CFB decryption loop of `SM4Encoders.sm4_decrypt` (keystream chained on
the received ciphertext block). -/
def cfbDec (ctx : Ctx) (lastBlock l : List Nat) : Except String (List Nat) :=
  if h : l = [] then .ok []
  else
    match blockOp ctx lastBlock with
    | .error e => .error e
    | .ok keystream =>
      match cfbDec ctx (if (l.take 16).length = 16 then l.take 16 else lastBlock)
          (l.drop 16) with
      | .ok rest => .ok (lxor (l.take 16) (keystream.take (l.take 16).length) ++ rest)
      | .error e => .error e
termination_by l.length
decreasing_by simp only [List.length_drop]; have := List.length_pos.mpr h; omega

/-- Mode dispatch of `SM4Encoders.sm4_encrypt` over already-padded data. -/
def encryptRaw (ctx : Ctx) (mode : Mode) (iv padded : List Nat) :
    Except String (List Nat) :=
  match mode with
  | .ECB => ecbEnc ctx padded
  | .CBC => cbcEnc ctx iv padded
  | .CTR => ctrProc ctx (natFromBytesBE iv) padded
  | .OFB => ofbProc ctx iv padded
  | .CFB => cfbEnc ctx iv padded

/-- Full `SM4Encoders.sm4_encrypt` at the byte level (`key` and `ivBytes` are
the derived key/IV bytes; the legacy `swap_endian` flag forces both magic
swaps on). -/
def encrypt (key : List Nat) (mode : Mode) (ivBytes : Option (List Nat))
    (padding : Padding) (sboxArg : SboxArg) (swapKS swapDR swapEndian : Bool)
    (dataBytes : List Nat) : Except String (List Char) :=
  if dataBytes = [] then .ok []
  else
    let sKS := swapKS || swapEndian
    let sDR := swapDR || swapEndian
    let ctx := mkCtx key (parseSbox sboxArg) false sKS sDR
    let iv := match ivBytes with
      | some v => v
      | none => List.replicate 16 0
    let padded := if mode.isStream ∧ padding = .nopadding then dataBytes
      else pad dataBytes padding
    match encryptRaw ctx mode iv padded with
    | .error e => .error e
    | .ok res =>
      if ivBytes = none ∧ mode ≠ .ECB then .ok (b64encode (iv ++ res))
      else .ok (b64encode res)

/-- Full `SM4Encoders.sm4_decrypt` at the byte level: an undecodable default
base64 input returns `""`, as does an input too short to contain an embedded
IV; a padding-removal failure propagates as an error. -/
def decrypt (key : List Nat) (mode : Mode) (ivBytes : Option (List Nat))
    (padding : Padding) (sboxArg : SboxArg) (swapKS swapDR swapEndian : Bool)
    (dataType : DataType) (data : List Char) : Except String (List Nat) :=
  if data = [] then .ok []
  else
    let sKS := swapKS || swapEndian
    let sDR := swapDR || swapEndian
    match parseCipherData [] dataType data with
    | .fail e => .error e
    | .earlyOut m => .ok m
    | .bytes encrypted =>
      let short := mode ≠ .ECB ∧ ivBytes = none ∧ encrypted.length < 16
      if short then .ok []
      else
        let iv := match mode, ivBytes with
          | .ECB, _ => []
          | _, some v => v
          | _, none => encrypted.take 16
        let dataContent := match mode, ivBytes with
          | .ECB, _ => encrypted
          | _, some _ => encrypted
          | _, none => encrypted.drop 16
        let ctx := mkCtx key (parseSbox sboxArg) (mode = .ECB ∨ mode = .CBC) sKS sDR
        let res : Except String (List Nat) :=
          match mode with
          | .ECB => ecbDec ctx dataContent
          | .CBC => cbcDec ctx iv dataContent
          | .CTR => ctrProc ctx (natFromBytesBE iv) dataContent
          | .OFB => ofbProc ctx iv dataContent
          | .CFB => cfbDec ctx iv dataContent
        match res with
        | .error e => .error e
        | .ok r =>
          if mode.isStream then .ok r
          else
            match unpad r padding with
            | .ok u => .ok u
            | .error e => .error e

end Sm4Enc


/-! Byte-level XOR and xtime algebra, and the MixColumns inverse identity. -/

instance : Std.Associative (fun (a b : Nat) => a ^^^ b) := ⟨Nat.xor_assoc⟩

instance : Std.Commutative (fun (a b : Nat) => a ^^^ b) := ⟨Nat.xor_comm⟩

theorem xor_cancel_pair (x y c : Nat) : (x ^^^ c) ^^^ (y ^^^ c) = x ^^^ y := by
  rw [Nat.xor_comm y c, ← Nat.xor_assoc, Nat.xor_assoc x c c, Nat.xor_self, Nat.xor_zero]

theorem byte_xor_lt {a b : Nat} (ha : a < 256) (hb : b < 256) : a ^^^ b < 256 := by
  have h : a ^^^ b < 2 ^ 8 := Nat.xor_lt_two_pow (by omega) (by omega)
  omega

namespace Aes

theorem xtime_lt (a : Nat) : xtime a < 256 := by
  unfold xtime
  split
  · have h : ((a <<< 1) ^^^ 27) &&& 255 ≤ 255 := Nat.and_le_right
    omega
  · have h : (a <<< 1) &&& 255 ≤ 255 := Nat.and_le_right
    omega

theorem xor_shiftLeft_one (x y : Nat) : (x ^^^ y) <<< 1 = (x <<< 1) ^^^ (y <<< 1) := by
  apply Nat.eq_of_testBit_eq
  intro i
  simp [Nat.testBit_shiftLeft, Nat.testBit_xor, Bool.and_xor_distrib_left]

theorem and128_eq (x : Nat) : x &&& 128 = if x.testBit 7 then 128 else 0 := by
  have h := Nat.and_two_pow x 7
  norm_num at h
  rw [h]
  cases hx : x.testBit 7 <;> simp

theorem xtime_eq (x : Nat) :
    xtime x = ((x <<< 1) ^^^ (if x.testBit 7 then 27 else 0)) &&& 255 := by
  unfold xtime
  rw [and128_eq]
  cases h : x.testBit 7 <;> simp

theorem xtime_add (a b : Nat) : xtime (a ^^^ b) = xtime a ^^^ xtime b := by
  rw [xtime_eq, xtime_eq, xtime_eq, Nat.testBit_xor, xor_shiftLeft_one,
    ← Nat.and_xor_distrib_right]
  congr 1
  cases ha : a.testBit 7 <;> cases hb : b.testBit 7 <;> simp <;>
    first
      | ac_rfl
      | exact (xor_cancel_pair (a <<< 1) (b <<< 1) 27).symm

theorem mixA_add (a1 b1 c1 d1 a2 b2 c2 d2 : Nat) :
    mixA (a1 ^^^ a2) (b1 ^^^ b2) (c1 ^^^ c2) (d1 ^^^ d2) =
      mixA a1 b1 c1 d1 ^^^ mixA a2 b2 c2 d2 := by
  unfold mixA
  rw [show (a1 ^^^ a2) ^^^ (b1 ^^^ b2) = (a1 ^^^ b1) ^^^ (a2 ^^^ b2) by ac_rfl, xtime_add]
  ac_rfl

theorem mixB_add (a1 b1 c1 d1 a2 b2 c2 d2 : Nat) :
    mixB (a1 ^^^ a2) (b1 ^^^ b2) (c1 ^^^ c2) (d1 ^^^ d2) =
      mixB a1 b1 c1 d1 ^^^ mixB a2 b2 c2 d2 := by
  unfold mixB
  rw [show (b1 ^^^ b2) ^^^ (c1 ^^^ c2) = (b1 ^^^ c1) ^^^ (b2 ^^^ c2) by ac_rfl, xtime_add]
  ac_rfl

theorem mixC_add (a1 b1 c1 d1 a2 b2 c2 d2 : Nat) :
    mixC (a1 ^^^ a2) (b1 ^^^ b2) (c1 ^^^ c2) (d1 ^^^ d2) =
      mixC a1 b1 c1 d1 ^^^ mixC a2 b2 c2 d2 := by
  unfold mixC
  rw [show (c1 ^^^ c2) ^^^ (d1 ^^^ d2) = (c1 ^^^ d1) ^^^ (c2 ^^^ d2) by ac_rfl, xtime_add]
  ac_rfl

theorem mixD_add (a1 b1 c1 d1 a2 b2 c2 d2 : Nat) :
    mixD (a1 ^^^ a2) (b1 ^^^ b2) (c1 ^^^ c2) (d1 ^^^ d2) =
      mixD a1 b1 c1 d1 ^^^ mixD a2 b2 c2 d2 := by
  unfold mixD
  rw [show (d1 ^^^ d2) ^^^ (a1 ^^^ a2) = (d1 ^^^ a1) ^^^ (d2 ^^^ a2) by ac_rfl, xtime_add]
  ac_rfl

theorem colMix_linear (x y : Col) : colMix (colXor x y) = colXor (colMix x) (colMix y) := by
  obtain ⟨a1, b1, c1, d1⟩ := x
  obtain ⟨a2, b2, c2, d2⟩ := y
  simp only [colMix, colXor, mixA_add, mixB_add, mixC_add, mixD_add]

theorem colPre_linear (x y : Col) : colPre (colXor x y) = colXor (colPre x) (colPre y) := by
  obtain ⟨a1, b1, c1, d1⟩ := x
  obtain ⟨a2, b2, c2, d2⟩ := y
  simp only [colPre, colXor, Col.mk.injEq]
  refine ⟨?_, ?_, ?_, ?_⟩ <;>
    · rw [show ∀ p q r t : Nat, (p ^^^ q) ^^^ (r ^^^ t) = (p ^^^ r) ^^^ (q ^^^ t) from
        fun p q r t => by ac_rfl, xtime_add, xtime_add]
      ac_rfl

theorem colRT_linear (x y : Col) :
    colMix (colPre (colMix (colXor x y))) =
      colXor (colMix (colPre (colMix x))) (colMix (colPre (colMix y))) := by
  rw [colMix_linear, colPre_linear, colMix_linear]

set_option maxHeartbeats 1000000 in
theorem colRT_axis0 : ∀ a < 256, colMix (colPre (colMix ⟨a, 0, 0, 0⟩)) = ⟨a, 0, 0, 0⟩ := by
  decide

set_option maxHeartbeats 1000000 in
theorem colRT_axis1 : ∀ a < 256, colMix (colPre (colMix ⟨0, a, 0, 0⟩)) = ⟨0, a, 0, 0⟩ := by
  decide

set_option maxHeartbeats 1000000 in
theorem colRT_axis2 : ∀ a < 256, colMix (colPre (colMix ⟨0, 0, a, 0⟩)) = ⟨0, 0, a, 0⟩ := by
  decide

set_option maxHeartbeats 1000000 in
theorem colRT_axis3 : ∀ a < 256, colMix (colPre (colMix ⟨0, 0, 0, a⟩)) = ⟨0, 0, 0, a⟩ := by
  decide

theorem colRT_id (a b c d : Nat) (ha : a < 256) (hb : b < 256) (hc : c < 256) (hd : d < 256) :
    colMix (colPre (colMix ⟨a, b, c, d⟩)) = ⟨a, b, c, d⟩ := by
  have hdec : (⟨a, b, c, d⟩ : Col) =
      colXor ⟨a, 0, 0, 0⟩ (colXor ⟨0, b, 0, 0⟩ (colXor ⟨0, 0, c, 0⟩ ⟨0, 0, 0, d⟩)) := by
    simp [colXor]
  rw [hdec, colRT_linear, colRT_linear, colRT_linear,
    colRT_axis0 a ha, colRT_axis1 b hb, colRT_axis2 c hc, colRT_axis3 d hd]

theorem col_eta (x : Col) : (⟨x.c0, x.c1, x.c2, x.c3⟩ : Col) = x := rfl

theorem invMix_mix (s : St) (hs : s.Bounded) : invMixColumns (mixColumns s) = s := by
  obtain ⟨a0, a1, a2, a3, b0, b1, b2, b3, c0, c1, c2, c3, d0, d1, d2, d3⟩ := s
  obtain ⟨h1, h2, h3, h4, h5, h6, h7, h8, h9, h10, h11, h12, h13, h14, h15, h16⟩ := hs
  simp only [invMixColumns, mixColumns, invMixPre, stOfCols, St.col0, St.col1, St.col2,
    St.col3, col_eta]
  rw [colRT_id a0 b0 c0 d0 h1 h5 h9 h13, colRT_id a1 b1 c1 d1 h2 h6 h10 h14,
    colRT_id a2 b2 c2 d2 h3 h7 h11 h15, colRT_id a3 b3 c3 d3 h4 h8 h12 h16]

end Aes

/-! State-operation inverses, commutation and boundedness. -/

namespace Aes

theorem getD_lt_of_bytes {l : List Nat} (hl : Bytes l) (n d : Nat) (hd : d < 256) :
    l.getD n d < 256 := by
  rcases Nat.lt_or_ge n l.length with h | h
  · rw [List.getD_eq_getElem l d h]
    exact hl _ (List.getElem_mem h)
  · rw [List.getD_eq_default l d h]
    exact hd

theorem sboxAt_lt {sbox : List Nat} (hs : Bytes sbox) (b : Nat) : sboxAt sbox b < 256 :=
  getD_lt_of_bytes hs b 0 (by omega)

theorem stdSbox_bytes : Bytes STANDARD_SBOX := by decide

theorem rsboxList_std : rsboxList STANDARD_SBOX = RSBOX_STD := by decide

set_option maxHeartbeats 1000000 in
theorem rsbox_sbox_std : ∀ b < 256, sboxAt RSBOX_STD (sboxAt STANDARD_SBOX b) = b := by decide

theorem rsboxStd_bytes : Bytes RSBOX_STD := by decide

theorem shift_invShift (s : St) : shiftRows (invShiftRows s) = s := rfl

theorem invShift_shift (s : St) : invShiftRows (shiftRows s) = s := rfl

theorem magicSwap_magicSwap (s : St) : magicSwap (magicSwap s) = s := rfl

theorem condSwap_condSwap (f : Bool) (s : St) : condSwap f (condSwap f s) = s := by
  cases f <;> simp [condSwap, magicSwap_magicSwap]

theorem magicSwap_subBytes (sb : Nat → Nat) (s : St) :
    magicSwap (subBytes sb s) = subBytes sb (magicSwap s) := rfl

theorem condSwap_subBytes (f : Bool) (sb : Nat → Nat) (s : St) :
    condSwap f (subBytes sb s) = subBytes sb (condSwap f s) := by
  cases f <;> simp [condSwap, magicSwap_subBytes]

theorem addRoundKey_addRoundKey (rk : List (List Nat)) (s : St) :
    addRoundKey rk (addRoundKey rk s) = s := by
  obtain ⟨a0, a1, a2, a3, b0, b1, b2, b3, c0, c1, c2, c3, d0, d1, d2, d3⟩ := s
  simp [addRoundKey, Nat.xor_cancel_right]

theorem subBytes_subBytes (sb rsb : Nat → Nat) (hinv : ∀ b < 256, rsb (sb b) = b)
    (s : St) (hs : s.Bounded) : subBytes rsb (subBytes sb s) = s := by
  obtain ⟨a0, a1, a2, a3, b0, b1, b2, b3, c0, c1, c2, c3, d0, d1, d2, d3⟩ := s
  obtain ⟨h1, h2, h3, h4, h5, h6, h7, h8, h9, h10, h11, h12, h13, h14, h15, h16⟩ := hs
  simp only [subBytes, St.mk.injEq]
  exact ⟨hinv _ h1, hinv _ h2, hinv _ h3, hinv _ h4, hinv _ h5, hinv _ h6, hinv _ h7,
    hinv _ h8, hinv _ h9, hinv _ h10, hinv _ h11, hinv _ h12, hinv _ h13, hinv _ h14,
    hinv _ h15, hinv _ h16⟩

theorem subBytes_bounded (sb : Nat → Nat) (hsb : ∀ b, sb b < 256) (s : St) :
    (subBytes sb s).Bounded := by
  obtain ⟨a0, a1, a2, a3, b0, b1, b2, b3, c0, c1, c2, c3, d0, d1, d2, d3⟩ := s
  exact ⟨hsb _, hsb _, hsb _, hsb _, hsb _, hsb _, hsb _, hsb _, hsb _, hsb _, hsb _,
    hsb _, hsb _, hsb _, hsb _, hsb _⟩

theorem shiftRows_bounded {s : St} (hs : s.Bounded) : (shiftRows s).Bounded := by
  obtain ⟨a0, a1, a2, a3, b0, b1, b2, b3, c0, c1, c2, c3, d0, d1, d2, d3⟩ := s
  unfold St.Bounded at hs ⊢
  simp only [shiftRows] at *
  omega

theorem invShiftRows_bounded {s : St} (hs : s.Bounded) : (invShiftRows s).Bounded := by
  obtain ⟨a0, a1, a2, a3, b0, b1, b2, b3, c0, c1, c2, c3, d0, d1, d2, d3⟩ := s
  unfold St.Bounded at hs ⊢
  simp only [invShiftRows] at *
  omega

theorem magicSwap_bounded {s : St} (hs : s.Bounded) : (magicSwap s).Bounded := by
  obtain ⟨a0, a1, a2, a3, b0, b1, b2, b3, c0, c1, c2, c3, d0, d1, d2, d3⟩ := s
  unfold St.Bounded at hs ⊢
  simp only [magicSwap] at *
  omega

theorem condSwap_bounded (f : Bool) {s : St} (hs : s.Bounded) : (condSwap f s).Bounded := by
  cases f <;> simp [condSwap]
  · exact hs
  · exact magicSwap_bounded hs

/-- Boundedness of a round-key group: each word is a list of bytes. -/
def RkBytes (rk : List (List Nat)) : Prop := ∀ w ∈ rk, Bytes w

theorem rk_entry_lt {rk : List (List Nat)} (hrk : RkBytes rk) (j i : Nat) :
    (rk.getD j []).getD i 0 < 256 := by
  rcases Nat.lt_or_ge j rk.length with h | h
  · rw [List.getD_eq_getElem rk [] h]
    exact getD_lt_of_bytes (hrk _ (List.getElem_mem h)) i 0 (by omega)
  · rw [List.getD_eq_default rk [] h]
    simp [List.getD]

theorem addRoundKey_bounded {rk : List (List Nat)} (hrk : RkBytes rk) {s : St}
    (hs : s.Bounded) : (addRoundKey rk s).Bounded := by
  obtain ⟨a0, a1, a2, a3, b0, b1, b2, b3, c0, c1, c2, c3, d0, d1, d2, d3⟩ := s
  obtain ⟨h1, h2, h3, h4, h5, h6, h7, h8, h9, h10, h11, h12, h13, h14, h15, h16⟩ := hs
  refine ⟨?_, ?_, ?_, ?_, ?_, ?_, ?_, ?_, ?_, ?_, ?_, ?_, ?_, ?_, ?_, ?_⟩ <;>
    exact byte_xor_lt (by assumption) (rk_entry_lt hrk _ _)

theorem colMix_bounded {x : Col} (hx : x.c0 < 256 ∧ x.c1 < 256 ∧ x.c2 < 256 ∧ x.c3 < 256) :
    (colMix x).c0 < 256 ∧ (colMix x).c1 < 256 ∧ (colMix x).c2 < 256 ∧ (colMix x).c3 < 256 := by
  obtain ⟨a, b, c, d⟩ := x
  obtain ⟨ha, hb, hc, hd⟩ := hx
  refine ⟨?_, ?_, ?_, ?_⟩ <;>
    · simp only [colMix, mixA, mixB, mixC, mixD]
      exact byte_xor_lt (byte_xor_lt (by assumption)
        (byte_xor_lt (byte_xor_lt (byte_xor_lt ha hb) hc) hd)) (xtime_lt _)

theorem mixColumns_bounded {s : St} (hs : s.Bounded) : (mixColumns s).Bounded := by
  obtain ⟨a0, a1, a2, a3, b0, b1, b2, b3, c0, c1, c2, c3, d0, d1, d2, d3⟩ := s
  obtain ⟨h1, h2, h3, h4, h5, h6, h7, h8, h9, h10, h11, h12, h13, h14, h15, h16⟩ := hs
  have k0 := colMix_bounded (x := ⟨a0, b0, c0, d0⟩) ⟨h1, h5, h9, h13⟩
  have k1 := colMix_bounded (x := ⟨a1, b1, c1, d1⟩) ⟨h2, h6, h10, h14⟩
  have k2 := colMix_bounded (x := ⟨a2, b2, c2, d2⟩) ⟨h3, h7, h11, h15⟩
  have k3 := colMix_bounded (x := ⟨a3, b3, c3, d3⟩) ⟨h4, h8, h12, h16⟩
  exact ⟨k0.1, k1.1, k2.1, k3.1, k0.2.1, k1.2.1, k2.2.1, k3.2.1,
    k0.2.2.1, k1.2.2.1, k2.2.2.1, k3.2.2.1, k0.2.2.2, k1.2.2.2, k2.2.2.2, k3.2.2.2⟩

end Aes

/-! AES block round-trip: composition of the round structure. -/

namespace Aes

theorem encRound_bounded {sb : Nat → Nat} (hsb : ∀ b, sb b < 256) (f : Bool)
    {k : List (List Nat)} (hk : RkBytes k) {s : St} (hs : s.Bounded) :
    (encRound sb f k s).Bounded :=
  addRoundKey_bounded hk (mixColumns_bounded (shiftRows_bounded
    (condSwap_bounded f (subBytes_bounded sb hsb s))))

theorem q_bounded {sb : Nat → Nat} (hsb : ∀ b, sb b < 256) (f : Bool) (s : St) :
    (shiftRows (condSwap f (subBytes sb s))).Bounded :=
  shiftRows_bounded (condSwap_bounded f (subBytes_bounded sb hsb s))

theorem pq_id (f : Bool) (sb rsb : Nat → Nat) (hinv : ∀ b < 256, rsb (sb b) = b)
    (s : St) (hs : s.Bounded) :
    condSwap f (subBytes rsb (invShiftRows (shiftRows (condSwap f (subBytes sb s))))) = s := by
  rw [invShift_shift, condSwap_subBytes, condSwap_condSwap,
    subBytes_subBytes sb rsb hinv s hs]

theorem decRound_encRound (f : Bool) (sb rsb : Nat → Nat)
    (hinv : ∀ b < 256, rsb (sb b) = b) (hsb : ∀ b, sb b < 256)
    (k : List (List Nat)) (hk : RkBytes k) (X : St) (hX : X.Bounded) :
    decRound rsb f k (shiftRows (condSwap f (subBytes sb (encRound sb f k X)))) =
      shiftRows (condSwap f (subBytes sb X)) := by
  have hW : (encRound sb f k X).Bounded := encRound_bounded hsb f hk hX
  unfold decRound
  rw [pq_id f sb rsb hinv (encRound sb f k X) hW]
  unfold encRound
  rw [addRoundKey_addRoundKey]
  exact invMix_mix _ (q_bounded hsb f X)

theorem rounds_inverse (f : Bool) (sb rsb : Nat → Nat)
    (hinv : ∀ b < 256, rsb (sb b) = b) (hsb : ∀ b, sb b < 256) :
    ∀ (ks : List (List (List Nat))), (∀ k ∈ ks, RkBytes k) →
    ∀ (X : St), X.Bounded →
    ks.foldr (fun k s => decRound rsb f k s)
        (shiftRows (condSwap f (subBytes sb (ks.foldl (fun s k => encRound sb f k s) X)))) =
      shiftRows (condSwap f (subBytes sb X)) := by
  intro ks
  induction ks with
  | nil => intro _ X _; rfl
  | cons k t ih =>
    intro hks X hX
    have hk : RkBytes k := hks k (by simp)
    simp only [List.foldl_cons, List.foldr_cons]
    rw [ih (fun j hj => hks j (List.mem_cons_of_mem _ hj)) (encRound sb f k X)
      (encRound_bounded hsb f hk hX)]
    exact decRound_encRound f sb rsb hinv hsb k hk X hX

theorem foldl_range'_getD {α β : Type} (l : List α) (d : α) (g : α → β → β) :
    ∀ (n start : Nat) (init : β), start + n ≤ l.length →
    (List.range' start n).foldl (fun t i => g (l.getD i d) t) init =
      ((l.drop start).take n).foldl (fun t k => g k t) init := by
  intro n
  induction n with
  | zero => intro start init _; simp
  | succ m ih =>
    intro start init h
    have hstart : start < l.length := by omega
    have hdrop : l.drop start = l[start] :: l.drop (start + 1) :=
      List.drop_eq_getElem_cons hstart
    rw [List.range'_succ, hdrop]
    simp only [List.take_succ_cons, List.foldl_cons]
    rw [List.getD_eq_getElem l d hstart]
    exact ih (start + 1) (g (l[start]) init) (by omega)

theorem foldr_range'_getD {α β : Type} (l : List α) (d : α) (g : α → β → β) :
    ∀ (n start : Nat) (init : β), start + n ≤ l.length →
    (List.range' start n).foldr (fun i t => g (l.getD i d) t) init =
      ((l.drop start).take n).foldr (fun k t => g k t) init := by
  intro n
  induction n with
  | zero => intro start init _; simp
  | succ m ih =>
    intro start init h
    have hstart : start < l.length := by omega
    have hdrop : l.drop start = l[start] :: l.drop (start + 1) :=
      List.drop_eq_getElem_cons hstart
    rw [List.range'_succ, hdrop]
    simp only [List.take_succ_cons, List.foldr_cons]
    rw [List.getD_eq_getElem l d hstart, ih (start + 1) init (by omega)]

/-- The central AES correctness statement: for any schedule of byte-valued
round keys of the right length, `decrypt_block` inverts `encrypt_block`,
with or without the data-round magic swap, for any byte-valued substitution
pair that is inverse on bytes. -/
theorem decryptSt_encryptSt (f : Bool) (sb rsb : Nat → Nat)
    (hinv : ∀ b < 256, rsb (sb b) = b) (hsb : ∀ b, sb b < 256)
    (rks : List (List (List Nat))) (hrks : ∀ rk ∈ rks, RkBytes rk)
    (rounds : Nat) (hlen : rks.length = rounds + 1) (hr : 1 ≤ rounds)
    (s : St) (hs : s.Bounded) :
    decryptSt rsb f rks rounds (encryptSt sb f rks rounds s) = s := by
  unfold encryptSt decryptSt
  rw [foldl_range'_getD rks [] (fun k t => encRound sb f k t) (rounds - 1) 1 _ (by omega)]
  rw [List.foldl_reverse]
  rw [foldr_range'_getD rks [] (fun k t => decRound rsb f k t) (rounds - 1) 1 _ (by omega)]
  have hmid : ∀ k ∈ (rks.drop 1).take (rounds - 1), RkBytes k := fun k hk =>
    hrks k (List.mem_of_mem_drop (List.mem_of_mem_take hk))
  have hX : (addRoundKey (rks.getD 0 []) s).Bounded :=
    addRoundKey_bounded (hrks _ (by
      rw [List.getD_eq_getElem rks [] (by omega)]
      exact List.getElem_mem _)) hs
  unfold encFinal
  rw [addRoundKey_addRoundKey]
  rw [rounds_inverse f sb rsb hinv hsb _ hmid _ hX]
  unfold decFinal
  rw [pq_id f sb rsb hinv _ hX, addRoundKey_addRoundKey]

end Aes

/-! Key-schedule facts and the byte-level AES block round trip. -/

theorem foldl_invariant {α β : Type} (P : β → Prop) (f : β → α → β) (l : List α)
    (init : β) (h0 : P init) (hstep : ∀ acc x, P acc → P (f acc x)) :
    P (l.foldl f init) := by
  induction l generalizing init with
  | nil => exact h0
  | cons x t ih => exact ih (f init x) (hstep init x h0)

theorem bytes_take {l : List Nat} (h : Bytes l) (n : Nat) : Bytes (l.take n) :=
  fun x hx => h x (List.mem_of_mem_take hx)

theorem bytes_drop {l : List Nat} (h : Bytes l) (n : Nat) : Bytes (l.drop n) :=
  fun x hx => h x (List.mem_of_mem_drop hx)

theorem bytes_append {l m : List Nat} (hl : Bytes l) (hm : Bytes m) : Bytes (l ++ m) := by
  intro x hx
  rcases List.mem_append.mp hx with h | h
  · exact hl x h
  · exact hm x h

theorem bytes_replicate_zero (n : Nat) : Bytes (List.replicate n 0) := by
  intro x hx
  rw [List.eq_of_mem_replicate hx]
  omega

namespace Aes

theorem rcon_bytes : Bytes RCON := by decide

theorem wordsGetD_bytes {ws : List (List Nat)} (h : ∀ w ∈ ws, Bytes w) (i : Nat) :
    Bytes (ws.getD i []) := by
  rcases Nat.lt_or_ge i ws.length with hlt | hge
  · rw [List.getD_eq_getElem ws [] hlt]
    exact h _ (List.getElem_mem hlt)
  · rw [List.getD_eq_default ws [] hge]
    intro x hx
    simp at hx

theorem subWord_bytes {sbox : List Nat} (hs : Bytes sbox) (w : List Nat) :
    Bytes (subWord sbox w) := by
  intro x hx
  obtain ⟨b, _, rfl⟩ := List.mem_map.mp hx
  exact sboxAt_lt hs b

theorem rotWord_bytes {w : List Nat} (hw : Bytes w) : Bytes (rotWord w) :=
  bytes_append (bytes_drop hw 1) (bytes_take hw 1)

theorem reverse_bytes {w : List Nat} (hw : Bytes w) : Bytes w.reverse := by
  intro x hx
  exact hw x (List.mem_reverse.mp hx)

theorem set_bytes {w : List Nat} (hw : Bytes w) {v : Nat} (hv : v < 256) (i : Nat) :
    Bytes (w.set i v) := by
  intro x hx
  rcases List.mem_or_eq_of_mem_set hx with h | h
  · exact hw x h
  · omega

theorem keyExpandStep_bytes {sbox : List Nat} (hs : Bytes sbox) (swapKS : Bool) (Nk : Nat)
    {ws : List (List Nat)} (hws : ∀ w ∈ ws, Bytes w) (i : Nat) :
    ∀ w ∈ keyExpandStep sbox swapKS Nk ws i, Bytes w := by
  intro w hw
  unfold keyExpandStep at hw
  rcases List.mem_append.mp hw with h | h
  · exact hws w h
  · have hw' : w = (List.range 4).map fun j =>
        (ws.getD (i - Nk) []).getD j 0 ^^^
          (if i % Nk = 0 then
            let t := subWord sbox (rotWord (ws.getD (i - 1) []))
            let t := if swapKS then t.reverse else t
            t.set 0 (t.getD 0 0 ^^^ RCON.getD (i / Nk) 0)
          else if 6 < Nk ∧ i % Nk = 4 then subWord sbox (ws.getD (i - 1) [])
          else ws.getD (i - 1) []).getD j 0 := by
      simpa using h
    subst hw'
    intro x hx
    obtain ⟨j, _, rfl⟩ := List.mem_map.mp hx
    have htemp : Bytes (if i % Nk = 0 then
        let t := subWord sbox (rotWord (ws.getD (i - 1) []))
        let t := if swapKS then t.reverse else t
        t.set 0 (t.getD 0 0 ^^^ RCON.getD (i / Nk) 0)
      else if 6 < Nk ∧ i % Nk = 4 then subWord sbox (ws.getD (i - 1) [])
      else ws.getD (i - 1) []) := by
      split
      · have ht : Bytes (if swapKS then (subWord sbox (rotWord (ws.getD (i - 1) []))).reverse
            else subWord sbox (rotWord (ws.getD (i - 1) []))) := by
          split
          · exact reverse_bytes (subWord_bytes hs _)
          · exact subWord_bytes hs _
        exact set_bytes ht (byte_xor_lt (getD_lt_of_bytes ht 0 0 (by omega))
          (getD_lt_of_bytes rcon_bytes _ 0 (by omega))) 0
      · split
        · exact subWord_bytes hs _
        · exact wordsGetD_bytes hws (i - 1)
    exact byte_xor_lt (getD_lt_of_bytes (wordsGetD_bytes hws (i - Nk)) j 0 (by omega))
      (getD_lt_of_bytes htemp j 0 (by omega))

theorem expandWords_bytes {sbox : List Nat} (hs : Bytes sbox) (swapKS : Bool)
    {key : List Nat} (hk : Bytes key) (Nk rounds : Nat) :
    ∀ w ∈ expandWords sbox swapKS key Nk rounds, Bytes w := by
  unfold expandWords
  apply foldl_invariant (fun ws => ∀ w ∈ ws, Bytes w)
  · intro w hw
    obtain ⟨i, _, rfl⟩ := List.mem_map.mp hw
    exact bytes_take (bytes_drop hk _) 4
  · intro acc i hacc
    exact keyExpandStep_bytes hs swapKS Nk hacc i

theorem roundKeysOf_bytes {sbox : List Nat} (hs : Bytes sbox) (swapKS : Bool)
    {key : List Nat} (hk : Bytes key) :
    ∀ rk ∈ roundKeysOf sbox swapKS key, RkBytes rk := by
  intro rk hrk
  unfold roundKeysOf at hrk
  obtain ⟨g, _, rfl⟩ := List.mem_map.mp hrk
  intro w hw
  have hw' := List.mem_of_mem_drop (List.mem_of_mem_take hw)
  have hnk : Bytes (normalizeKey key).1 := by
    unfold normalizeKey
    split
    · exact hk
    · split
      · exact hk
      · split
        · exact hk
        · split
          · exact bytes_append hk (bytes_replicate_zero _)
          · split
            · exact bytes_take hk 16
            · split
              · exact bytes_take hk 24
              · exact bytes_take hk 32
  exact expandWords_bytes hs swapKS hnk _ _ w hw'

theorem foldl_append_one_length {α : Type} (f : List (List Nat) → α → List (List Nat))
    (hf : ∀ acc x, (f acc x).length = acc.length + 1) (l : List α) :
    ∀ init : List (List Nat), (l.foldl f init).length = init.length + l.length := by
  induction l with
  | nil => intro init; simp
  | cons x t ih =>
    intro init
    rw [List.foldl_cons, ih (f init x), hf init x]
    simp
    omega

theorem expandWords_length {sbox : List Nat} (swapKS : Bool) (key : List Nat)
    (Nk rounds : Nat) (hNk : Nk ≤ 4 * (rounds + 1)) :
    (expandWords sbox swapKS key Nk rounds).length = 4 * (rounds + 1) := by
  unfold expandWords
  rw [foldl_append_one_length (keyExpandStep sbox swapKS Nk)
    (fun acc x => by unfold keyExpandStep; simp) _ _]
  simp
  omega

theorem normalizeKey_spec (key : List Nat) :
    ((normalizeKey key).1.length = 16 ∧ (normalizeKey key).2 = 10) ∨
    ((normalizeKey key).1.length = 24 ∧ (normalizeKey key).2 = 12) ∨
    ((normalizeKey key).1.length = 32 ∧ (normalizeKey key).2 = 14) := by
  unfold normalizeKey
  split
  · left; constructor <;> simp_all
  · split
    · right; left; constructor <;> simp_all
    · split
      · right; right; constructor <;> simp_all
      · split
        · simp only [List.length_append, List.length_replicate]
          split <;> simp_all <;> omega
        · split
          · simp only [List.length_take]
            split <;> simp_all <;> omega
          · split
            · simp only [List.length_take]
              split <;> simp_all <;> omega
            · simp only [List.length_take]
              split <;> simp_all <;> omega

theorem roundKeysOf_length {sbox : List Nat} (swapKS : Bool) (key : List Nat) :
    (roundKeysOf sbox swapKS key).length = (normalizeKey key).2 + 1 := by
  unfold roundKeysOf
  simp only [List.length_map, List.length_range]
  rcases normalizeKey_spec key with ⟨h1, h2⟩ | ⟨h1, h2⟩ | ⟨h1, h2⟩ <;>
    rw [h1, h2, expandWords_length _ _ _ _ (by omega)]

end Aes

/-! Byte-level AES block round trip with the standard S-box. -/

namespace Aes

theorem eq_list16 {l : List Nat} (h : l.length = 16) :
    l = [l.getD 0 0, l.getD 1 0, l.getD 2 0, l.getD 3 0, l.getD 4 0, l.getD 5 0,
      l.getD 6 0, l.getD 7 0, l.getD 8 0, l.getD 9 0, l.getD 10 0, l.getD 11 0,
      l.getD 12 0, l.getD 13 0, l.getD 14 0, l.getD 15 0] := by
  rcases l with _ | ⟨b0, l⟩; · simp at h
  rcases l with _ | ⟨b1, l⟩; · simp at h
  rcases l with _ | ⟨b2, l⟩; · simp at h
  rcases l with _ | ⟨b3, l⟩; · simp at h
  rcases l with _ | ⟨b4, l⟩; · simp at h
  rcases l with _ | ⟨b5, l⟩; · simp at h
  rcases l with _ | ⟨b6, l⟩; · simp at h
  rcases l with _ | ⟨b7, l⟩; · simp at h
  rcases l with _ | ⟨b8, l⟩; · simp at h
  rcases l with _ | ⟨b9, l⟩; · simp at h
  rcases l with _ | ⟨b10, l⟩; · simp at h
  rcases l with _ | ⟨b11, l⟩; · simp at h
  rcases l with _ | ⟨b12, l⟩; · simp at h
  rcases l with _ | ⟨b13, l⟩; · simp at h
  rcases l with _ | ⟨b14, l⟩; · simp at h
  rcases l with _ | ⟨b15, l⟩; · simp at h
  rcases l with _ | ⟨b16, l⟩
  · rfl
  · simp at h

theorem ofSt_toSt {l : List Nat} (h : l.length = 16) : ofSt (toSt l) = l := by
  conv_rhs => rw [eq_list16 h]
  rfl

theorem toSt_ofSt (s : St) : toSt (ofSt s) = s := rfl

theorem toSt_bounded {l : List Nat} (hl : Bytes l) : (toSt l).Bounded := by
  refine ⟨?_, ?_, ?_, ?_, ?_, ?_, ?_, ?_, ?_, ?_, ?_, ?_, ?_, ?_, ?_, ?_⟩ <;>
    exact getD_lt_of_bytes hl _ 0 (by omega)

theorem ofSt_bytes {s : St} (hs : s.Bounded) : Bytes (ofSt s) := by
  obtain ⟨a0, a1, a2, a3, b0, b1, b2, b3, c0, c1, c2, c3, d0, d1, d2, d3⟩ := s
  obtain ⟨h1, h2, h3, h4, h5, h6, h7, h8, h9, h10, h11, h12, h13, h14, h15, h16⟩ := hs
  intro x hx
  simp only [ofSt, List.mem_cons, List.not_mem_nil, or_false] at hx
  rcases hx with rfl | rfl | rfl | rfl | rfl | rfl | rfl | rfl | rfl | rfl | rfl | rfl |
    rfl | rfl | rfl | rfl <;> assumption

theorem ofSt_length (s : St) : (ofSt s).length = 16 := rfl

theorem rkGetD_bytes {rks : List (List (List Nat))} (hrks : ∀ rk ∈ rks, RkBytes rk)
    (i : Nat) : RkBytes (rks.getD i []) := by
  rcases Nat.lt_or_ge i rks.length with hlt | hge
  · rw [List.getD_eq_getElem rks [] hlt]
    exact hrks _ (List.getElem_mem hlt)
  · rw [List.getD_eq_default rks [] hge]
    intro w hw
    simp at hw

theorem encryptSt_bounded {sb : Nat → Nat} (hsb : ∀ b, sb b < 256) (f : Bool)
    {rks : List (List (List Nat))} (hrks : ∀ rk ∈ rks, RkBytes rk) (rounds : Nat)
    {s : St} (hs : s.Bounded) : (encryptSt sb f rks rounds s).Bounded := by
  unfold encryptSt encFinal
  exact addRoundKey_bounded (rkGetD_bytes hrks rounds) (shiftRows_bounded
    (condSwap_bounded _ (subBytes_bounded sb hsb _)))

/-- Byte-level round trip of `AesPure`: with the standard S-box (custom table
absent), any key and both magic-swap flags, `decrypt_block` inverts
`encrypt_block` on every 16-byte block. -/
theorem decryptBlock_encryptBlock (key : List Nat) (hkey : Bytes key)
    (swapKS swapDR : Bool) (block : List Nat) (hb : Bytes block)
    (hl : block.length = 16) :
    decryptBlock (mkCtx key none swapKS swapDR)
      (encryptBlock (mkCtx key none swapKS swapDR) block) = block := by
  have hsbox : (mkCtx key none swapKS swapDR).sbox = STANDARD_SBOX := rfl
  have hrsbox : (mkCtx key none swapKS swapDR).rsbox = RSBOX_STD := by
    show rsboxList (resolveSbox none) = RSBOX_STD
    exact rsboxList_std
  have hrks : ∀ rk ∈ (mkCtx key none swapKS swapDR).roundKeys, RkBytes rk :=
    roundKeysOf_bytes stdSbox_bytes swapKS hkey
  have hrounds : (mkCtx key none swapKS swapDR).roundKeys.length =
      (mkCtx key none swapKS swapDR).rounds + 1 := roundKeysOf_length swapKS key
  have hr1 : 1 ≤ (mkCtx key none swapKS swapDR).rounds := by
    show 1 ≤ (normalizeKey key).2
    rcases normalizeKey_spec key with ⟨_, h⟩ | ⟨_, h⟩ | ⟨_, h⟩ <;> omega
  unfold decryptBlock encryptBlock
  rw [hsbox, hrsbox, toSt_ofSt,
    show (mkCtx key none swapKS swapDR).swapDR = swapDR from rfl]
  rw [decryptSt_encryptSt swapDR (sboxAt STANDARD_SBOX) (sboxAt RSBOX_STD)
    rsbox_sbox_std (sboxAt_lt stdSbox_bytes) _ hrks _ hrounds hr1 _ (toSt_bounded hb)]
  exact ofSt_toSt hl

/-- Byte output of `encrypt_block` is 16 bytes of byte values. -/
theorem encryptBlock_length (ctx : Ctx) (block : List Nat) :
    (encryptBlock ctx block).length = 16 := rfl

theorem encryptBlock_bytes {key : List Nat} (hkey : Bytes key) (swapKS swapDR : Bool)
    (block : List Nat) (hb : Bytes block) :
    Bytes (encryptBlock (mkCtx key none swapKS swapDR) block) := by
  unfold encryptBlock
  apply ofSt_bytes
  exact encryptSt_bounded (sboxAt_lt stdSbox_bytes) swapDR
    (roundKeysOf_bytes stdSbox_bytes swapKS hkey) _ (toSt_bounded hb)

end Aes

/-! SM4 block round trip: the Feistel structure inverts itself under a
reversed round-key order, for any round function. -/

namespace Sm4

theorem feistelStep_rev (F : Nat → Nat) (w : Quad) (k : Nat) :
    feistelStep F (quadRev (feistelStep F w k)) k = quadRev w := by
  obtain ⟨a, b, c, d⟩ := w
  have h : (a ^^^ F (b ^^^ c ^^^ d ^^^ k)) ^^^ F (d ^^^ c ^^^ b ^^^ k) = a := by
    rw [show d ^^^ c ^^^ b ^^^ k = b ^^^ c ^^^ d ^^^ k from by ac_rfl, Nat.xor_cancel_right]
  simp [feistelStep, quadRev, h]

theorem feistel_reverse (F : Nat → Nat) :
    ∀ (ks : List Nat) (w : Quad),
      ks.reverse.foldl (feistelStep F) (quadRev (ks.foldl (feistelStep F) w)) = quadRev w := by
  intro ks
  induction ks with
  | nil => intro w; rfl
  | cons k t ih =>
    intro w
    rw [List.reverse_cons, List.foldl_append, List.foldl_cons, List.foldl_nil,
      List.foldl_cons, ih (feistelStep F w k)]
    exact feistelStep_rev F w k

/-- 32-bit boundedness of the four working registers. -/
def Quad.Bounded32 (w : Quad) : Prop :=
  w.x0 < 4294967296 ∧ w.x1 < 4294967296 ∧ w.x2 < 4294967296 ∧ w.x3 < 4294967296

theorem word_xor_lt {a b : Nat} (ha : a < 4294967296) (hb : b < 4294967296) :
    a ^^^ b < 4294967296 := by
  have h : a ^^^ b < 2 ^ 32 := Nat.xor_lt_two_pow (by omega) (by omega)
  omega

theorem word_or_lt {a b : Nat} (ha : a < 4294967296) (hb : b < 4294967296) :
    a ||| b < 4294967296 := by
  have h : a ||| b < 2 ^ 32 := Nat.or_lt_two_pow (by omega) (by omega)
  omega

theorem and_mask32_lt (x : Nat) : x &&& 4294967295 < 4294967296 := by
  have h : x &&& 4294967295 ≤ 4294967295 := Nat.and_le_right
  omega

theorem rotl_lt (x n : Nat) : rotl x n < 4294967296 := by
  unfold rotl
  exact word_or_lt (and_mask32_lt _) (and_mask32_lt _)

theorem shl_byte_lt {b : Nat} (hb : b < 256) (n : Nat) (h : n + 8 ≤ 32) :
    b <<< n < 4294967296 := by
  rw [Nat.shiftLeft_eq]
  calc b * 2 ^ n < 256 * 2 ^ n := by
        have h2 : 0 < 2 ^ n := Nat.pos_pow_of_pos n (by omega)
        exact Nat.mul_lt_mul_of_lt_of_le hb (Nat.le_refl _) h2
    _ ≤ 4294967296 := by
        have h3 : 2 ^ n ≤ 2 ^ 24 := Nat.pow_le_pow_right (by omega) (by omega)
        omega

theorem tau_lt {sbox : List Nat} (hs : Bytes sbox) (a : Nat) : tau sbox a < 4294967296 := by
  unfold tau
  refine word_or_lt (word_or_lt (word_or_lt ?_ ?_) ?_) ?_ <;>
    first
      | exact shl_byte_lt (Aes.getD_lt_of_bytes hs _ 0 (by omega)) _ (by omega)
      | · have h := Aes.getD_lt_of_bytes hs (a &&& 255) 0 (by omega)
          unfold sboxAt at h ⊢
          omega

theorem tauSwapped_lt {sbox : List Nat} (hs : Bytes sbox) (a : Nat) :
    tauSwapped sbox a < 4294967296 := by
  unfold tauSwapped
  refine word_or_lt (word_or_lt (word_or_lt ?_ ?_) ?_) ?_ <;>
    first
      | exact shl_byte_lt (Aes.getD_lt_of_bytes hs _ 0 (by omega)) _ (by omega)
      | · have h := Aes.getD_lt_of_bytes hs ((a >>> 24) &&& 255) 0 (by omega)
          unfold sboxAt at h ⊢
          omega

theorem lRound_lt {b : Nat} (hb : b < 4294967296) : lRound b < 4294967296 := by
  unfold lRound
  exact word_xor_lt (word_xor_lt (word_xor_lt (word_xor_lt hb (rotl_lt _ _)) (rotl_lt _ _))
    (rotl_lt _ _)) (rotl_lt _ _)

theorem roundF_lt {sbox : List Nat} (hs : Bytes sbox) (swapDR : Bool) (t : Nat) :
    roundF sbox swapDR t < 4294967296 := by
  unfold roundF
  apply lRound_lt
  split
  · exact tauSwapped_lt hs t
  · exact tau_lt hs t

theorem feistelStep_bounded {F : Nat → Nat} (hF : ∀ t, F t < 4294967296) {w : Quad}
    (hw : w.Bounded32) (k : Nat) : (feistelStep F w k).Bounded32 := by
  obtain ⟨a, b, c, d⟩ := w
  obtain ⟨h0, h1, h2, h3⟩ := hw
  exact ⟨h1, h2, h3, word_xor_lt h0 (hF _)⟩

theorem foldl_feistel_bounded {F : Nat → Nat} (hF : ∀ t, F t < 4294967296) (sk : List Nat)
    {w : Quad} (hw : w.Bounded32) : (sk.foldl (feistelStep F) w).Bounded32 :=
  foldl_invariant Quad.Bounded32 (feistelStep F) sk w hw
    (fun acc k hacc => feistelStep_bounded hF hacc k)

theorem wordAt_lt {b : List Nat} (hb : Bytes b) (i : Nat) : wordAt b i < 4294967296 := by
  unfold wordAt
  have h0 := Aes.getD_lt_of_bytes hb (4 * i) 0 (by omega)
  have h1 := Aes.getD_lt_of_bytes hb (4 * i + 1) 0 (by omega)
  have h2 := Aes.getD_lt_of_bytes hb (4 * i + 2) 0 (by omega)
  have h3 := Aes.getD_lt_of_bytes hb (4 * i + 3) 0 (by omega)
  omega

theorem unpack_packRev {v : Quad} (hv : v.Bounded32) :
    wordAt (packRev v) 0 = v.x3 ∧ wordAt (packRev v) 1 = v.x2 ∧
      wordAt (packRev v) 2 = v.x1 ∧ wordAt (packRev v) 3 = v.x0 := by
  obtain ⟨a, b, c, d⟩ := v
  obtain ⟨h0, h1, h2, h3⟩ := hv
  have ha : a < 4294967296 := h0
  have hb : b < 4294967296 := h1
  have hc : c < 4294967296 := h2
  have hd : d < 4294967296 := h3
  refine ⟨?_, ?_, ?_, ?_⟩ <;>
    · simp [wordAt, packRev, wordBytes]
      omega

theorem packRev_length (v : Quad) : (packRev v).length = 16 := rfl

theorem packRev_bytes (v : Quad) : Bytes (packRev v) := by
  obtain ⟨a, b, c, d⟩ := v
  intro x hx
  simp only [packRev, wordBytes, List.cons_append, List.nil_append, List.mem_cons,
    List.not_mem_nil, or_false] at hx
  rcases hx with rfl | rfl | rfl | rfl | rfl | rfl | rfl | rfl | rfl | rfl | rfl | rfl |
    rfl | rfl | rfl | rfl <;> exact Nat.mod_lt _ (by omega)

theorem packRev_unpack {block : List Nat} (hb : Bytes block) (hl : block.length = 16) :
    packRev ⟨wordAt block 3, wordAt block 2, wordAt block 1, wordAt block 0⟩ = block := by
  rcases block with _ | ⟨x0, block⟩; · simp at hl
  rcases block with _ | ⟨x1, block⟩; · simp at hl
  rcases block with _ | ⟨x2, block⟩; · simp at hl
  rcases block with _ | ⟨x3, block⟩; · simp at hl
  rcases block with _ | ⟨x4, block⟩; · simp at hl
  rcases block with _ | ⟨x5, block⟩; · simp at hl
  rcases block with _ | ⟨x6, block⟩; · simp at hl
  rcases block with _ | ⟨x7, block⟩; · simp at hl
  rcases block with _ | ⟨x8, block⟩; · simp at hl
  rcases block with _ | ⟨x9, block⟩; · simp at hl
  rcases block with _ | ⟨x10, block⟩; · simp at hl
  rcases block with _ | ⟨x11, block⟩; · simp at hl
  rcases block with _ | ⟨x12, block⟩; · simp at hl
  rcases block with _ | ⟨x13, block⟩; · simp at hl
  rcases block with _ | ⟨x14, block⟩; · simp at hl
  rcases block with _ | ⟨x15, block⟩; · simp at hl
  rcases block with _ | ⟨y, block⟩
  · have h0 : x0 < 256 := hb x0 (by simp); have h1 : x1 < 256 := hb x1 (by simp); have h2 : x2 < 256 := hb x2 (by simp); have h3 : x3 < 256 := hb x3 (by simp); have h4 : x4 < 256 := hb x4 (by simp); have h5 : x5 < 256 := hb x5 (by simp); have h6 : x6 < 256 := hb x6 (by simp); have h7 : x7 < 256 := hb x7 (by simp); have h8 : x8 < 256 := hb x8 (by simp); have h9 : x9 < 256 := hb x9 (by simp); have h10 : x10 < 256 := hb x10 (by simp); have h11 : x11 < 256 := hb x11 (by simp); have h12 : x12 < 256 := hb x12 (by simp); have h13 : x13 < 256 := hb x13 (by simp); have h14 : x14 < 256 := hb x14 (by simp); have h15 : x15 < 256 := hb x15 (by simp);
    simp [packRev, wordBytes, wordAt]
    omega
  · simp at hl

/-- Byte-level SM4 block round trip: running `one_round` with the reversed
round-key order on the output of `one_round` restores the block, for any
byte-valued S-box and either tau variant. -/
theorem oneRound_inverse {sbox : List Nat} (hs : Bytes sbox) (swapDR : Bool)
    (sk : List Nat) {block : List Nat} (hb : Bytes block) (hl : block.length = 16)
    {c : List Nat} (hc : oneRound sbox swapDR sk block = .ok c) :
    oneRound sbox swapDR sk.reverse c = .ok block := by
  unfold oneRound at hc
  rw [if_neg (by omega)] at hc
  have hc' : c = packRev (sk.foldl (feistelStep (roundF sbox swapDR))
      ⟨wordAt block 0, wordAt block 1, wordAt block 2, wordAt block 3⟩) := by
    cases hc
    rfl
  subst hc'
  have hw : Quad.Bounded32 ⟨wordAt block 0, wordAt block 1, wordAt block 2, wordAt block 3⟩ :=
    ⟨wordAt_lt hb 0, wordAt_lt hb 1, wordAt_lt hb 2, wordAt_lt hb 3⟩
  have hv : (sk.foldl (feistelStep (roundF sbox swapDR))
      ⟨wordAt block 0, wordAt block 1, wordAt block 2, wordAt block 3⟩).Bounded32 :=
    foldl_feistel_bounded (roundF_lt hs swapDR) sk hw
  unfold oneRound
  rw [if_neg (by rw [packRev_length]; omega)]
  obtain ⟨e0, e1, e2, e3⟩ := unpack_packRev hv
  rw [e0, e1, e2, e3]
  have hrev : (⟨(sk.foldl (feistelStep (roundF sbox swapDR))
        ⟨wordAt block 0, wordAt block 1, wordAt block 2, wordAt block 3⟩).x3,
      (sk.foldl (feistelStep (roundF sbox swapDR))
        ⟨wordAt block 0, wordAt block 1, wordAt block 2, wordAt block 3⟩).x2,
      (sk.foldl (feistelStep (roundF sbox swapDR))
        ⟨wordAt block 0, wordAt block 1, wordAt block 2, wordAt block 3⟩).x1,
      (sk.foldl (feistelStep (roundF sbox swapDR))
        ⟨wordAt block 0, wordAt block 1, wordAt block 2, wordAt block 3⟩).x0⟩ : Quad) =
      quadRev (sk.foldl (feistelStep (roundF sbox swapDR))
        ⟨wordAt block 0, wordAt block 1, wordAt block 2, wordAt block 3⟩) := rfl
  rw [hrev, feistel_reverse]
  rw [show quadRev ⟨wordAt block 0, wordAt block 1, wordAt block 2, wordAt block 3⟩ =
    ⟨wordAt block 3, wordAt block 2, wordAt block 1, wordAt block 0⟩ from rfl]
  rw [packRev_unpack hb hl]

theorem oneRound_ok_iff (sbox : List Nat) (swapDR : Bool) (sk : List Nat)
    (block : List Nat) (hl : block.length = 16) :
    oneRound sbox swapDR sk block = .ok (packRev (sk.foldl (feistelStep (roundF sbox swapDR))
      ⟨wordAt block 0, wordAt block 1, wordAt block 2, wordAt block 3⟩)) := by
  unfold oneRound
  rw [if_neg (by omega)]

end Sm4

/-! List-XOR and padding round-trip lemmas. -/

theorem lxor_length (a b : List Nat) : (lxor a b).length = min a.length b.length := by
  simp [lxor]

theorem lxor_cancel : ∀ (a k : List Nat), a.length ≤ k.length → lxor (lxor a k) k = a := by
  intro a
  induction a with
  | nil => intro k _; rfl
  | cons x t ih =>
    intro k hk
    rcases k with _ | ⟨y, k⟩
    · simp at hk
    · simp only [lxor, List.zipWith_cons_cons] at *
      rw [Nat.xor_cancel_right]
      have := ih k (by simpa using hk)
      simp only [lxor] at this
      rw [this]

theorem lxor_bytes {a k : List Nat} (ha : Bytes a) : ∀ hk : Bytes k, Bytes (lxor a k) := by
  intro hk x hx
  unfold lxor at hx
  rw [List.mem_iff_getElem] at hx
  obtain ⟨i, hi, rfl⟩ := hx
  rw [List.getElem_zipWith]
  simp only [List.length_zipWith] at hi
  exact byte_xor_lt (ha _ (List.getElem_mem _)) (hk _ (List.getElem_mem _))

theorem lxor_self_len (a k : List Nat) (h : a.length ≤ k.length) :
    (lxor a k).length = a.length := by
  rw [lxor_length]
  omega

/-- The PKCS#7 pad length is always between 1 and 16 and realigns the data. -/
theorem padLen_facts (n : Nat) : 1 ≤ 16 - n % 16 ∧ 16 - n % 16 ≤ 16 ∧
    (n + (16 - n % 16)) % 16 = 0 := by omega

theorem getLastD_append_replicate (data : List Nat) (n v : Nat) (hn : 1 ≤ n) :
    (data ++ List.replicate n v).getLastD 0 = v := by
  rcases n with _ | m
  · omega
  · rw [List.replicate_succ', ← List.append_assoc, List.getLastD_concat]

theorem take_sub_append {data rest : List Nat} (h : rest.length = n) :
    (data ++ rest).take ((data ++ rest).length - n) = data := by
  have hl : (data ++ rest).length - n = data.length := by simp; omega
  rw [hl, List.take_left]

namespace AesEnc

theorem unpad_pad_pkcs7 (data : List Nat) : unpad (pad data .pkcs7) .pkcs7 = .ok data := by
  simp only [pad, unpad]
  rw [if_neg (by simp; intro h; subst h; decide)]
  rw [getLastD_append_replicate data _ _ (by omega)]
  rw [if_neg (by omega)]
  rw [take_sub_append (by simp)]

theorem unpad_pad_ansix923 (data : List Nat) :
    unpad (pad data .ansix923) .ansix923 = .ok data := by
  simp only [pad, unpad]
  rw [if_neg (by simp)]
  rw [List.getLastD_concat]
  rw [if_neg (by omega)]
  rw [List.append_assoc]
  rw [take_sub_append (by simp; omega)]

theorem pad_length_aligned (data : List Nat) (p : Padding) (hp : p ≠ .nopadding) :
    (pad data p).length % 16 = 0 := by
  unfold pad
  rcases p with _ | _ | _ | _ | _ <;> simp_all <;> omega

theorem pad_bytes {data : List Nat} (hd : Bytes data) (p : Padding) : Bytes (pad data p) := by
  unfold pad
  rcases p with _ | _ | _ | _ | _
  · apply bytes_append hd
    intro x hx
    rw [List.eq_of_mem_replicate hx]
    omega
  · exact bytes_append hd (bytes_replicate_zero _)
  · refine bytes_append (bytes_append hd (bytes_replicate_zero _)) ?_
    intro x hx
    simp at hx
    omega
  · refine bytes_append (bytes_append hd (bytes_replicate_zero _)) ?_
    intro x hx
    simp at hx
    omega
  · exact hd

end AesEnc

namespace Sm4Enc

theorem sm4_unpad_pad_pkcs7 (data : List Nat) : unpad (pad data .pkcs7) .pkcs7 = .ok data := by
  simp only [pad, unpad]
  rw [if_neg (by simp; intro h; subst h; decide)]
  rw [getLastD_append_replicate data _ _ (by omega)]
  rw [if_neg (by omega)]
  have hdrop : (data ++ List.replicate (16 - data.length % 16) (16 - data.length % 16)).drop
      ((data ++ List.replicate (16 - data.length % 16) (16 - data.length % 16)).length -
        (16 - data.length % 16)) =
      List.replicate (16 - data.length % 16) (16 - data.length % 16) := by
    have hl : (data ++ List.replicate (16 - data.length % 16)
        (16 - data.length % 16)).length - (16 - data.length % 16) = data.length := by
      simp
    rw [hl, List.drop_left]
  rw [if_neg (by rw [hdrop]; simp)]
  rw [take_sub_append (by simp)]

theorem sm4_unpad_pad_ansix923 (data : List Nat) :
    unpad (pad data .ansix923) .ansix923 = .ok data := by
  simp only [pad, unpad]
  rw [if_neg (by simp)]
  rw [List.getLastD_concat]
  rw [if_neg (by omega)]
  rw [List.append_assoc]
  rw [take_sub_append (by simp; omega)]

theorem sm4_pad_length_aligned_pkcs7 (data : List Nat) : (pad data .pkcs7).length % 16 = 0 := by
  unfold pad
  simp
  omega

theorem sm4_pad_length_aligned (data : List Nat) (p : Padding) (hp : p ≠ .nopadding) :
    (pad data p).length % 16 = 0 ∨ p = .zeropadding ∧ data.length % 16 = 0 ∧
      pad data p = data := by
  unfold pad
  rcases p with _ | _ | _ | _ | _ <;> simp_all
  · omega
  · split
    · right
      simp_all
    · left
      simp
      omega
  · omega
  · omega

theorem sm4_pad_bytes {data : List Nat} (hd : Bytes data) (p : Padding) : Bytes (pad data p) := by
  rcases p with _ | _ | _ | _ | _ <;> simp only [pad] <;>
    first
      | exact hd
      | (apply bytes_append hd
         intro x hx
         rw [List.eq_of_mem_replicate hx]
         omega)
      | (refine bytes_append (bytes_append hd (bytes_replicate_zero _)) ?_
         intro x hx
         simp at hx
         omega)
      | (split
         · exact hd
         · exact bytes_append hd (bytes_replicate_zero _))

end Sm4Enc

/-! Base64 round trip. -/

set_option maxHeartbeats 1000000 in
theorem b64char_facts : ∀ n < 64, isB64Char (b64charOf n) = true ∧
    b64invOf (b64charOf n) = n ∧ b64charOf n ≠ '=' := by decide

theorem bytes_tail3 {a b c : Nat} {rest : List Nat} (h : Bytes (a :: b :: c :: rest)) :
    Bytes rest := by
  intro x hx
  exact h x (by simp [hx])

theorem b64encode_w_bounds {a b c : Nat} (ha : a < 256) (hb : b < 256) (hc : c < 256) :
    (a * 256 + b) * 256 + c < 16777216 := by omega

theorem b64encode_mem {l : List Nat} (hl : Bytes l) :
    ∀ c ∈ b64encode l, (isB64Char c || c == '=') = true := by
  induction l using b64encode.induct with
  | case1 a b c rest ih =>
    intro x hx
    have ha : a < 256 := hl a (by simp)
    have hb : b < 256 := hl b (by simp)
    have hc : c < 256 := hl c (by simp)
    simp only [b64encode, List.mem_cons] at hx
    rcases hx with rfl | rfl | rfl | rfl | hx
    · rw [(b64char_facts _ (by omega)).1]
      simp
    · rw [(b64char_facts _ (by omega)).1]
      simp
    · rw [(b64char_facts _ (by omega)).1]
      simp
    · rw [(b64char_facts _ (by omega)).1]
      simp
    · exact ih (bytes_tail3 hl) x hx
  | case2 a b =>
    intro x hx
    have ha : a < 256 := hl a (by simp)
    have hb : b < 256 := hl b (by simp)
    simp only [b64encode, List.mem_cons, List.not_mem_nil, or_false] at hx
    rcases hx with rfl | rfl | rfl | rfl
    · rw [(b64char_facts _ (by omega)).1]
      simp
    · rw [(b64char_facts _ (by omega)).1]
      simp
    · rw [(b64char_facts _ (by omega)).1]
      simp
    · simp
  | case3 a =>
    intro x hx
    have ha : a < 256 := hl a (by simp)
    simp only [b64encode, List.mem_cons, List.not_mem_nil, or_false] at hx
    rcases hx with rfl | rfl | rfl | rfl
    · rw [(b64char_facts _ (by omega)).1]
      simp
    · rw [(b64char_facts _ (by omega)).1]
      simp
    · simp
    · simp
  | case4 => intro x hx; simp [b64encode] at hx

theorem b64encode_len_mod (l : List Nat) : (b64encode l).length % 4 = 0 := by
  induction l using b64encode.induct with
  | case1 a b c rest ih =>
    simp only [b64encode, List.length_cons]
    omega
  | case2 a b => simp [b64encode]
  | case3 a => simp [b64encode]
  | case4 => rfl

theorem b64decodeGroups_encode : ∀ (l : List Nat), Bytes l →
    b64decodeGroups (b64encode l) = some l := by
  intro l
  induction l using b64encode.induct with
  | case1 a b c rest ih =>
    intro hl
    have ha : a < 256 := hl a (by simp)
    have hb : b < 256 := hl b (by simp)
    have hc : c < 256 := hl c (by simp)
    have h1 := b64char_facts (((a * 256 + b) * 256 + c) / 262144) (by omega)
    have h2 := b64char_facts (((a * 256 + b) * 256 + c) / 4096 % 64) (by omega)
    have h3 := b64char_facts (((a * 256 + b) * 256 + c) / 64 % 64) (by omega)
    have h4 := b64char_facts (((a * 256 + b) * 256 + c) % 64) (by omega)
    simp only [b64encode, b64decodeGroups]
    rw [if_pos ⟨h1.1, h2.1⟩]
    rw [if_neg h3.2.2, if_pos h3.1, if_neg h4.2.2, if_pos h4.1]
    rw [ih (bytes_tail3 hl)]
    rw [h1.2.1, h2.2.1, h3.2.1, h4.2.1]
    have e1 : ((a * 256 + b) * 256 + c) / 262144 * 4 +
        ((a * 256 + b) * 256 + c) / 4096 % 64 / 16 = a := by omega
    have e2 : ((a * 256 + b) * 256 + c) / 4096 % 64 % 16 * 16 +
        ((a * 256 + b) * 256 + c) / 64 % 64 / 4 = b := by omega
    have e3 : ((a * 256 + b) * 256 + c) / 64 % 64 % 4 * 64 +
        ((a * 256 + b) * 256 + c) % 64 = c := by omega
    rw [e1, e2, e3]
    rfl
  | case2 a b =>
    intro hl
    have ha : a < 256 := hl a (by simp)
    have hb : b < 256 := hl b (by simp)
    have h1 := b64char_facts ((a * 256 + b) * 4 / 4096) (by omega)
    have h2 := b64char_facts ((a * 256 + b) * 4 / 64 % 64) (by omega)
    have h3 := b64char_facts ((a * 256 + b) * 4 % 64) (by omega)
    simp only [b64encode, b64decodeGroups]
    rw [if_pos ⟨h1.1, h2.1⟩]
    rw [if_neg h3.2.2, if_pos h3.1]
    simp only [if_true, and_self, ite_true]
    rw [h1.2.1, h2.2.1, h3.2.1]
    have e1 : (a * 256 + b) * 4 / 4096 * 4 + (a * 256 + b) * 4 / 64 % 64 / 16 = a := by omega
    have e2 : (a * 256 + b) * 4 / 64 % 64 % 16 * 16 + (a * 256 + b) * 4 % 64 / 4 = b := by
      omega
    rw [e1, e2]
  | case3 a =>
    intro hl
    have ha : a < 256 := hl a (by simp)
    have h1 := b64char_facts (a * 16 / 64) (by omega)
    have h2 := b64char_facts (a * 16 % 64) (by omega)
    simp only [b64encode, b64decodeGroups]
    rw [if_pos ⟨h1.1, h2.1⟩]
    simp only [if_true, and_self, ite_true]
    rw [h1.2.1, h2.2.1]
    have e1 : a * 16 / 64 * 4 + a * 16 % 64 / 16 = a := by omega
    rw [e1]
  | case4 => intro _; rfl

/-- base64 decoding inverts base64 encoding. -/
theorem b64decode_encode {l : List Nat} (hl : Bytes l) : b64decode (b64encode l) = some l := by
  unfold b64decode
  rw [List.filter_eq_self.mpr (b64encode_mem hl)]
  rw [if_neg (by rw [b64encode_len_mod l]; omega)]
  exact b64decodeGroups_encode l hl

/-! AES mode-of-operation round trips, generic in the cipher context. -/

namespace AesEnc

theorem take_append_len16 {x : List Nat} (y : List Nat) (hx : x.length = 16) :
    (x ++ y).take 16 = x := by
  rw [← hx, List.take_left]

theorem drop_append_len16 {x : List Nat} (y : List Nat) (hx : x.length = 16) :
    (x ++ y).drop 16 = y := by
  rw [← hx, List.drop_left]

/-- Hypotheses on a cipher context under which the mode layer round-trips:
the block transforms are mutually inverse on bytes, and encryption maps
bytes to bytes. -/
def GoodCtx (ctx : Aes.Ctx) : Prop :=
  (∀ block, Bytes block → block.length = 16 →
    Aes.decryptBlock ctx (Aes.encryptBlock ctx block) = block) ∧
  (∀ block, Bytes block → Bytes (Aes.encryptBlock ctx block))

theorem goodCtx_std (key : List Nat) (hkey : Bytes key) (kS dR : Bool) :
    GoodCtx (Aes.mkCtx key none kS dR) :=
  ⟨fun block hb hl => Aes.decryptBlock_encryptBlock key hkey kS dR block hb hl,
   fun block hb => Aes.encryptBlock_bytes hkey kS dR block hb⟩

theorem ecbEnc_bytes {ctx : Aes.Ctx} (hctx : GoodCtx ctx) :
    ∀ l : List Nat, Bytes l → Bytes (ecbEnc ctx l) := by
  intro l
  induction l using ecbEnc.induct ctx with
  | case1 l hlen => intro hl; rw [ecbEnc, if_pos hlen]; intro x hx; simp at hx
  | case2 l hlen ih =>
    intro hl
    rw [ecbEnc, if_neg hlen]
    exact bytes_append (hctx.2 _ (bytes_take hl 16)) (ih (bytes_drop hl 16))

theorem ecbEnc_length {ctx : Aes.Ctx} :
    ∀ l : List Nat, l.length % 16 = 0 → (ecbEnc ctx l).length = l.length := by
  intro l
  induction l using ecbEnc.induct ctx with
  | case1 l hlen =>
    intro hmod
    rw [ecbEnc, if_pos hlen]
    simp
    omega
  | case2 l hlen ih =>
    intro hmod
    rw [ecbEnc, if_neg hlen]
    have hrec := ih (by simp; omega)
    simp [hrec]
    have h := Aes.encryptBlock_length ctx (l.take 16)
    omega

theorem ecbDec_ecbEnc {ctx : Aes.Ctx} (hctx : GoodCtx ctx) :
    ∀ l : List Nat, Bytes l → l.length % 16 = 0 → ecbDec ctx (ecbEnc ctx l) = l := by
  intro l
  induction l using ecbEnc.induct ctx with
  | case1 l hlen =>
    intro hl hmod
    have hnil : l = [] := by
      rcases l with _ | ⟨x, t⟩
      · rfl
      · simp at hlen hmod
        omega
    subst hnil
    rw [ecbEnc, if_pos (by simp), ecbDec, if_pos (by simp)]
  | case2 l hlen ih =>
    intro hl hmod
    rw [ecbEnc, if_neg hlen]
    have henclen : (Aes.encryptBlock ctx (l.take 16)).length = 16 :=
      Aes.encryptBlock_length ctx (l.take 16)
    rw [ecbDec, if_neg (by simp [henclen])]
    rw [take_append_len16 _ henclen, drop_append_len16 _ henclen]
    rw [hctx.1 (l.take 16) (bytes_take hl 16) (by simp; omega)]
    rw [ih (bytes_drop hl 16) (by simp; omega)]
    exact List.take_append_drop 16 l

theorem cbcEnc_ok {ctx : Aes.Ctx} (hctx : GoodCtx ctx) (prev l : List Nat) :
    Bytes l → l.length % 16 = 0 → Bytes prev → prev.length = 16 →
    ∃ c, cbcEnc ctx prev l = .ok c ∧ Bytes c ∧ c.length = l.length := by
  induction prev, l using cbcEnc.induct ctx with
  | case1 prev =>
    intro _ _ _ _
    exact ⟨[], by rw [cbcEnc]; simp, by intro x hx; simp at hx, rfl⟩
  | case2 prev l hne hshort =>
    intro hl hmod hprevb hprev
    exfalso
    rw [lxor_length, hprev] at hshort
    have hpos := List.length_pos.mpr hne
    simp at hshort
    omega
  | case3 prev l hne hfull rest heq ih =>
    intro hl hmod hprevb hprev
    have hblockb : Bytes (lxor (l.take 16) prev) := lxor_bytes (bytes_take hl 16) hprevb
    obtain ⟨c', hc', hcb', hcl'⟩ := ih (bytes_drop hl 16) (by simp; omega)
      (hctx.2 _ hblockb) (Aes.encryptBlock_length ctx _)
    rw [heq] at hc'
    have hrest : rest = c' := by
      cases hc'
      rfl
    subst hrest
    refine ⟨Aes.encryptBlock ctx (lxor (l.take 16) prev) ++ rest, ?_, ?_, ?_⟩
    · rw [cbcEnc, dif_neg hne, if_neg hfull, heq]
    · exact bytes_append (hctx.2 _ hblockb) hcb'
    · have h1 := Aes.encryptBlock_length ctx (lxor (l.take 16) prev)
      have h2 : (l.drop 16).length = l.length - 16 := by simp
      have hpos := List.length_pos.mpr hne
      simp only [List.length_append]
      omega
  | case4 prev l hne hfull e heq ih =>
    intro hl hmod hprevb hprev
    exfalso
    have hblockb : Bytes (lxor (l.take 16) prev) := lxor_bytes (bytes_take hl 16) hprevb
    obtain ⟨c', hc', _, _⟩ := ih (bytes_drop hl 16) (by simp; omega)
      (hctx.2 _ hblockb) (Aes.encryptBlock_length ctx _)
    rw [heq] at hc'
    cases hc'

theorem cbcDec_cbcEnc {ctx : Aes.Ctx} (hctx : GoodCtx ctx) (prev l : List Nat) :
    Bytes l → l.length % 16 = 0 → Bytes prev → prev.length = 16 →
    ∀ c, cbcEnc ctx prev l = .ok c → cbcDec ctx prev c = l := by
  induction prev, l using cbcEnc.induct ctx with
  | case1 prev =>
    intro _ _ _ _ c hc
    rw [cbcEnc] at hc
    simp at hc
    subst hc
    rw [cbcDec]
    simp
  | case2 prev l hne hshort =>
    intro hl hmod hprevb hprev
    exfalso
    rw [lxor_length, hprev] at hshort
    have hpos := List.length_pos.mpr hne
    simp at hshort
    omega
  | case3 prev l hne hfull rest heq ih =>
    intro hl hmod hprevb hprev c hc
    have hblockb : Bytes (lxor (l.take 16) prev) := lxor_bytes (bytes_take hl 16) hprevb
    have hblen : (lxor (l.take 16) prev).length = 16 := by
      rw [lxor_length, hprev]
      have hpos := List.length_pos.mpr hne
      simp
      omega
    rw [cbcEnc, dif_neg hne, if_neg hfull, heq] at hc
    have hc' : c = Aes.encryptBlock ctx (lxor (l.take 16) prev) ++ rest := by
      cases hc
      rfl
    subst hc'
    have henclen := Aes.encryptBlock_length ctx (lxor (l.take 16) prev)
    rw [cbcDec, if_neg (by simp [henclen])]
    rw [take_append_len16 _ henclen, drop_append_len16 _ henclen]
    rw [hctx.1 _ hblockb hblen]
    rw [lxor_cancel _ _ (by rw [hprev]; simp)]
    rw [ih (bytes_drop hl 16) (by simp; omega) (hctx.2 _ hblockb)
      (Aes.encryptBlock_length ctx _) rest heq]
    exact List.take_append_drop 16 l
  | case4 prev l hne hfull e heq ih =>
    intro hl hmod hprevb hprev c hc
    rw [cbcEnc, dif_neg hne, if_neg hfull, heq] at hc
    cases hc

end AesEnc



/-! AES stream-mode lemmas: length preservation, byte-ness and involution. -/

theorem natToBytesBE_bytes (n v : Nat) : Bytes (natToBytesBE n v) := by
  intro x hx
  unfold natToBytesBE at hx
  obtain ⟨i, _, rfl⟩ := List.mem_map.mp hx
  exact Nat.mod_lt _ (by omega)

theorem natToBytesBE_length (n v : Nat) : (natToBytesBE n v).length = n := by
  simp [natToBytesBE]

theorem lxor_take_len (a k : List Nat) (h : a.length ≤ k.length) :
    (lxor a (k.take a.length)).length = a.length := by
  rw [lxor_length]
  simp
  omega

theorem lxor_take_cancel (a k : List Nat) (h : a.length ≤ k.length) :
    lxor (lxor a (k.take a.length)) (k.take a.length) = a := by
  apply lxor_cancel
  simp
  omega

namespace AesEnc

theorem ctrProc_length {ctx : Aes.Ctx} :
    ∀ (ctr : Nat) (l : List Nat) (c : List Nat), ctrProc ctx ctr l = .ok c →
      c.length = l.length := by
  intro ctr l
  induction ctr, l using ctrProc.induct ctx with
  | case1 ctr =>
    intro c hc
    rw [ctrProc] at hc
    simp at hc
    subst hc
    rfl
  | case2 ctr l hne hovf =>
    intro c hc
    rw [ctrProc, dif_neg hne, if_pos hovf] at hc
    cases hc
  | case3 ctr l hne hovf rest heq ih =>
    intro c hc
    rw [ctrProc, dif_neg hne, if_neg hovf, heq] at hc
    cases hc
    have hr := ih rest heq
    rw [List.length_append, hr, lxor_take_len _ _ (by rw [Aes.encryptBlock_length]; simp)]
    simp
    omega
  | case4 ctr l hne hovf e heq ih =>
    intro c hc
    rw [ctrProc, dif_neg hne, if_neg hovf, heq] at hc
    cases hc

theorem ctrProc_bytes {ctx : Aes.Ctx} (hctx : GoodCtx ctx) :
    ∀ (ctr : Nat) (l : List Nat), Bytes l → ∀ c, ctrProc ctx ctr l = .ok c → Bytes c := by
  intro ctr l
  induction ctr, l using ctrProc.induct ctx with
  | case1 ctr =>
    intro _ c hc
    rw [ctrProc] at hc
    simp at hc
    subst hc
    intro x hx
    simp at hx
  | case2 ctr l hne hovf =>
    intro _ c hc
    rw [ctrProc, dif_neg hne, if_pos hovf] at hc
    cases hc
  | case3 ctr l hne hovf rest heq ih =>
    intro hl c hc
    rw [ctrProc, dif_neg hne, if_neg hovf, heq] at hc
    cases hc
    exact bytes_append (lxor_bytes (bytes_take hl 16)
      (bytes_take (hctx.2 _ (natToBytesBE_bytes 16 ctr)) _)) (ih (bytes_drop hl 16) rest heq)
  | case4 ctr l hne hovf e heq ih =>
    intro _ c hc
    rw [ctrProc, dif_neg hne, if_neg hovf, heq] at hc
    cases hc

theorem ctrProc_nil {ctx : Aes.Ctx} (ctr : Nat) : ctrProc ctx ctr [] = .ok [] := by
  rw [ctrProc]
  simp

theorem ctrProc_ok_cons {ctx : Aes.Ctx} {ctr : Nat} {l rest : List Nat} (hne : l ≠ [])
    (hovf : ¬ 2 ^ 128 ≤ ctr) (hrec : ctrProc ctx (ctr + 1) (l.drop 16) = .ok rest) :
    ctrProc ctx ctr l = .ok (lxor (l.take 16)
      ((Aes.encryptBlock ctx (natToBytesBE 16 ctr)).take (l.take 16).length) ++ rest) := by
  conv_lhs => rw [ctrProc]
  rw [dif_neg hne, if_neg hovf, hrec]

theorem ctrProc_inverse {ctx : Aes.Ctx} :
    ∀ (ctr : Nat) (l : List Nat) (c : List Nat), ctrProc ctx ctr l = .ok c →
      ctrProc ctx ctr c = .ok l := by
  intro ctr l
  induction ctr, l using ctrProc.induct ctx with
  | case1 ctr =>
    intro c hc
    rw [ctrProc_nil] at hc
    cases hc
    exact ctrProc_nil ctr
  | case2 ctr l hne hovf =>
    intro c hc
    rw [ctrProc, dif_neg hne, if_pos hovf] at hc
    cases hc
  | case3 ctr l hne hovf rest heq ih =>
    intro c hc
    rw [ctrProc_ok_cons hne hovf heq] at hc
    cases hc
    have hkslen : (Aes.encryptBlock ctx (natToBytesBE 16 ctr)).length = 16 :=
      Aes.encryptBlock_length ctx _
    have hchunklen : (l.take 16).length ≤ 16 := by simp
    have hcclen : (lxor (l.take 16) ((Aes.encryptBlock ctx (natToBytesBE 16 ctr)).take
        (l.take 16).length)).length = (l.take 16).length :=
      lxor_take_len _ _ (by omega)
    have hlpos := List.length_pos.mpr hne
    have hccpos : 0 < (lxor (l.take 16) ((Aes.encryptBlock ctx (natToBytesBE 16 ctr)).take
        (l.take 16).length)).length := by
      rw [hcclen]
      simp
      omega
    have hccne : lxor (l.take 16) ((Aes.encryptBlock ctx (natToBytesBE 16 ctr)).take
        (l.take 16).length) ≠ [] := by
      intro hnil
      rw [hnil] at hccpos
      simp at hccpos
    have hrest_inv := ih rest heq
    rcases Nat.lt_or_ge l.length 16 with hlt | hge
    · have hdropl : l.drop 16 = [] := by
        apply List.eq_nil_of_length_eq_zero
        simp
        omega
      rw [hdropl, ctrProc_nil] at heq
      cases heq
      have htl : (l.take 16) = l := List.take_of_length_le (by omega)
      have hcclt : (lxor (l.take 16) ((Aes.encryptBlock ctx (natToBytesBE 16 ctr)).take
          (l.take 16).length)).length ≤ 16 := by omega
      have hccdrop : (lxor (l.take 16) ((Aes.encryptBlock ctx (natToBytesBE 16 ctr)).take
          (l.take 16).length) ++ ([] : List Nat)).drop 16 = [] := by
        rw [List.append_nil]
        exact List.drop_eq_nil_of_le hcclt
      have hcctake : (lxor (l.take 16) ((Aes.encryptBlock ctx (natToBytesBE 16 ctr)).take
          (l.take 16).length) ++ ([] : List Nat)).take 16 =
          lxor (l.take 16) ((Aes.encryptBlock ctx (natToBytesBE 16 ctr)).take
            (l.take 16).length) := by
        rw [List.append_nil]
        exact List.take_of_length_le hcclt
      rw [ctrProc_ok_cons (by rw [List.append_nil]; exact hccne) hovf (by rw [hccdrop]; exact ctrProc_nil _)]
      rw [hcctake]
      congr 1
      rw [List.append_nil, hcclen]
      rw [lxor_take_cancel _ _ (by omega)]
      rw [htl]
    · have htlen : (l.take 16).length = 16 := by simp; omega
      have hcclen16 : (lxor (l.take 16) ((Aes.encryptBlock ctx (natToBytesBE 16 ctr)).take
          (l.take 16).length)).length = 16 := by omega
      have htake := take_append_len16 rest hcclen16
      have hdrop := drop_append_len16 rest hcclen16
      rw [ctrProc_ok_cons (by
          intro hnil
          rw [List.append_eq_nil] at hnil
          exact hccne hnil.1) hovf (by rw [hdrop]; exact hrest_inv)]
      rw [htake]
      congr 1
      rw [hcclen16, htlen]
      rw [show ((Aes.encryptBlock ctx (natToBytesBE 16 ctr)).take 16) =
        Aes.encryptBlock ctx (natToBytesBE 16 ctr) from
          List.take_of_length_le (by rw [hkslen])]
      rw [lxor_cancel _ _ (by rw [hkslen, htlen])]
      rw [List.take_append_drop]
  | case4 ctr l hne hovf e heq ih =>
    intro c hc
    rw [ctrProc, dif_neg hne, if_neg hovf, heq] at hc
    cases hc

end AesEnc


namespace AesEnc

theorem ofbProc_nil {ctx : Aes.Ctx} (last : List Nat) : ofbProc ctx last [] = [] := by
  rw [ofbProc]
  simp

theorem ofbProc_cons {ctx : Aes.Ctx} {last l : List Nat} (hne : l ≠ []) :
    ofbProc ctx last l = lxor (l.take 16)
      ((Aes.encryptBlock ctx last).take (l.take 16).length) ++
        ofbProc ctx (Aes.encryptBlock ctx last) (l.drop 16) := by
  conv_lhs => rw [ofbProc]
  rw [dif_neg hne]

theorem ofbProc_length {ctx : Aes.Ctx} :
    ∀ (last l : List Nat), (ofbProc ctx last l).length = l.length := by
  intro last l
  induction last, l using ofbProc.induct ctx with
  | case1 last => rw [ofbProc_nil]
  | case2 last l hne ih =>
    rw [ofbProc_cons hne]
    rw [List.length_append, ih, lxor_take_len _ _ (by rw [Aes.encryptBlock_length]; simp)]
    simp
    omega

theorem ofbProc_bytes {ctx : Aes.Ctx} (hctx : GoodCtx ctx) :
    ∀ (last l : List Nat), Bytes last → Bytes l → Bytes (ofbProc ctx last l) := by
  intro last l
  induction last, l using ofbProc.induct ctx with
  | case1 last =>
    intro _ _ x hx
    rw [ofbProc_nil] at hx
    simp at hx
  | case2 last l hne ih =>
    intro hlast hl
    rw [ofbProc_cons hne]
    exact bytes_append (lxor_bytes (bytes_take hl 16) (bytes_take (hctx.2 _ hlast) _))
      (ih (hctx.2 _ hlast) (bytes_drop hl 16))

theorem ofbProc_involutive {ctx : Aes.Ctx} :
    ∀ (last l : List Nat), ofbProc ctx last (ofbProc ctx last l) = l := by
  intro last l
  induction last, l using ofbProc.induct ctx with
  | case1 last => rw [ofbProc_nil, ofbProc_nil]
  | case2 last l hne ih =>
    rw [ofbProc_cons hne]
    have hkslen : (Aes.encryptBlock ctx last).length = 16 := Aes.encryptBlock_length ctx _
    have hchunklen : (l.take 16).length ≤ 16 := by simp
    have hcclen : (lxor (l.take 16) ((Aes.encryptBlock ctx last).take
        (l.take 16).length)).length = (l.take 16).length := lxor_take_len _ _ (by omega)
    have hlpos := List.length_pos.mpr hne
    have hccne : lxor (l.take 16) ((Aes.encryptBlock ctx last).take (l.take 16).length)
        ≠ [] := by
      intro hnil
      rw [hnil] at hcclen
      simp at hcclen
      omega
    rcases Nat.lt_or_ge l.length 16 with hlt | hge
    · have hdropl : l.drop 16 = [] := by
        apply List.eq_nil_of_length_eq_zero
        simp
        omega
      rw [hdropl, ofbProc_nil, List.append_nil]
      have htl : l.take 16 = l := List.take_of_length_le (by omega)
      have hcclt : (lxor (l.take 16) ((Aes.encryptBlock ctx last).take
          (l.take 16).length)).length ≤ 16 := by omega
      rw [ofbProc_cons hccne]
      rw [List.take_of_length_le hcclt, List.drop_eq_nil_of_le hcclt, ofbProc_nil,
        List.append_nil, hcclen]
      rw [lxor_take_cancel _ _ (by omega), htl]
    · have htlen : (l.take 16).length = 16 := by simp; omega
      have hcclen16 : (lxor (l.take 16) ((Aes.encryptBlock ctx last).take
          (l.take 16).length)).length = 16 := by omega
      rw [ofbProc_cons (by
        intro hnil
        rw [List.append_eq_nil] at hnil
        exact hccne hnil.1)]
      rw [take_append_len16 _ hcclen16, drop_append_len16 _ hcclen16, ih]
      rw [hcclen16, htlen]
      rw [show ((Aes.encryptBlock ctx last).take 16) = Aes.encryptBlock ctx last from
        List.take_of_length_le (by rw [hkslen])]
      rw [lxor_cancel _ _ (by rw [hkslen, htlen])]
      rw [List.take_append_drop]

theorem cfbEnc_nil {ctx : Aes.Ctx} (last : List Nat) : cfbEnc ctx last [] = [] := by
  rw [cfbEnc]
  simp

theorem cfbEnc_cons {ctx : Aes.Ctx} {last l : List Nat} (hne : l ≠ []) :
    cfbEnc ctx last l = lxor (l.take 16)
      ((Aes.encryptBlock ctx last).take (l.take 16).length) ++
        cfbEnc ctx
          (if (l.take 16).length = 16 then
            lxor (l.take 16) ((Aes.encryptBlock ctx last).take (l.take 16).length)
          else last) (l.drop 16) := by
  conv_lhs => rw [cfbEnc]
  rw [dif_neg hne]

theorem cfbDec_nil {ctx : Aes.Ctx} (last : List Nat) : cfbDec ctx last [] = [] := by
  rw [cfbDec]
  simp

theorem cfbDec_cons {ctx : Aes.Ctx} {last l : List Nat} (hne : l ≠ []) :
    cfbDec ctx last l = lxor (l.take 16)
      ((Aes.encryptBlock ctx last).take (l.take 16).length) ++
        cfbDec ctx (if (l.take 16).length = 16 then l.take 16 else last) (l.drop 16) := by
  conv_lhs => rw [cfbDec]
  rw [dif_neg hne]

theorem cfbEnc_length {ctx : Aes.Ctx} :
    ∀ (last l : List Nat), (cfbEnc ctx last l).length = l.length := by
  intro last l
  induction last, l using cfbEnc.induct ctx with
  | case1 last => rw [cfbEnc_nil]
  | case2 last l hne ih =>
    simp only [dite_eq_ite] at ih
    rw [cfbEnc_cons hne]
    rw [List.length_append, ih, lxor_take_len _ _ (by rw [Aes.encryptBlock_length]; simp)]
    simp
    omega

theorem cfbEnc_bytes {ctx : Aes.Ctx} (hctx : GoodCtx ctx) :
    ∀ (last l : List Nat), Bytes last → Bytes l → Bytes (cfbEnc ctx last l) := by
  intro last l
  induction last, l using cfbEnc.induct ctx with
  | case1 last =>
    intro _ _ x hx
    rw [cfbEnc_nil] at hx
    simp at hx
  | case2 last l hne ih =>
    intro hlast hl
    simp only [dite_eq_ite] at ih
    have hccb : Bytes (lxor (l.take 16) ((Aes.encryptBlock ctx last).take
        (l.take 16).length)) :=
      lxor_bytes (bytes_take hl 16) (bytes_take (hctx.2 _ hlast) _)
    rw [cfbEnc_cons hne]
    refine bytes_append hccb (ih ?_ (bytes_drop hl 16))
    split
    · exact hccb
    · exact hlast

theorem cfbDec_cfbEnc {ctx : Aes.Ctx} :
    ∀ (last l : List Nat), cfbDec ctx last (cfbEnc ctx last l) = l := by
  intro last l
  induction last, l using cfbEnc.induct ctx with
  | case1 last => rw [cfbEnc_nil, cfbDec_nil]
  | case2 last l hne ih =>
    simp only [dite_eq_ite] at ih
    rw [cfbEnc_cons hne]
    have hkslen : (Aes.encryptBlock ctx last).length = 16 := Aes.encryptBlock_length ctx _
    have hchunklen : (l.take 16).length ≤ 16 := by simp
    have hcclen : (lxor (l.take 16) ((Aes.encryptBlock ctx last).take
        (l.take 16).length)).length = (l.take 16).length := lxor_take_len _ _ (by omega)
    have hlpos := List.length_pos.mpr hne
    have hccne : lxor (l.take 16) ((Aes.encryptBlock ctx last).take (l.take 16).length)
        ≠ [] := by
      intro hnil
      rw [hnil] at hcclen
      simp at hcclen
      omega
    rcases Nat.lt_or_ge l.length 16 with hlt | hge
    · have hdropl : l.drop 16 = [] := by
        apply List.eq_nil_of_length_eq_zero
        simp
        omega
      have htlen : (l.take 16).length = l.length := by simp; omega
      have hiffalse : ¬ (l.take 16).length = 16 := by omega
      rw [hdropl, if_neg hiffalse, cfbEnc_nil, List.append_nil]
      have htl : l.take 16 = l := List.take_of_length_le (by omega)
      have hcclt : (lxor (l.take 16) ((Aes.encryptBlock ctx last).take
          (l.take 16).length)).length ≤ 16 := by omega
      rw [cfbDec_cons hccne]
      rw [List.take_of_length_le hcclt, List.drop_eq_nil_of_le hcclt, cfbDec_nil,
        List.append_nil, hcclen]
      rw [lxor_take_cancel _ _ (by omega), htl]
    · have htlen : (l.take 16).length = 16 := by simp; omega
      have hcclen16 : (lxor (l.take 16) ((Aes.encryptBlock ctx last).take
          (l.take 16).length)).length = 16 := by omega
      rw [if_pos htlen]
      rw [cfbDec_cons (by
        intro hnil
        rw [List.append_eq_nil] at hnil
        exact hccne hnil.1)]
      rw [take_append_len16 _ hcclen16, drop_append_len16 _ hcclen16]
      rw [if_pos (by rw [hcclen16])]
      have hih := ih
      rw [if_pos htlen] at hih
      rw [hih]
      rw [hcclen16, htlen]
      rw [show ((Aes.encryptBlock ctx last).take 16) = Aes.encryptBlock ctx last from
        List.take_of_length_le (by rw [hkslen])]
      rw [lxor_cancel _ _ (by rw [hkslen, htlen])]
      rw [List.take_append_drop]

end AesEnc

/-! SM4 mode-of-operation lemmas. -/

namespace Sm4Enc

/-- Pairing of an encryption-order and a decryption-order SM4 context. -/
def CtxPair (e d : Ctx) : Prop :=
  Bytes e.sbox ∧ d.sbox = e.sbox ∧ d.swapDR = e.swapDR ∧ d.sk = e.sk.reverse

theorem sm4Sbox_bytes : Bytes Sm4.STANDARD_SBOX := by decide

theorem mkCtx_sbox (key : List Nat) (sOpt : Option (List Nat)) (d kS dR : Bool) :
    (mkCtx key sOpt d kS dR).sbox = Sm4.resolveSbox sOpt := rfl

theorem mkCtx_sk (key : List Nat) (sOpt : Option (List Nat)) (d kS dR : Bool) :
    (mkCtx key sOpt d kS dR).sk =
      if d then (Sm4.skOf (Sm4.resolveSbox sOpt) kS key).reverse
      else Sm4.skOf (Sm4.resolveSbox sOpt) kS key := rfl

theorem mkCtx_swapDR (key : List Nat) (sOpt : Option (List Nat)) (d kS dR : Bool) :
    (mkCtx key sOpt d kS dR).swapDR = dR := rfl

theorem mkCtx_pair (key : List Nat) (kS dR : Bool) :
    CtxPair (mkCtx key none false kS dR) (mkCtx key none true kS dR) := by
  refine ⟨?_, ?_, ?_, ?_⟩
  · rw [mkCtx_sbox]
    exact sm4Sbox_bytes
  · rw [mkCtx_sbox, mkCtx_sbox]
  · rw [mkCtx_swapDR, mkCtx_swapDR]
  · rw [mkCtx_sk, mkCtx_sk, if_pos rfl, if_neg (by simp)]

theorem blockOp_eq {ctx : Ctx} {b : List Nat} (hl : b.length = 16) :
    blockOp ctx b = .ok (blockVal ctx b) :=
  Sm4.oneRound_ok_iff ctx.sbox ctx.swapDR ctx.sk b hl

theorem blockVal_length (ctx : Ctx) (b : List Nat) : (blockVal ctx b).length = 16 :=
  Sm4.packRev_length _

theorem blockVal_bytes (ctx : Ctx) (b : List Nat) : Bytes (blockVal ctx b) :=
  Sm4.packRev_bytes _

theorem blockVal_ne_nil (ctx : Ctx) (b : List Nat) : blockVal ctx b ≠ [] := by
  intro hnil
  have h := blockVal_length ctx b
  rw [hnil] at h
  simp at h

theorem blockVal_inverse {e d : Ctx} (hp : CtxPair e d) {b : List Nat} (hbb : Bytes b)
    (hl : b.length = 16) : blockOp d (blockVal e b) = .ok b := by
  unfold blockOp
  rw [hp.2.1, hp.2.2.1, hp.2.2.2]
  exact Sm4.oneRound_inverse hp.1 e.swapDR e.sk hbb hl (blockOp_eq hl)

theorem ecbEnc_nil {ctx : Ctx} : ecbEnc ctx [] = .ok [] := by
  rw [ecbEnc, if_pos (by simp)]

theorem ecbDec_nil {d : Ctx} : ecbDec d [] = .ok [] := by
  rw [ecbDec, dif_pos rfl]

theorem cbcEnc_nil {ctx : Ctx} (prev : List Nat) : cbcEnc ctx prev [] = .ok [] := by
  rw [cbcEnc, dif_pos rfl]

theorem cbcDec_nil {d : Ctx} (prev : List Nat) : cbcDec d prev [] = .ok [] := by
  rw [cbcDec, dif_pos rfl]

theorem sm4_ecbEnc_ok {ctx : Ctx} :
    ∀ l : List Nat, l.length % 16 = 0 →
    ∃ c, ecbEnc ctx l = .ok c ∧ c.length = l.length ∧ Bytes c ∧
      ∀ d, CtxPair ctx d → Bytes l → ecbDec d c = .ok l := by
  intro l
  induction l using ecbEnc.induct ctx with
  | case1 l hlen =>
    intro hmod
    have hnil : l = [] := by
      rcases l with _ | ⟨x, t⟩
      · rfl
      · simp at hlen hmod; omega
    subst hnil
    exact ⟨[], ecbEnc_nil, rfl, by intro x hx; simp at hx,
      fun d hp hl => ecbDec_nil⟩
  | case2 l hlen e' heq =>
    intro hmod
    exfalso
    rw [blockOp_eq (by simp; omega)] at heq
    cases heq
  | case3 l hlen enc heq rest hrec ih =>
    intro hmod
    obtain ⟨c, hc, hclen, hcb, hdec⟩ := ih (by simp; omega)
    rw [hrec] at hc
    cases hc
    rw [blockOp_eq (by simp; omega)] at heq
    cases heq
    refine ⟨blockVal ctx (l.take 16) ++ rest, ?_, ?_, ?_, ?_⟩
    · rw [ecbEnc, if_neg hlen, blockOp_eq (by simp; omega)]
      simp only [hrec]
    · rw [List.length_append, hclen, blockVal_length]
      simp
      omega
    · exact bytes_append (blockVal_bytes _ _) hcb
    · intro d hp hl
      have hbl := blockVal_length ctx (l.take 16)
      rw [ecbDec, dif_neg (by
        intro hnil
        rw [List.append_eq_nil] at hnil
        exact blockVal_ne_nil ctx (l.take 16) hnil.1)]
      rw [AesEnc.take_append_len16 _ hbl, AesEnc.drop_append_len16 _ hbl]
      rw [blockVal_inverse hp (bytes_take hl 16) (by simp; omega)]
      simp only [hdec d hp (bytes_drop hl 16)]
      rw [List.take_append_drop]
  | case4 l hlen enc heq e' hrec ih =>
    intro hmod
    obtain ⟨c, hc, _, _, _⟩ := ih (by simp; omega)
    rw [hrec] at hc
    cases hc

theorem sm4_cbcEnc_ok {ctx : Ctx} :
    ∀ (prev l : List Nat), Bytes l → l.length % 16 = 0 → Bytes prev → prev.length = 16 →
    ∃ c, cbcEnc ctx prev l = .ok c ∧ c.length = l.length ∧ Bytes c ∧
      ∀ d, CtxPair ctx d → cbcDec d prev c = .ok l := by
  intro prev l
  induction prev, l using cbcEnc.induct ctx with
  | case1 prev =>
    intro _ _ _ _
    exact ⟨[], cbcEnc_nil prev, rfl, by intro x hx; simp at hx,
      fun d hp => cbcDec_nil prev⟩
  | case2 prev l hne e' heq =>
    intro hl hmod hpb hplen
    exfalso
    have hblen : (lxor (l.take 16) prev).length = 16 := by
      rw [lxor_length, hplen]
      have := List.length_pos.mpr hne
      simp
      omega
    rw [blockOp_eq hblen] at heq
    cases heq
  | case3 prev l hne out heq rest hrec ih =>
    intro hl hmod hpb hplen
    have hblen : (lxor (l.take 16) prev).length = 16 := by
      rw [lxor_length, hplen]
      have := List.length_pos.mpr hne
      simp
      omega
    have hbb : Bytes (lxor (l.take 16) prev) := lxor_bytes (bytes_take hl 16) hpb
    rw [blockOp_eq hblen] at heq
    cases heq
    obtain ⟨c, hc, hclen, hcb, hdec⟩ := ih (bytes_drop hl 16) (by simp; omega)
      (blockVal_bytes _ _) (blockVal_length _ _)
    rw [hrec] at hc
    cases hc
    refine ⟨blockVal ctx (lxor (l.take 16) prev) ++ rest, ?_, ?_, ?_, ?_⟩
    · rw [cbcEnc, dif_neg hne, blockOp_eq hblen]
      simp only [hrec]
    · rw [List.length_append, hclen, blockVal_length]
      have := List.length_pos.mpr hne
      simp
      omega
    · exact bytes_append (blockVal_bytes _ _) hcb
    · intro d hp
      have hbl := blockVal_length ctx (lxor (l.take 16) prev)
      rw [cbcDec, dif_neg (by
        intro hnil
        rw [List.append_eq_nil] at hnil
        exact blockVal_ne_nil _ _ hnil.1)]
      rw [AesEnc.take_append_len16 _ hbl, AesEnc.drop_append_len16 _ hbl]
      rw [blockVal_inverse hp hbb hblen]
      simp only [hdec d hp]
      rw [lxor_cancel _ _ (by rw [hplen]; simp)]
      rw [List.take_append_drop]
  | case4 prev l hne out heq e' hrec ih =>
    intro hl hmod hpb hplen
    have hblen : (lxor (l.take 16) prev).length = 16 := by
      rw [lxor_length, hplen]
      have := List.length_pos.mpr hne
      simp
      omega
    rw [blockOp_eq hblen] at heq
    cases heq
    obtain ⟨c, hc, _, _, _⟩ := ih (bytes_drop hl 16) (by simp; omega)
      (blockVal_bytes _ _) (blockVal_length _ _)
    rw [hrec] at hc
    cases hc

end Sm4Enc


/-! SM4 stream-mode (CTR/OFB/CFB) lemmas. In `sm4_decrypt` the stream modes
use the encryption-order context, so inversion is with the same `Ctx`. -/

namespace Sm4Enc

theorem sm4_ctrProc_nil {ctx : Ctx} (ctr : Nat) : ctrProc ctx ctr [] = .ok [] := by
  rw [ctrProc, dif_pos rfl]

theorem sm4_ctrProc_ok_cons {ctx : Ctx} {ctr : Nat} {l rest : List Nat} (hne : l ≠ [])
    (hovf : ¬ 2 ^ 128 ≤ ctr)
    (hrec : ctrProc ctx (ctr + 1) (l.drop 16) = .ok rest) :
    ctrProc ctx ctr l = .ok (lxor (l.take 16)
      ((blockVal ctx (natToBytesBE 16 ctr)).take (l.take 16).length) ++ rest) := by
  conv_lhs => rw [ctrProc]
  rw [dif_neg hne, if_neg hovf, blockOp_eq (natToBytesBE_length 16 ctr)]
  simp only [hrec]

theorem sm4_ctrProc_length {ctx : Ctx} :
    ∀ (ctr : Nat) (l c : List Nat), ctrProc ctx ctr l = .ok c → c.length = l.length := by
  intro ctr l
  induction ctr, l using ctrProc.induct ctx with
  | case1 ctr =>
    intro c hc
    rw [sm4_ctrProc_nil] at hc
    cases hc
    rfl
  | case2 ctr l hne hovf =>
    intro c hc
    rw [ctrProc, dif_neg hne, if_pos hovf] at hc
    cases hc
  | case3 ctr l hne hovf e heq =>
    intro c hc
    rw [blockOp_eq (natToBytesBE_length 16 ctr)] at heq
    cases heq
  | case4 ctr l hne hovf res heq rest hrec ih =>
    intro c hc
    rw [blockOp_eq (natToBytesBE_length 16 ctr)] at heq
    cases heq
    rw [sm4_ctrProc_ok_cons hne hovf hrec] at hc
    cases hc
    rw [List.length_append, ih rest hrec,
      lxor_take_len _ _ (by rw [blockVal_length]; simp)]
    simp
    omega
  | case5 ctr l hne hovf res heq e hrec ih =>
    intro c hc
    rw [blockOp_eq (natToBytesBE_length 16 ctr)] at heq
    cases heq
    rw [ctrProc, dif_neg hne, if_neg hovf, blockOp_eq (natToBytesBE_length 16 ctr)] at hc
    simp only [hrec] at hc
    cases hc

theorem sm4_ctrProc_bytes {ctx : Ctx} :
    ∀ (ctr : Nat) (l : List Nat), Bytes l → ∀ c, ctrProc ctx ctr l = .ok c → Bytes c := by
  intro ctr l
  induction ctr, l using ctrProc.induct ctx with
  | case1 ctr =>
    intro _ c hc
    rw [sm4_ctrProc_nil] at hc
    cases hc
    intro x hx
    simp at hx
  | case2 ctr l hne hovf =>
    intro _ c hc
    rw [ctrProc, dif_neg hne, if_pos hovf] at hc
    cases hc
  | case3 ctr l hne hovf e heq =>
    intro _ c hc
    rw [blockOp_eq (natToBytesBE_length 16 ctr)] at heq
    cases heq
  | case4 ctr l hne hovf res heq rest hrec ih =>
    intro hl c hc
    rw [blockOp_eq (natToBytesBE_length 16 ctr)] at heq
    cases heq
    rw [sm4_ctrProc_ok_cons hne hovf hrec] at hc
    cases hc
    exact bytes_append (lxor_bytes (bytes_take hl 16)
      (bytes_take (blockVal_bytes _ _) _)) (ih (bytes_drop hl 16) rest hrec)
  | case5 ctr l hne hovf res heq e hrec ih =>
    intro _ c hc
    rw [blockOp_eq (natToBytesBE_length 16 ctr)] at heq
    cases heq
    rw [ctrProc, dif_neg hne, if_neg hovf, blockOp_eq (natToBytesBE_length 16 ctr)] at hc
    simp only [hrec] at hc
    cases hc

end Sm4Enc

namespace Sm4Enc

theorem sm4_ctrProc_inverse {ctx : Ctx} :
    ∀ (ctr : Nat) (l : List Nat) (c : List Nat), ctrProc ctx ctr l = .ok c →
      ctrProc ctx ctr c = .ok l := by
  intro ctr l
  induction ctr, l using ctrProc.induct ctx with
  | case1 ctr =>
    intro c hc
    rw [sm4_ctrProc_nil] at hc
    cases hc
    exact sm4_ctrProc_nil ctr
  | case2 ctr l hne hovf =>
    intro c hc
    rw [ctrProc, dif_neg hne, if_pos hovf] at hc
    cases hc
  | case3 ctr l hne hovf e heq =>
    intro c hc
    rw [blockOp_eq (natToBytesBE_length 16 ctr)] at heq
    cases heq
  | case4 ctr l hne hovf res heq rest hrec ih =>
    intro c hc
    rw [blockOp_eq (natToBytesBE_length 16 ctr)] at heq
    cases heq
    rw [sm4_ctrProc_ok_cons hne hovf hrec] at hc
    cases hc
    have hkslen : (blockVal ctx (natToBytesBE 16 ctr)).length = 16 :=
      blockVal_length ctx _
    have hchunklen : (l.take 16).length ≤ 16 := by simp
    have hcclen : (lxor (l.take 16) ((blockVal ctx (natToBytesBE 16 ctr)).take
        (l.take 16).length)).length = (l.take 16).length :=
      lxor_take_len _ _ (by omega)
    have hlpos := List.length_pos.mpr hne
    have hccne : lxor (l.take 16) ((blockVal ctx (natToBytesBE 16 ctr)).take
        (l.take 16).length) ≠ [] := by
      intro hnil
      rw [hnil] at hcclen
      simp at hcclen
      omega
    have hrest_inv := ih rest hrec
    rcases Nat.lt_or_ge l.length 16 with hlt | hge
    · have hdropl : l.drop 16 = [] := by
        apply List.eq_nil_of_length_eq_zero
        simp
        omega
      rw [hdropl, sm4_ctrProc_nil] at hrec
      cases hrec
      have htl : (l.take 16) = l := List.take_of_length_le (by omega)
      have hcclt : (lxor (l.take 16) ((blockVal ctx (natToBytesBE 16 ctr)).take
          (l.take 16).length)).length ≤ 16 := by omega
      rw [List.append_nil]
      rw [sm4_ctrProc_ok_cons hccne hovf (by
        rw [List.drop_eq_nil_of_le hcclt]
        exact sm4_ctrProc_nil _)]
      rw [List.take_of_length_le hcclt]
      congr 1
      rw [List.append_nil, hcclen]
      rw [lxor_take_cancel _ _ (by omega)]
      rw [htl]
    · have htlen : (l.take 16).length = 16 := by simp; omega
      have hcclen16 : (lxor (l.take 16) ((blockVal ctx (natToBytesBE 16 ctr)).take
          (l.take 16).length)).length = 16 := by omega
      have htake := AesEnc.take_append_len16 rest hcclen16
      have hdrop := AesEnc.drop_append_len16 rest hcclen16
      rw [sm4_ctrProc_ok_cons (by
          intro hnil
          rw [List.append_eq_nil] at hnil
          exact hccne hnil.1) hovf (by rw [hdrop]; exact hrest_inv)]
      rw [htake]
      congr 1
      rw [hcclen16, htlen]
      rw [show ((blockVal ctx (natToBytesBE 16 ctr)).take 16) =
        blockVal ctx (natToBytesBE 16 ctr) from
          List.take_of_length_le (by rw [hkslen])]
      rw [lxor_cancel _ _ (by rw [hkslen, htlen])]
      rw [List.take_append_drop]
  | case5 ctr l hne hovf res heq e hrec ih =>
    intro c hc
    rw [ctrProc, dif_neg hne, if_neg hovf, blockOp_eq (natToBytesBE_length 16 ctr)] at hc
    simp only [hrec] at hc
    cases hc

theorem sm4_ctrProc_ok {ctx : Ctx} :
    ∀ (ctr : Nat) (l : List Nat), ctr + (l.length + 15) / 16 ≤ 2 ^ 128 →
    ∃ c, ctrProc ctx ctr l = .ok c := by
  intro ctr l
  induction ctr, l using ctrProc.induct ctx with
  | case1 ctr =>
    intro _
    exact ⟨[], sm4_ctrProc_nil ctr⟩
  | case2 ctr l hne hovf =>
    intro hbound
    exfalso
    have := List.length_pos.mpr hne
    omega
  | case3 ctr l hne hovf e heq =>
    intro _
    exfalso
    rw [blockOp_eq (natToBytesBE_length 16 ctr)] at heq
    cases heq
  | case4 ctr l hne hovf res heq rest hrec ih =>
    intro hbound
    rw [blockOp_eq (natToBytesBE_length 16 ctr)] at heq
    cases heq
    exact ⟨_, sm4_ctrProc_ok_cons hne hovf hrec⟩
  | case5 ctr l hne hovf res heq e hrec ih =>
    intro hbound
    exfalso
    rw [blockOp_eq (natToBytesBE_length 16 ctr)] at heq
    cases heq
    obtain ⟨c, hc⟩ := ih (by
      have := List.length_pos.mpr hne
      simp only [List.length_drop]
      omega)
    rw [hrec] at hc
    cases hc

end Sm4Enc

namespace Sm4Enc

theorem sm4_ofbProc_nil {ctx : Ctx} (last : List Nat) : ofbProc ctx last [] = .ok [] := by
  rw [ofbProc, dif_pos rfl]

theorem sm4_ofbProc_ok_cons {ctx : Ctx} {last l rest : List Nat} (hne : l ≠ [])
    (hlast : last.length = 16)
    (hrec : ofbProc ctx (blockVal ctx last) (l.drop 16) = .ok rest) :
    ofbProc ctx last l = .ok (lxor (l.take 16)
      ((blockVal ctx last).take (l.take 16).length) ++ rest) := by
  conv_lhs => rw [ofbProc]
  rw [dif_neg hne, blockOp_eq hlast]
  simp only [hrec]

theorem sm4_ofbProc_ok {ctx : Ctx} :
    ∀ (last l : List Nat), last.length = 16 → Bytes l →
    ∃ c, ofbProc ctx last l = .ok c ∧ c.length = l.length ∧ Bytes c ∧
      ofbProc ctx last c = .ok l := by
  intro last l
  induction last, l using ofbProc.induct ctx with
  | case1 last =>
    intro _ _
    exact ⟨[], sm4_ofbProc_nil last, rfl, by intro x hx; simp at hx,
      sm4_ofbProc_nil last⟩
  | case2 last l hne e heq =>
    intro hlast hl
    exfalso
    rw [blockOp_eq hlast] at heq
    cases heq
  | case3 last l hne res heq rest hrec ih =>
    intro hlast hl
    rw [blockOp_eq hlast] at heq
    cases heq
    obtain ⟨c, hc, hclen, hcb, hinv⟩ := ih (blockVal_length ctx last) (bytes_drop hl 16)
    rw [hrec] at hc
    cases hc
    have hkslen : (blockVal ctx last).length = 16 := blockVal_length ctx last
    have hchunklen : (l.take 16).length ≤ 16 := by simp
    have hcclen : (lxor (l.take 16) ((blockVal ctx last).take
        (l.take 16).length)).length = (l.take 16).length := lxor_take_len _ _ (by omega)
    have hlpos := List.length_pos.mpr hne
    have hccne : lxor (l.take 16) ((blockVal ctx last).take (l.take 16).length)
        ≠ [] := by
      intro hnil
      rw [hnil] at hcclen
      simp at hcclen
      omega
    refine ⟨lxor (l.take 16) ((blockVal ctx last).take (l.take 16).length) ++ rest,
      sm4_ofbProc_ok_cons hne hlast hrec, ?_, ?_, ?_⟩
    · rw [List.length_append, hclen, hcclen]
      simp
      omega
    · exact bytes_append (lxor_bytes (bytes_take hl 16)
        (bytes_take (blockVal_bytes _ _) _)) hcb
    · rcases Nat.lt_or_ge l.length 16 with hlt | hge
      · have hdropl : l.drop 16 = [] := by
          apply List.eq_nil_of_length_eq_zero
          simp
          omega
        rw [hdropl, sm4_ofbProc_nil] at hrec
        cases hrec
        have htl : (l.take 16) = l := List.take_of_length_le (by omega)
        have hcclt : (lxor (l.take 16) ((blockVal ctx last).take
            (l.take 16).length)).length ≤ 16 := by omega
        rw [List.append_nil]
        rw [sm4_ofbProc_ok_cons hccne hlast (by
          rw [List.drop_eq_nil_of_le hcclt]
          exact sm4_ofbProc_nil _)]
        rw [List.take_of_length_le hcclt]
        congr 1
        rw [List.append_nil, hcclen]
        rw [lxor_take_cancel _ _ (by omega)]
        rw [htl]
      · have htlen : (l.take 16).length = 16 := by simp; omega
        have hcclen16 : (lxor (l.take 16) ((blockVal ctx last).take
            (l.take 16).length)).length = 16 := by omega
        have htake := AesEnc.take_append_len16 rest hcclen16
        have hdrop := AesEnc.drop_append_len16 rest hcclen16
        rw [sm4_ofbProc_ok_cons (by
            intro hnil
            rw [List.append_eq_nil] at hnil
            exact hccne hnil.1) hlast (by rw [hdrop]; exact hinv)]
        rw [htake]
        congr 1
        rw [hcclen16, htlen]
        rw [show ((blockVal ctx last).take 16) = blockVal ctx last from
          List.take_of_length_le (by rw [hkslen])]
        rw [lxor_cancel _ _ (by rw [hkslen, htlen])]
        rw [List.take_append_drop]
  | case4 last l hne res heq e hrec ih =>
    intro hlast hl
    exfalso
    rw [blockOp_eq hlast] at heq
    cases heq
    obtain ⟨c, hc, _, _, _⟩ := ih (blockVal_length ctx last) (bytes_drop hl 16)
    rw [hrec] at hc
    cases hc

end Sm4Enc

namespace Sm4Enc

theorem sm4_cfbEnc_nil {ctx : Ctx} (last : List Nat) : cfbEnc ctx last [] = .ok [] := by
  rw [cfbEnc, dif_pos rfl]

theorem sm4_cfbDec_nil {ctx : Ctx} (last : List Nat) : cfbDec ctx last [] = .ok [] := by
  rw [cfbDec, dif_pos rfl]

theorem sm4_cfbEnc_ok_cons {ctx : Ctx} {last l rest : List Nat} (hne : l ≠ [])
    (hlast : last.length = 16)
    (hrec : cfbEnc ctx
      (if (l.take 16).length = 16 then
        lxor (l.take 16) ((blockVal ctx last).take (l.take 16).length)
      else last) (l.drop 16) = .ok rest) :
    cfbEnc ctx last l = .ok (lxor (l.take 16)
      ((blockVal ctx last).take (l.take 16).length) ++ rest) := by
  conv_lhs => rw [cfbEnc]
  rw [dif_neg hne, blockOp_eq hlast]
  simp only [hrec]

theorem sm4_cfbDec_ok_cons {ctx : Ctx} {last l rest : List Nat} (hne : l ≠ [])
    (hlast : last.length = 16)
    (hrec : cfbDec ctx (if (l.take 16).length = 16 then l.take 16 else last)
      (l.drop 16) = .ok rest) :
    cfbDec ctx last l = .ok (lxor (l.take 16)
      ((blockVal ctx last).take (l.take 16).length) ++ rest) := by
  conv_lhs => rw [cfbDec]
  rw [dif_neg hne, blockOp_eq hlast]
  simp only [hrec]

theorem sm4_cfbEnc_ok {ctx : Ctx} :
    ∀ (last l : List Nat), last.length = 16 → Bytes l →
    ∃ c, cfbEnc ctx last l = .ok c ∧ c.length = l.length ∧ Bytes c ∧
      cfbDec ctx last c = .ok l := by
  intro last l
  induction last, l using cfbEnc.induct ctx with
  | case1 last =>
    intro _ _
    exact ⟨[], sm4_cfbEnc_nil last, rfl, by intro x hx; simp at hx,
      sm4_cfbDec_nil last⟩
  | case2 last l hne e heq =>
    intro hlast hl
    exfalso
    rw [blockOp_eq hlast] at heq
    cases heq
  | case3 last l hne res heq rest hrec ih =>
    intro hlast hl
    rw [blockOp_eq hlast] at heq
    cases heq
    simp only [dite_eq_ite] at hrec ih
    have hkslen : (blockVal ctx last).length = 16 := blockVal_length ctx last
    have hchunklen : (l.take 16).length ≤ 16 := by simp
    have hcclen : (lxor (l.take 16) ((blockVal ctx last).take
        (l.take 16).length)).length = (l.take 16).length := lxor_take_len _ _ (by omega)
    have hlpos := List.length_pos.mpr hne
    have hccne : lxor (l.take 16) ((blockVal ctx last).take (l.take 16).length)
        ≠ [] := by
      intro hnil
      rw [hnil] at hcclen
      simp at hcclen
      omega
    have hnextlen : (if (l.take 16).length = 16 then
        lxor (l.take 16) ((blockVal ctx last).take (l.take 16).length)
      else last).length = 16 := by
      by_cases h16 : (l.take 16).length = 16
      · rw [if_pos h16, hcclen, h16]
      · rw [if_neg h16, hlast]
    obtain ⟨c, hc, hclen, hcb, hinv⟩ := ih hnextlen (bytes_drop hl 16)
    rw [hrec] at hc
    cases hc
    refine ⟨lxor (l.take 16) ((blockVal ctx last).take (l.take 16).length) ++ rest,
      sm4_cfbEnc_ok_cons hne hlast hrec, ?_, ?_, ?_⟩
    · rw [List.length_append, hclen, hcclen]
      simp
      omega
    · exact bytes_append (lxor_bytes (bytes_take hl 16)
        (bytes_take (blockVal_bytes _ _) _)) hcb
    · rcases Nat.lt_or_ge l.length 16 with hlt | hge
      · have hdropl : l.drop 16 = [] := by
          apply List.eq_nil_of_length_eq_zero
          simp
          omega
        have hiffalse : ¬ (l.take 16).length = 16 := by
          simp
          omega
        rw [if_neg hiffalse, hdropl, sm4_cfbEnc_nil] at hrec
        cases hrec
        have htl : (l.take 16) = l := List.take_of_length_le (by omega)
        have hcclt : (lxor (l.take 16) ((blockVal ctx last).take
            (l.take 16).length)).length ≤ 16 := by omega
        rw [List.append_nil]
        rw [sm4_cfbDec_ok_cons hccne hlast (by
          rw [List.drop_eq_nil_of_le hcclt]
          exact sm4_cfbDec_nil _)]
        rw [List.take_of_length_le hcclt]
        congr 1
        rw [List.append_nil, hcclen]
        rw [lxor_take_cancel _ _ (by omega)]
        rw [htl]
      · have htlen : (l.take 16).length = 16 := by simp; omega
        have hcclen16 : (lxor (l.take 16) ((blockVal ctx last).take
            (l.take 16).length)).length = 16 := by omega
        have htake := AesEnc.take_append_len16 rest hcclen16
        have hdrop := AesEnc.drop_append_len16 rest hcclen16
        rw [if_pos htlen] at hinv
        rw [sm4_cfbDec_ok_cons (by
            intro hnil
            rw [List.append_eq_nil] at hnil
            exact hccne hnil.1) hlast (by
          rw [hdrop, htake, if_pos hcclen16]
          exact hinv)]
        rw [htake]
        congr 1
        rw [hcclen16, htlen]
        rw [show ((blockVal ctx last).take 16) = blockVal ctx last from
          List.take_of_length_le (by rw [hkslen])]
        rw [lxor_cancel _ _ (by rw [hkslen, htlen])]
        rw [List.take_append_drop]
  | case4 last l hne res heq e hrec ih =>
    intro hlast hl
    exfalso
    rw [blockOp_eq hlast] at heq
    cases heq
    simp only [dite_eq_ite] at hrec ih
    have hcclen : (lxor (l.take 16) ((blockVal ctx last).take
        (l.take 16).length)).length = (l.take 16).length :=
      lxor_take_len _ _ (by rw [blockVal_length]; simp)
    have hnextlen : (if (l.take 16).length = 16 then
        lxor (l.take 16) ((blockVal ctx last).take (l.take 16).length)
      else last).length = 16 := by
      by_cases h16 : (l.take 16).length = 16
      · rw [if_pos h16, hcclen, h16]
      · rw [if_neg h16, hlast]
    obtain ⟨c, hc, _, _, _⟩ := ih hnextlen (bytes_drop hl 16)
    rw [hrec] at hc
    cases hc

end Sm4Enc

/-! Top-level AES round trip: `decrypt ∘ encrypt` over base64 transport,
IV embedding, padding and every mode. -/

namespace AesEnc

theorem aes_ctrProc_ok {ctx : Aes.Ctx} :
    ∀ (ctr : Nat) (l : List Nat), ctr + (l.length + 15) / 16 ≤ 2 ^ 128 →
    ∃ c, ctrProc ctx ctr l = .ok c := by
  intro ctr l
  induction ctr, l using ctrProc.induct ctx with
  | case1 ctr =>
    intro _
    exact ⟨[], ctrProc_nil ctr⟩
  | case2 ctr l hne hovf =>
    intro hbound
    exfalso
    have := List.length_pos.mpr hne
    omega
  | case3 ctr l hne hovf rest heq ih =>
    intro hbound
    exact ⟨_, ctrProc_ok_cons hne hovf heq⟩
  | case4 ctr l hne hovf e heq ih =>
    intro hbound
    exfalso
    obtain ⟨c, hc⟩ := ih (by
      have := List.length_pos.mpr hne
      simp only [List.length_drop]
      omega)
    rw [heq] at hc
    cases hc

end AesEnc

theorem b64decode_nil : b64decode [] = some [] := by decide

theorem b64encode_ne_nil {l : List Nat} (hl : Bytes l) (hne : l ≠ []) :
    b64encode l ≠ [] := by
  intro h
  have hrt := b64decode_encode hl
  rw [h, b64decode_nil] at hrt
  injection hrt with h2
  exact hne h2.symm

namespace AesEnc

theorem pad_length_ge (data : List Nat) (p : Padding) :
    data.length ≤ (pad data p).length := by
  cases p <;> simp [pad]

theorem pad_ne_nil {data : List Nat} (hne : data ≠ []) (p : Padding) :
    pad data p ≠ [] := by
  intro h0
  have := pad_length_ge data p
  rw [h0] at this
  simp at this
  exact hne this

theorem pad_nopadding (data : List Nat) : pad data .nopadding = data := rfl

theorem unpad_nopadding (data : List Nat) : unpad data .nopadding = .ok data := rfl

theorem aes_roundtrip (key : List Nat) (hkey : Bytes key) (mode : Mode)
    (ivBytes : Option (List Nat)) (iv : List Nat)
    (hiv : (ivBytes = none ∧ iv = List.replicate 16 0) ∨ ivBytes = some iv)
    (hivb : Bytes iv) (hivlen : iv.length = 16)
    (padding : Padding) (kS dR : Bool) (dataBytes : List Nat) (hd : Bytes dataBytes)
    (hpad : (mode.isStream = false ∧ (padding = .pkcs7 ∨ padding = .ansix923 ∨
        (padding = .nopadding ∧ dataBytes.length % 16 = 0))) ∨
      (mode.isStream = true ∧ padding = .nopadding))
    (hbound : mode = .CTR → natFromBytesBE iv + (dataBytes.length + 15) / 16 ≤ 2 ^ 128) :
    ∃ c, encrypt key mode ivBytes padding .absent kS dR dataBytes = .ok c ∧
      decrypt key mode ivBytes padding .absent kS dR .default c = .ok dataBytes := by
  by_cases hde : dataBytes = []
  · subst hde
    exact ⟨[], by simp [encrypt], by simp [decrypt]⟩
  have hctx : GoodCtx (Aes.mkCtx key (parseSbox .absent) kS dR) := goodCtx_std key hkey kS dR
  cases mode with
  | ECB =>
    rcases hpad with ⟨-, hpads⟩ | ⟨hstream, -⟩
    swap
    · exact absurd hstream (by decide)
    have hnp : padding ≠ .nopadding → (pad dataBytes padding).length % 16 = 0 := by
      intro hp
      exact pad_length_aligned dataBytes padding hp
    have halign : (pad dataBytes padding).length % 16 = 0 := by
      rcases hpads with h | h | ⟨h, hal⟩
      · subst h; exact hnp (by intro hx; cases hx)
      · subst h; exact hnp (by intro hx; cases hx)
      · subst h; rw [pad_nopadding]; exact hal
    have hpb : Bytes (pad dataBytes padding) := pad_bytes hd _
    have hpne : pad dataBytes padding ≠ [] := pad_ne_nil hde padding
    have hresb : Bytes (ecbEnc (Aes.mkCtx key (parseSbox .absent) kS dR)
        (pad dataBytes padding)) := ecbEnc_bytes hctx _ hpb
    have hreslen := @ecbEnc_length (Aes.mkCtx key (parseSbox .absent) kS dR)
      (pad dataBytes padding) halign
    have hresne : ecbEnc (Aes.mkCtx key (parseSbox .absent) kS dR)
        (pad dataBytes padding) ≠ [] := by
      intro h
      rw [h] at hreslen
      simp at hreslen
      exact hpne (List.eq_nil_of_length_eq_zero hreslen.symm)
    refine ⟨b64encode (ecbEnc (Aes.mkCtx key (parseSbox .absent) kS dR)
      (pad dataBytes padding)), ?_, ?_⟩
    · simp only [encrypt, if_neg hde, encryptRaw]
      rw [if_neg (show ¬(Mode.isStream .ECB = true ∧ padding = .nopadding) from by
        simp [Mode.isStream])]
      rw [if_neg (show ¬(ivBytes = none ∧ Mode.ECB ≠ Mode.ECB) from by simp)]
    · have hdne := b64encode_ne_nil hresb hresne
      simp only [decrypt, if_neg hdne, parseCipherData, b64decode_encode hresb, ivResolve]
      rw [ecbDec_ecbEnc hctx _ hpb halign]
      rcases hpads with h | h | ⟨h, hal⟩
      · subst h
        rw [unpad_pad_pkcs7]
        simp [Mode.isStream]
      · subst h
        rw [unpad_pad_ansix923]
        simp [Mode.isStream]
      · subst h
        rw [pad_nopadding, unpad_nopadding]
        simp [Mode.isStream]
  | CBC =>
    rcases hpad with ⟨-, hpads⟩ | ⟨hstream, -⟩
    swap
    · exact absurd hstream (by decide)
    have halign : (pad dataBytes padding).length % 16 = 0 := by
      rcases hpads with h | h | ⟨h, hal⟩
      · subst h; exact pad_length_aligned dataBytes _ (by intro hx; cases hx)
      · subst h; exact pad_length_aligned dataBytes _ (by intro hx; cases hx)
      · subst h; rw [pad_nopadding]; exact hal
    have hpb : Bytes (pad dataBytes padding) := pad_bytes hd _
    have hpne : pad dataBytes padding ≠ [] := pad_ne_nil hde padding
    obtain ⟨res, hres, hresb, hreslen⟩ :=
      cbcEnc_ok hctx iv (pad dataBytes padding) hpb halign hivb hivlen
    have hdecres := cbcDec_cbcEnc hctx iv (pad dataBytes padding) hpb halign hivb hivlen
      res hres
    have hresne : res ≠ [] := by
      intro h
      rw [h] at hreslen
      simp at hreslen
      exact hpne (List.eq_nil_of_length_eq_zero hreslen.symm)
    have hunp : (match unpad (pad dataBytes padding) padding with
        | Except.ok u => (Except.ok u : Except String (List Nat))
        | Except.error _ => Except.ok (pad dataBytes padding)) = .ok dataBytes := by
      rcases hpads with h | h | ⟨h, hal⟩
      · subst h; rw [unpad_pad_pkcs7]
      · subst h; rw [unpad_pad_ansix923]
      · subst h; rw [pad_nopadding, unpad_nopadding]
    rcases hiv with ⟨hnone, hivval⟩ | hsome
    · subst hnone
      refine ⟨b64encode (iv ++ res), ?_, ?_⟩
      · simp only [encrypt, if_neg hde, encryptRaw]
        rw [← hivval]
        rw [if_neg (show ¬(Mode.isStream .CBC = true ∧ padding = .nopadding) from by
          simp [Mode.isStream])]
        rw [hres]
        simp
      · have hob : Bytes (iv ++ res) := bytes_append hivb hresb
        have hone : iv ++ res ≠ [] := by
          intro h
          rw [List.append_eq_nil] at h
          rw [h.1] at hivlen
          simp at hivlen
        have hdne := b64encode_ne_nil hob hone
        simp only [decrypt, if_neg hdne, parseCipherData, b64decode_encode hob, ivResolve]
        rw [if_neg (show ¬(iv ++ res).length < 16 from by
          rw [List.length_append, hivlen]; omega)]
        rw [take_append_len16 _ hivlen, drop_append_len16 _ hivlen]
        simp only [hdecres, Mode.isStream, Bool.false_eq_true, if_false]
        exact hunp
    · rw [hsome]
      refine ⟨b64encode res, ?_, ?_⟩
      · simp only [encrypt, if_neg hde, encryptRaw]
        rw [if_neg (show ¬(Mode.isStream .CBC = true ∧ padding = .nopadding) from by
          simp [Mode.isStream])]
        rw [hres]
        simp
      · have hdne := b64encode_ne_nil hresb hresne
        simp only [decrypt, if_neg hdne, parseCipherData, b64decode_encode hresb, ivResolve]
        simp only [hdecres, Mode.isStream, Bool.false_eq_true, if_false]
        exact hunp
  | CTR =>
    rcases hpad with ⟨hstream, -⟩ | ⟨-, hpadn⟩
    · exact absurd hstream (by decide)
    subst hpadn
    obtain ⟨res, hres⟩ := @aes_ctrProc_ok (Aes.mkCtx key (parseSbox .absent) kS dR)
      (natFromBytesBE iv) dataBytes (hbound rfl)
    have hreslen := ctrProc_length _ _ _ hres
    have hresb := ctrProc_bytes hctx _ _ hd _ hres
    have hinv := ctrProc_inverse _ _ _ hres
    have hresne : res ≠ [] := by
      intro h
      rw [h] at hreslen
      simp at hreslen
      exact hde (List.eq_nil_of_length_eq_zero hreslen.symm)
    rcases hiv with ⟨hnone, hivval⟩ | hsome
    · subst hnone
      refine ⟨b64encode (iv ++ res), ?_, ?_⟩
      · simp only [encrypt, if_neg hde, encryptRaw]
        rw [← hivval]
        simp [Mode.isStream, hres]
      · have hob : Bytes (iv ++ res) := bytes_append hivb hresb
        have hone : iv ++ res ≠ [] := by
          intro h
          rw [List.append_eq_nil] at h
          rw [h.1] at hivlen
          simp at hivlen
        have hdne := b64encode_ne_nil hob hone
        simp only [decrypt, if_neg hdne, parseCipherData, b64decode_encode hob, ivResolve]
        rw [if_neg (show ¬(iv ++ res).length < 16 from by
          rw [List.length_append, hivlen]; omega)]
        rw [take_append_len16 _ hivlen, drop_append_len16 _ hivlen]
        simp [Mode.isStream, hinv]
    · rw [hsome]
      refine ⟨b64encode res, ?_, ?_⟩
      · simp only [encrypt, if_neg hde, encryptRaw]
        simp [Mode.isStream, hres]
      · have hdne := b64encode_ne_nil hresb hresne
        simp only [decrypt, if_neg hdne, parseCipherData, b64decode_encode hresb, ivResolve]
        simp [Mode.isStream, hinv]
  | OFB =>
    rcases hpad with ⟨hstream, -⟩ | ⟨-, hpadn⟩
    · exact absurd hstream (by decide)
    subst hpadn
    have hreslen := @ofbProc_length (Aes.mkCtx key (parseSbox .absent) kS dR)
      iv dataBytes
    have hresb := ofbProc_bytes hctx iv dataBytes hivb hd
    have hinv := @ofbProc_involutive (Aes.mkCtx key (parseSbox .absent) kS dR)
      iv dataBytes
    have hresne : ofbProc (Aes.mkCtx key (parseSbox .absent) kS dR) iv dataBytes ≠ [] := by
      intro h
      rw [h] at hreslen
      simp at hreslen
      exact hde (List.eq_nil_of_length_eq_zero hreslen.symm)
    rcases hiv with ⟨hnone, hivval⟩ | hsome
    · subst hnone
      refine ⟨b64encode (iv ++ ofbProc (Aes.mkCtx key (parseSbox .absent) kS dR) iv
        dataBytes), ?_, ?_⟩
      · simp only [encrypt, if_neg hde, encryptRaw]
        rw [← hivval]
        simp [Mode.isStream]
      · have hob : Bytes (iv ++ ofbProc (Aes.mkCtx key (parseSbox .absent) kS dR) iv
            dataBytes) := bytes_append hivb hresb
        have hone : iv ++ ofbProc (Aes.mkCtx key (parseSbox .absent) kS dR) iv
            dataBytes ≠ [] := by
          intro h
          rw [List.append_eq_nil] at h
          rw [h.1] at hivlen
          simp at hivlen
        have hdne := b64encode_ne_nil hob hone
        simp only [decrypt, if_neg hdne, parseCipherData, b64decode_encode hob, ivResolve]
        rw [if_neg (show ¬(iv ++ ofbProc (Aes.mkCtx key (parseSbox .absent) kS dR) iv
            dataBytes).length < 16 from by
          rw [List.length_append, hivlen]; omega)]
        rw [take_append_len16 _ hivlen, drop_append_len16 _ hivlen]
        simp [Mode.isStream, hinv]
    · rw [hsome]
      refine ⟨b64encode (ofbProc (Aes.mkCtx key (parseSbox .absent) kS dR) iv
        dataBytes), ?_, ?_⟩
      · simp only [encrypt, if_neg hde, encryptRaw]
        simp [Mode.isStream]
      · have hdne := b64encode_ne_nil hresb hresne
        simp only [decrypt, if_neg hdne, parseCipherData, b64decode_encode hresb, ivResolve]
        simp [Mode.isStream, hinv]
  | CFB =>
    rcases hpad with ⟨hstream, -⟩ | ⟨-, hpadn⟩
    · exact absurd hstream (by decide)
    subst hpadn
    have hreslen := @cfbEnc_length (Aes.mkCtx key (parseSbox .absent) kS dR)
      iv dataBytes
    have hresb := cfbEnc_bytes hctx iv dataBytes hivb hd
    have hinv := @cfbDec_cfbEnc (Aes.mkCtx key (parseSbox .absent) kS dR)
      iv dataBytes
    have hresne : cfbEnc (Aes.mkCtx key (parseSbox .absent) kS dR) iv dataBytes ≠ [] := by
      intro h
      rw [h] at hreslen
      simp at hreslen
      exact hde (List.eq_nil_of_length_eq_zero hreslen.symm)
    rcases hiv with ⟨hnone, hivval⟩ | hsome
    · subst hnone
      refine ⟨b64encode (iv ++ cfbEnc (Aes.mkCtx key (parseSbox .absent) kS dR) iv
        dataBytes), ?_, ?_⟩
      · simp only [encrypt, if_neg hde, encryptRaw]
        rw [← hivval]
        simp [Mode.isStream]
      · have hob : Bytes (iv ++ cfbEnc (Aes.mkCtx key (parseSbox .absent) kS dR) iv
            dataBytes) := bytes_append hivb hresb
        have hone : iv ++ cfbEnc (Aes.mkCtx key (parseSbox .absent) kS dR) iv
            dataBytes ≠ [] := by
          intro h
          rw [List.append_eq_nil] at h
          rw [h.1] at hivlen
          simp at hivlen
        have hdne := b64encode_ne_nil hob hone
        simp only [decrypt, if_neg hdne, parseCipherData, b64decode_encode hob, ivResolve]
        rw [if_neg (show ¬(iv ++ cfbEnc (Aes.mkCtx key (parseSbox .absent) kS dR) iv
            dataBytes).length < 16 from by
          rw [List.length_append, hivlen]; omega)]
        rw [take_append_len16 _ hivlen, drop_append_len16 _ hivlen]
        simp [Mode.isStream, hinv]
    · rw [hsome]
      refine ⟨b64encode (cfbEnc (Aes.mkCtx key (parseSbox .absent) kS dR) iv
        dataBytes), ?_, ?_⟩
      · simp only [encrypt, if_neg hde, encryptRaw]
        simp [Mode.isStream]
      · have hdne := b64encode_ne_nil hresb hresne
        simp only [decrypt, if_neg hdne, parseCipherData, b64decode_encode hresb, ivResolve]
        simp [Mode.isStream, hinv]

end AesEnc

/-! Top-level SM4 round trip. -/

namespace Sm4Enc

theorem sm4_pad_length_ge (data : List Nat) (p : Padding) :
    data.length ≤ (pad data p).length := by
  cases p <;> simp [pad]
  split <;> simp

theorem sm4_pad_ne_nil {data : List Nat} (hne : data ≠ []) (p : Padding) :
    pad data p ≠ [] := by
  intro h0
  have := sm4_pad_length_ge data p
  rw [h0] at this
  simp at this
  exact hne this

theorem sm4_pad_nopadding (data : List Nat) : pad data .nopadding = data := rfl

theorem sm4_unpad_nopadding (data : List Nat) : unpad data .nopadding = .ok data := rfl

theorem sm4_roundtrip (key : List Nat) (mode : Mode)
    (ivBytes : Option (List Nat)) (iv : List Nat)
    (hiv : (ivBytes = none ∧ iv = List.replicate 16 0) ∨ ivBytes = some iv)
    (hivb : Bytes iv) (hivlen : iv.length = 16)
    (padding : Padding) (kS dR sE : Bool) (dataBytes : List Nat) (hd : Bytes dataBytes)
    (hpad : (mode.isStream = false ∧ (padding = .pkcs7 ∨ padding = .ansix923 ∨
        (padding = .nopadding ∧ dataBytes.length % 16 = 0))) ∨
      (mode.isStream = true ∧ padding = .nopadding))
    (hbound : mode = .CTR → natFromBytesBE iv + (dataBytes.length + 15) / 16 ≤ 2 ^ 128) :
    ∃ c, encrypt key mode ivBytes padding .absent kS dR sE dataBytes = .ok c ∧
      decrypt key mode ivBytes padding .absent kS dR sE .default c = .ok dataBytes := by
  by_cases hde : dataBytes = []
  · subst hde
    exact ⟨[], by simp [encrypt], by simp [decrypt]⟩
  have hpair : CtxPair (mkCtx key (parseSbox .absent) false (kS || sE) (dR || sE))
      (mkCtx key (parseSbox .absent) true (kS || sE) (dR || sE)) :=
    mkCtx_pair key (kS || sE) (dR || sE)
  cases mode with
  | ECB =>
    rcases hpad with ⟨-, hpads⟩ | ⟨hstream, -⟩
    swap
    · exact absurd hstream (by decide)
    have halign : (pad dataBytes padding).length % 16 = 0 := by
      rcases hpads with h | h | ⟨h, hal⟩
      · subst h
        exact sm4_pad_length_aligned_pkcs7 dataBytes
      · subst h
        rcases sm4_pad_length_aligned dataBytes .ansix923
            (by intro hx; exact Padding.noConfusion hx) with h2 | ⟨hz, -⟩
        · exact h2
        · exact Padding.noConfusion hz
      · subst h
        rw [sm4_pad_nopadding]
        exact hal
    have hpb : Bytes (pad dataBytes padding) := sm4_pad_bytes hd _
    have hpne : pad dataBytes padding ≠ [] := sm4_pad_ne_nil hde padding
    obtain ⟨res, hres, hreslen, hresb, hdec⟩ :=
      @sm4_ecbEnc_ok (mkCtx key (parseSbox .absent) false (kS || sE) (dR || sE))
        (pad dataBytes padding) halign
    have hdecr := hdec (mkCtx key (parseSbox .absent) true (kS || sE) (dR || sE))
      hpair hpb
    have hresne : res ≠ [] := by
      intro h
      rw [h] at hreslen
      simp at hreslen
      exact hpne (List.eq_nil_of_length_eq_zero hreslen.symm)
    refine ⟨b64encode res, ?_, ?_⟩
    · simp only [encrypt, if_neg hde, encryptRaw]
      rw [if_neg (show ¬(Mode.isStream .ECB = true ∧ padding = .nopadding) from by
        simp [Mode.isStream])]
      rw [hres]
      simp
    · have hdne := b64encode_ne_nil hresb hresne
      simp only [decrypt, if_neg hdne, parseCipherData, b64decode_encode hresb]
      rw [if_neg (show ¬(Mode.ECB ≠ Mode.ECB ∧ ivBytes = none ∧ res.length < 16) from by
        simp)]
      simp only [true_or, decide_True, hdecr]
      rcases hpads with h | h | ⟨h, hal⟩
      · subst h
        rw [sm4_unpad_pad_pkcs7]
        simp [Mode.isStream]
      · subst h
        rw [sm4_unpad_pad_ansix923]
        simp [Mode.isStream]
      · subst h
        rw [sm4_pad_nopadding, sm4_unpad_nopadding]
        simp [Mode.isStream]
  | CBC =>
    rcases hpad with ⟨-, hpads⟩ | ⟨hstream, -⟩
    swap
    · exact absurd hstream (by decide)
    have halign : (pad dataBytes padding).length % 16 = 0 := by
      rcases hpads with h | h | ⟨h, hal⟩
      · subst h
        exact sm4_pad_length_aligned_pkcs7 dataBytes
      · subst h
        rcases sm4_pad_length_aligned dataBytes .ansix923
            (by intro hx; exact Padding.noConfusion hx) with h2 | ⟨hz, -⟩
        · exact h2
        · exact Padding.noConfusion hz
      · subst h
        rw [sm4_pad_nopadding]
        exact hal
    have hpb : Bytes (pad dataBytes padding) := sm4_pad_bytes hd _
    have hpne : pad dataBytes padding ≠ [] := sm4_pad_ne_nil hde padding
    obtain ⟨res, hres, hreslen, hresb, hdec⟩ :=
      @sm4_cbcEnc_ok (mkCtx key (parseSbox .absent) false (kS || sE) (dR || sE))
        iv (pad dataBytes padding) hpb halign hivb hivlen
    have hdecr := hdec (mkCtx key (parseSbox .absent) true (kS || sE) (dR || sE)) hpair
    have hresne : res ≠ [] := by
      intro h
      rw [h] at hreslen
      simp at hreslen
      exact hpne (List.eq_nil_of_length_eq_zero hreslen.symm)
    have hunp : (match unpad (pad dataBytes padding) padding with
        | Except.ok u => (Except.ok u : Except String (List Nat))
        | Except.error e => Except.error e) = .ok dataBytes := by
      rcases hpads with h | h | ⟨h, hal⟩
      · subst h; rw [sm4_unpad_pad_pkcs7]
      · subst h; rw [sm4_unpad_pad_ansix923]
      · subst h; rw [sm4_pad_nopadding, sm4_unpad_nopadding]
    rcases hiv with ⟨hnone, hivval⟩ | hsome
    · subst hnone
      refine ⟨b64encode (iv ++ res), ?_, ?_⟩
      · simp only [encrypt, if_neg hde, encryptRaw]
        rw [← hivval]
        rw [if_neg (show ¬(Mode.isStream .CBC = true ∧ padding = .nopadding) from by
          simp [Mode.isStream])]
        rw [hres]
        simp
      · have hob : Bytes (iv ++ res) := bytes_append hivb hresb
        have hone : iv ++ res ≠ [] := by
          intro h
          rw [List.append_eq_nil] at h
          rw [h.1] at hivlen
          simp at hivlen
        have hdne := b64encode_ne_nil hob hone
        simp only [decrypt, if_neg hdne, parseCipherData, b64decode_encode hob]
        rw [if_neg (show ¬(Mode.CBC ≠ Mode.ECB ∧ True ∧
            (iv ++ res).length < 16) from by
          rw [List.length_append, hivlen]
          simp)]
        rw [AesEnc.take_append_len16 _ hivlen, AesEnc.drop_append_len16 _ hivlen]
        simp only [or_true, decide_True, hdecr, Mode.isStream, Bool.false_eq_true, if_false]
        exact hunp
    · rw [hsome]
      refine ⟨b64encode res, ?_, ?_⟩
      · simp only [encrypt, if_neg hde, encryptRaw]
        rw [if_neg (show ¬(Mode.isStream .CBC = true ∧ padding = .nopadding) from by
          simp [Mode.isStream])]
        rw [hres]
        simp
      · have hdne := b64encode_ne_nil hresb hresne
        simp only [decrypt, if_neg hdne, parseCipherData, b64decode_encode hresb]
        rw [if_neg (show ¬(Mode.CBC ≠ Mode.ECB ∧ some iv = none ∧ res.length < 16) from by
          simp)]
        simp only [or_true, decide_True, hdecr, Mode.isStream, Bool.false_eq_true, if_false]
        exact hunp
  | CTR =>
    rcases hpad with ⟨hstream, -⟩ | ⟨-, hpadn⟩
    · exact absurd hstream (by decide)
    subst hpadn
    obtain ⟨res, hres⟩ := @sm4_ctrProc_ok
      (mkCtx key (parseSbox .absent) false (kS || sE) (dR || sE))
      (natFromBytesBE iv) dataBytes (hbound rfl)
    have hreslen := sm4_ctrProc_length _ _ _ hres
    have hresb := sm4_ctrProc_bytes _ _ hd _ hres
    have hinv := sm4_ctrProc_inverse _ _ _ hres
    have hresne : res ≠ [] := by
      intro h
      rw [h] at hreslen
      simp at hreslen
      exact hde (List.eq_nil_of_length_eq_zero hreslen.symm)
    rcases hiv with ⟨hnone, hivval⟩ | hsome
    · subst hnone
      refine ⟨b64encode (iv ++ res), ?_, ?_⟩
      · simp only [encrypt, if_neg hde, encryptRaw]
        rw [← hivval]
        simp [Mode.isStream, hres]
      · have hob : Bytes (iv ++ res) := bytes_append hivb hresb
        have hone : iv ++ res ≠ [] := by
          intro h
          rw [List.append_eq_nil] at h
          rw [h.1] at hivlen
          simp at hivlen
        have hdne := b64encode_ne_nil hob hone
        simp only [decrypt, if_neg hdne, parseCipherData, b64decode_encode hob]
        rw [if_neg (show ¬(Mode.CTR ≠ Mode.ECB ∧ True ∧
            (iv ++ res).length < 16) from by
          rw [List.length_append, hivlen]
          simp)]
        rw [AesEnc.take_append_len16 _ hivlen, AesEnc.drop_append_len16 _ hivlen]
        simp [Mode.isStream, hinv]
    · rw [hsome]
      refine ⟨b64encode res, ?_, ?_⟩
      · simp only [encrypt, if_neg hde, encryptRaw]
        simp [Mode.isStream, hres]
      · have hdne := b64encode_ne_nil hresb hresne
        simp only [decrypt, if_neg hdne, parseCipherData, b64decode_encode hresb]
        rw [if_neg (show ¬(Mode.CTR ≠ Mode.ECB ∧ some iv = none ∧ res.length < 16) from by
          simp)]
        simp [Mode.isStream, hinv]
  | OFB =>
    rcases hpad with ⟨hstream, -⟩ | ⟨-, hpadn⟩
    · exact absurd hstream (by decide)
    subst hpadn
    obtain ⟨res, hres, hreslen, hresb, hinv⟩ := @sm4_ofbProc_ok
      (mkCtx key (parseSbox .absent) false (kS || sE) (dR || sE))
      iv dataBytes hivlen hd
    have hresne : res ≠ [] := by
      intro h
      rw [h] at hreslen
      simp at hreslen
      exact hde (List.eq_nil_of_length_eq_zero hreslen.symm)
    rcases hiv with ⟨hnone, hivval⟩ | hsome
    · subst hnone
      refine ⟨b64encode (iv ++ res), ?_, ?_⟩
      · simp only [encrypt, if_neg hde, encryptRaw]
        rw [← hivval]
        simp [Mode.isStream, hres]
      · have hob : Bytes (iv ++ res) := bytes_append hivb hresb
        have hone : iv ++ res ≠ [] := by
          intro h
          rw [List.append_eq_nil] at h
          rw [h.1] at hivlen
          simp at hivlen
        have hdne := b64encode_ne_nil hob hone
        simp only [decrypt, if_neg hdne, parseCipherData, b64decode_encode hob]
        rw [if_neg (show ¬(Mode.OFB ≠ Mode.ECB ∧ True ∧
            (iv ++ res).length < 16) from by
          rw [List.length_append, hivlen]
          simp)]
        rw [AesEnc.take_append_len16 _ hivlen, AesEnc.drop_append_len16 _ hivlen]
        simp [Mode.isStream, hinv]
    · rw [hsome]
      refine ⟨b64encode res, ?_, ?_⟩
      · simp only [encrypt, if_neg hde, encryptRaw]
        simp [Mode.isStream, hres]
      · have hdne := b64encode_ne_nil hresb hresne
        simp only [decrypt, if_neg hdne, parseCipherData, b64decode_encode hresb]
        rw [if_neg (show ¬(Mode.OFB ≠ Mode.ECB ∧ some iv = none ∧ res.length < 16) from by
          simp)]
        simp [Mode.isStream, hinv]
  | CFB =>
    rcases hpad with ⟨hstream, -⟩ | ⟨-, hpadn⟩
    · exact absurd hstream (by decide)
    subst hpadn
    obtain ⟨res, hres, hreslen, hresb, hinv⟩ := @sm4_cfbEnc_ok
      (mkCtx key (parseSbox .absent) false (kS || sE) (dR || sE))
      iv dataBytes hivlen hd
    have hresne : res ≠ [] := by
      intro h
      rw [h] at hreslen
      simp at hreslen
      exact hde (List.eq_nil_of_length_eq_zero hreslen.symm)
    rcases hiv with ⟨hnone, hivval⟩ | hsome
    · subst hnone
      refine ⟨b64encode (iv ++ res), ?_, ?_⟩
      · simp only [encrypt, if_neg hde, encryptRaw]
        rw [← hivval]
        simp [Mode.isStream, hres]
      · have hob : Bytes (iv ++ res) := bytes_append hivb hresb
        have hone : iv ++ res ≠ [] := by
          intro h
          rw [List.append_eq_nil] at h
          rw [h.1] at hivlen
          simp at hivlen
        have hdne := b64encode_ne_nil hob hone
        simp only [decrypt, if_neg hdne, parseCipherData, b64decode_encode hob]
        rw [if_neg (show ¬(Mode.CFB ≠ Mode.ECB ∧ True ∧
            (iv ++ res).length < 16) from by
          rw [List.length_append, hivlen]
          simp)]
        rw [AesEnc.take_append_len16 _ hivlen, AesEnc.drop_append_len16 _ hivlen]
        simp [Mode.isStream, hinv]
    · rw [hsome]
      refine ⟨b64encode res, ?_, ?_⟩
      · simp only [encrypt, if_neg hde, encryptRaw]
        simp [Mode.isStream, hres]
      · have hdne := b64encode_ne_nil hresb hresne
        simp only [decrypt, if_neg hdne, parseCipherData, b64decode_encode hresb]
        rw [if_neg (show ¬(Mode.CFB ≠ Mode.ECB ∧ some iv = none ∧ res.length < 16) from by
          simp)]
        simp [Mode.isStream, hinv]

end Sm4Enc

/-! ECB trailing-partial-block behaviour (claim C2): the AES loops and the
SM4 encryption loop `break` and drop the partial chunk; the SM4 decryption
loop has no such guard and feeds the short chunk to `one_round`, which
raises `struct.error`. -/

theorem take_app_left {l r : List Nat} (n : Nat) (h : n ≤ l.length) :
    (l ++ r).take n = l.take n := by
  rw [List.take_append_eq_append_take, Nat.sub_eq_zero_of_le h]
  simp

theorem drop_app_left {l r : List Nat} (n : Nat) (h : n ≤ l.length) :
    (l ++ r).drop n = l.drop n ++ r := by
  rw [List.drop_append_eq_append_drop, Nat.sub_eq_zero_of_le h]
  simp

namespace AesEnc

theorem aes_ecbEnc_drop {ctx : Aes.Ctx} :
    ∀ blocks extra : List Nat, blocks.length % 16 = 0 → extra.length < 16 →
      ecbEnc ctx (blocks ++ extra) = ecbEnc ctx blocks := by
  intro blocks
  induction blocks using ecbEnc.induct ctx with
  | case1 l hlen =>
    intro extra hmod hpart
    have hnil : l = [] := by
      rcases l with _ | ⟨x, t⟩
      · rfl
      · simp at hlen hmod
        omega
    subst hnil
    simp only [List.nil_append]
    rw [ecbEnc, if_pos hpart, ecbEnc, if_pos (by simp)]
  | case2 l hlen ih =>
    intro extra hmod hpart
    have h16 : 16 ≤ l.length := by omega
    conv_lhs => rw [ecbEnc]
    rw [if_neg (by simp; omega)]
    rw [take_app_left 16 h16, drop_app_left 16 h16]
    rw [ih extra (by simp; omega) hpart]
    conv_rhs => rw [ecbEnc]
    rw [if_neg hlen]

theorem aes_ecbDec_drop {ctx : Aes.Ctx} :
    ∀ blocks extra : List Nat, blocks.length % 16 = 0 → extra.length < 16 →
      ecbDec ctx (blocks ++ extra) = ecbDec ctx blocks := by
  intro blocks
  induction blocks using ecbDec.induct ctx with
  | case1 l hlen =>
    intro extra hmod hpart
    have hnil : l = [] := by
      rcases l with _ | ⟨x, t⟩
      · rfl
      · simp at hlen hmod
        omega
    subst hnil
    simp only [List.nil_append]
    rw [ecbDec, if_pos hpart, ecbDec, if_pos (by simp)]
  | case2 l hlen ih =>
    intro extra hmod hpart
    have h16 : 16 ≤ l.length := by omega
    conv_lhs => rw [ecbDec]
    rw [if_neg (by simp; omega)]
    rw [take_app_left 16 h16, drop_app_left 16 h16]
    rw [ih extra (by simp; omega) hpart]
    conv_rhs => rw [ecbDec]
    rw [if_neg hlen]

end AesEnc

namespace Sm4Enc

theorem blockOp_err {ctx : Ctx} {b : List Nat} (hl : b.length ≠ 16) :
    blockOp ctx b = .error "struct.error: unpack requires a buffer of 16 bytes" := by
  unfold blockOp Sm4.oneRound
  rw [if_pos hl]

theorem sm4_ecbEnc_drop {ctx : Ctx} :
    ∀ blocks extra : List Nat, blocks.length % 16 = 0 → extra.length < 16 →
      ecbEnc ctx (blocks ++ extra) = ecbEnc ctx blocks := by
  intro blocks
  induction blocks using ecbEnc.induct ctx with
  | case1 l hlen =>
    intro extra hmod hpart
    have hnil : l = [] := by
      rcases l with _ | ⟨x, t⟩
      · rfl
      · simp at hlen hmod
        omega
    subst hnil
    simp only [List.nil_append]
    rw [ecbEnc, if_pos hpart, ecbEnc, if_pos (by simp)]
  | case2 l hlen e heq =>
    intro extra hmod hpart
    exfalso
    rw [blockOp_eq (by simp; omega)] at heq
    cases heq
  | case3 l hlen enc heq rest hrec ih =>
    intro extra hmod hpart
    rw [blockOp_eq (by simp; omega)] at heq
    cases heq
    have h16 : 16 ≤ l.length := by omega
    conv_lhs => rw [ecbEnc]
    rw [if_neg (by simp; omega)]
    rw [take_app_left 16 h16, drop_app_left 16 h16]
    rw [blockOp_eq (by simp; omega)]
    simp only [ih extra (by simp; omega) hpart, hrec]
    conv_rhs => rw [ecbEnc]
    rw [if_neg hlen, blockOp_eq (by simp; omega)]
    simp only [hrec]
  | case4 l hlen enc heq e hrec ih =>
    intro extra hmod hpart
    rw [blockOp_eq (by simp; omega)] at heq
    cases heq
    have h16 : 16 ≤ l.length := by omega
    conv_lhs => rw [ecbEnc]
    rw [if_neg (by simp; omega)]
    rw [take_app_left 16 h16, drop_app_left 16 h16]
    rw [blockOp_eq (by simp; omega)]
    simp only [ih extra (by simp; omega) hpart, hrec]
    conv_rhs => rw [ecbEnc]
    rw [if_neg hlen, blockOp_eq (by simp; omega)]
    simp only [hrec]

theorem sm4_ecbDec_misaligned_err {d : Ctx} :
    ∀ l : List Nat, l.length % 16 ≠ 0 →
      ecbDec d l = .error "struct.error: unpack requires a buffer of 16 bytes" := by
  intro l
  induction l using ecbDec.induct d with
  | case1 =>
    intro h
    simp at h
  | case2 l hne e heq =>
    intro h
    by_cases h16 : (l.take 16).length = 16
    · rw [blockOp_eq h16] at heq
      cases heq
    · rw [blockOp_err h16] at heq
      cases heq
      rw [ecbDec, dif_neg hne, blockOp_err h16]
  | case3 l hne dec heq rest hrec ih =>
    intro h
    by_cases h16 : (l.take 16).length = 16
    · have hlen : 16 ≤ l.length := by
        rw [List.length_take] at h16
        omega
      have := ih (by simp; omega)
      rw [this] at hrec
      cases hrec
    · rw [blockOp_err h16] at heq
      cases heq
  | case4 l hne dec heq e hrec ih =>
    intro h
    by_cases h16 : (l.take 16).length = 16
    · have hlen : 16 ≤ l.length := by
        rw [List.length_take] at h16
        omega
      have hd := ih (by simp; omega)
      rw [ecbDec, dif_neg hne, heq]
      simp only [hd]
    · rw [blockOp_err h16] at heq
      cases heq

end Sm4Enc

/-! Keystream-cancellation algebra (claim C5). -/

theorem lxor_cancel2 : ∀ (a b k : List Nat), a.length ≤ k.length → b.length ≤ k.length →
    lxor (lxor a k) (lxor b k) = lxor a b := by
  intro a
  induction a with
  | nil =>
    intro b k _ _
    rfl
  | cons x a ih =>
    intro b k h1 h2
    cases b with
    | nil => simp [lxor]
    | cons y b =>
      cases k with
      | nil => simp at h1
      | cons t k =>
        show ((x ^^^ t) ^^^ (y ^^^ t)) :: lxor (lxor a k) (lxor b k) = (x ^^^ y) :: lxor a b
        rw [xor_cancel_pair]
        rw [ih b k (by simpa using h1) (by simpa using h2)]

theorem lxor_append {a b c d : List Nat} (h : a.length = b.length) :
    lxor (a ++ c) (b ++ d) = lxor a b ++ lxor c d := by
  unfold lxor
  rw [List.zipWith_append _ _ _ _ _ h]

theorem lxor_take_drop (n : Nat) (a b : List Nat) :
    lxor a b = lxor (a.take n) (b.take n) ++ lxor (a.drop n) (b.drop n) := by
  unfold lxor
  rw [← List.zipWith_distrib_take, ← List.zipWith_distrib_drop, List.take_append_drop]

theorem lxor_replicate_zero : ∀ (n : Nat) (k : List Nat),
    lxor (List.replicate n 0) k = k.take n := by
  intro n
  induction n with
  | zero => intro k; rfl
  | succ n ih =>
    intro k
    cases k with
    | nil => rfl
    | cons t k =>
      show (0 ^^^ t) :: lxor (List.replicate n 0) k = t :: k.take n
      rw [Nat.zero_xor, ih k]

theorem lxor_eq_replicate_zero : ∀ (u v : List Nat), u.length = v.length →
    lxor u v = List.replicate u.length 0 → u = v := by
  intro u
  induction u with
  | nil =>
    intro v hlen _
    symm
    exact List.eq_nil_of_length_eq_zero (by simpa using hlen.symm)
  | cons x u ih =>
    intro v hlen heq
    cases v with
    | nil => simp at hlen
    | cons y v =>
      rw [List.length_cons, List.replicate_succ] at heq
      have heq2 : ((x ^^^ y) :: lxor u v) = 0 :: List.replicate u.length 0 := heq
      injection heq2 with h1 h2
      have hxy : x = y := by
        have h3 := congrArg (fun z => z ^^^ y) h1
        simpa [Nat.xor_assoc] using h3
      rw [hxy, ih v (by simpa using hlen) h2]

namespace AesEnc

theorem aes_ofb_cancel {ctx : Aes.Ctx} :
    ∀ (last A B : List Nat), A.length = B.length →
      lxor (ofbProc ctx last A) (ofbProc ctx last B) = lxor A B := by
  intro last A
  induction last, A using ofbProc.induct ctx with
  | case1 last =>
    intro B hlen
    have hB : B = [] := by simpa using hlen.symm
    subst hB
    rw [ofbProc_nil]
  | case2 last l hne ih =>
    intro B hlen
    have hBne : B ≠ [] := by
      intro h
      subst h
      simp at hlen
      exact hne hlen
    rw [ofbProc_cons hne, ofbProc_cons hBne]
    have hklen : (Aes.encryptBlock ctx last).length = 16 := Aes.encryptBlock_length ctx _
    have htkeq : (B.take 16).length = (l.take 16).length := by
      simp
      omega
    rw [htkeq]
    rw [lxor_append (by
      rw [lxor_length, lxor_length, htkeq])]
    rw [lxor_cancel2 _ _ _ (by simp; omega) (by rw [htkeq]; simp; omega)]
    rw [ih (B.drop 16) (by simp; omega)]
    rw [← lxor_take_drop]

theorem aes_cfb_single {ctx : Aes.Ctx} (last A : List Nat) (hA : A.length ≤ 16) :
    cfbEnc ctx last A = lxor A ((Aes.encryptBlock ctx last).take A.length) := by
  by_cases hne : A = []
  · subst hne
    rw [cfbEnc_nil]
    rfl
  · rw [cfbEnc_cons hne]
    rw [List.take_of_length_le hA, List.drop_eq_nil_of_le hA, cfbEnc_nil,
      List.append_nil]

theorem aes_cfb_single_cancel {ctx : Aes.Ctx} (last A B : List Nat)
    (hlen : A.length = B.length) (hA : A.length ≤ 16) :
    lxor (cfbEnc ctx last A) (cfbEnc ctx last B) = lxor A B := by
  have hklen : (Aes.encryptBlock ctx last).length = 16 := Aes.encryptBlock_length ctx _
  rw [aes_cfb_single last A hA, aes_cfb_single last B (by omega), ← hlen]
  exact lxor_cancel2 _ _ _ (by simp; omega) (by simp; omega)

end AesEnc

namespace AesEnc

theorem take16_full {l : List Nat} (h : l.length = 16) : l.take 16 = l :=
  List.take_of_length_le (by omega)

theorem cfbEnc_two (ctx : Aes.Ctx) (last : List Nat) (A : List Nat) (hlen : A.length = 32) :
    cfbEnc ctx last A = lxor (A.take 16) ((Aes.encryptBlock ctx last).take 16) ++
      lxor (A.drop 16) ((Aes.encryptBlock ctx
        (lxor (A.take 16) ((Aes.encryptBlock ctx last).take 16))).take 16) := by
  have h1 : (A.take 16).length = 16 := by simp; omega
  rw [cfbEnc_cons (by intro h; subst h; simp at hlen)]
  rw [h1, if_pos rfl]
  rw [aes_cfb_single _ _ (by simp; omega)]
  rw [show (A.drop 16).length = 16 from by simp; omega]

theorem aes_cfb_two_block_breaks {ctx : Aes.Ctx} (hctx : GoodCtx ctx) (iv : List Nat)
    (hivb : Bytes iv) (hivlen : iv.length = 16) :
    lxor (cfbEnc ctx iv (List.replicate 32 0)) (cfbEnc ctx iv (1 :: List.replicate 31 0)) ≠
      lxor (List.replicate 32 0) (1 :: List.replicate 31 0) := by
  intro hEq
  have hklen : (Aes.encryptBlock ctx iv).length = 16 := Aes.encryptBlock_length ctx iv
  have hksb : Bytes (Aes.encryptBlock ctx iv) := hctx.2 iv hivb
  have hA := cfbEnc_two ctx iv (List.replicate 32 0) (by decide)
  have hB := cfbEnc_two ctx iv (1 :: List.replicate 31 0) (by decide)
  rw [show (List.replicate 32 (0:Nat)).take 16 = List.replicate 16 0 from by decide,
    show (List.replicate 32 (0:Nat)).drop 16 = List.replicate 16 0 from by decide,
    take16_full hklen, lxor_replicate_zero, take16_full hklen] at hA
  rw [take16_full (Aes.encryptBlock_length ctx _), lxor_replicate_zero,
    take16_full (Aes.encryptBlock_length ctx _)] at hA
  rw [show (1 :: List.replicate 31 (0:Nat)).take 16 = 1 :: List.replicate 15 0 from by decide,
    show (1 :: List.replicate 31 (0:Nat)).drop 16 = List.replicate 16 0 from by decide,
    take16_full hklen] at hB
  rw [lxor_replicate_zero, take16_full (Aes.encryptBlock_length ctx _)] at hB
  rw [hA, hB] at hEq
  have hcB1len : (lxor (1 :: List.replicate 15 0) (Aes.encryptBlock ctx iv)).length = 16 := by
    rw [lxor_length, hklen]
    simp
  rw [lxor_append (by rw [hklen, hcB1len])] at hEq
  rw [show lxor (List.replicate 32 (0:Nat)) (1 :: List.replicate 31 0) =
    (1 :: List.replicate 15 0) ++ List.replicate 16 0 from by decide] at hEq
  have hEq2 := congrArg (List.drop 16) hEq
  rw [drop_append_len16 _ (by rw [lxor_length, hklen, hcB1len]; simp),
    drop_append_len16 _ (by simp)] at hEq2
  have hEElen : (Aes.encryptBlock ctx (Aes.encryptBlock ctx iv)).length = 16 :=
    Aes.encryptBlock_length ctx _
  have hEinj : Aes.encryptBlock ctx (Aes.encryptBlock ctx iv) =
      Aes.encryptBlock ctx (lxor (1 :: List.replicate 15 0) (Aes.encryptBlock ctx iv)) := by
    apply lxor_eq_replicate_zero _ _ ?_ ?_
    · rw [hEElen, Aes.encryptBlock_length]
    · rw [hEElen]
      exact hEq2
  have hcB1b : Bytes (lxor (1 :: List.replicate 15 0) (Aes.encryptBlock ctx iv)) :=
    lxor_bytes (by decide) hksb
  have h1 := hctx.1 (Aes.encryptBlock ctx iv) hksb hklen
  have h2 := hctx.1 _ hcB1b hcB1len
  rw [hEinj] at h1
  rw [h2] at h1
  cases hk : Aes.encryptBlock ctx iv with
  | nil =>
    rw [hk] at hklen
    simp at hklen
  | cons k0 t =>
    rw [hk] at h1
    have hh : ((1 ^^^ k0) :: lxor (List.replicate 15 0) t) = k0 :: t := h1
    injection hh with hh1 _
    have hcontra := congrArg (fun z => z ^^^ k0) hh1
    simp [Nat.xor_assoc] at hcontra

end AesEnc

/-! Unpad-failure handling divergence (claim C3): ECB encryption with
`nopadding` followed by decryption under a chosen padding. -/

namespace AesEnc

theorem aes_ecb_nopad_decrypt {key : List Nat} (hkey : Bytes key) (kS dR : Bool)
    (P : List Nat) (hp : Bytes P) (hlen : P.length % 16 = 0) (hne : P ≠ [])
    (padding : Padding) :
    ∃ c, encrypt key .ECB none .nopadding .absent kS dR P = .ok c ∧
      (∀ u, unpad P padding = .ok u →
        decrypt key .ECB none padding .absent kS dR .default c = .ok u) ∧
      (∀ e, unpad P padding = .error e →
        decrypt key .ECB none padding .absent kS dR .default c = .ok P) := by
  have hctx : GoodCtx (Aes.mkCtx key (parseSbox .absent) kS dR) := goodCtx_std key hkey kS dR
  have hresb : Bytes (ecbEnc (Aes.mkCtx key (parseSbox .absent) kS dR) P) :=
    ecbEnc_bytes hctx _ hp
  have hreslen := @ecbEnc_length (Aes.mkCtx key (parseSbox .absent) kS dR) P hlen
  have hresne : ecbEnc (Aes.mkCtx key (parseSbox .absent) kS dR) P ≠ [] := by
    intro h
    rw [h] at hreslen
    simp at hreslen
    exact hne (List.eq_nil_of_length_eq_zero hreslen.symm)
  have hdne := b64encode_ne_nil hresb hresne
  refine ⟨b64encode (ecbEnc (Aes.mkCtx key (parseSbox .absent) kS dR) P), ?_, ?_, ?_⟩
  · simp only [encrypt, if_neg hne, encryptRaw, pad]
    simp [Mode.isStream]
  · intro u hu
    simp only [decrypt, if_neg hdne, parseCipherData, b64decode_encode hresb, ivResolve]
    rw [ecbDec_ecbEnc hctx _ hp hlen]
    simp [Mode.isStream, hu]
  · intro e he
    simp only [decrypt, if_neg hdne, parseCipherData, b64decode_encode hresb, ivResolve]
    rw [ecbDec_ecbEnc hctx _ hp hlen]
    simp [Mode.isStream, he]

end AesEnc

namespace Sm4Enc

theorem sm4_ecb_nopad_decrypt (key : List Nat) (kS dR sE : Bool)
    (P : List Nat) (hp : Bytes P) (hlen : P.length % 16 = 0) (hne : P ≠ [])
    (padding : Padding) :
    ∃ c, encrypt key .ECB none .nopadding .absent kS dR sE P = .ok c ∧
      (∀ u, unpad P padding = .ok u →
        decrypt key .ECB none padding .absent kS dR sE .default c = .ok u) ∧
      (∀ e, unpad P padding = .error e →
        decrypt key .ECB none padding .absent kS dR sE .default c = .error e) := by
  have hpair : CtxPair (mkCtx key (parseSbox .absent) false (kS || sE) (dR || sE))
      (mkCtx key (parseSbox .absent) true (kS || sE) (dR || sE)) :=
    mkCtx_pair key (kS || sE) (dR || sE)
  obtain ⟨res, hres, hreslen, hresb, hdec⟩ :=
    @sm4_ecbEnc_ok (mkCtx key (parseSbox .absent) false (kS || sE) (dR || sE)) P hlen
  have hdecr := hdec (mkCtx key (parseSbox .absent) true (kS || sE) (dR || sE)) hpair hp
  have hresne : res ≠ [] := by
    intro h
    rw [h] at hreslen
    simp at hreslen
    exact hne (List.eq_nil_of_length_eq_zero hreslen.symm)
  have hdne := b64encode_ne_nil hresb hresne
  refine ⟨b64encode res, ?_, ?_, ?_⟩
  · simp only [encrypt, if_neg hne, encryptRaw, pad]
    simp [Mode.isStream, hres]
  · intro u hu
    simp only [decrypt, if_neg hdne, parseCipherData, b64decode_encode hresb]
    rw [if_neg (show ¬(Mode.ECB ≠ Mode.ECB ∧ True ∧ res.length < 16) from by simp)]
    simp only [true_or, decide_True, hdecr]
    simp [Mode.isStream, hu]
  · intro e he
    simp only [decrypt, if_neg hdne, parseCipherData, b64decode_encode hresb]
    rw [if_neg (show ¬(Mode.ECB ≠ Mode.ECB ∧ True ∧ res.length < 16) from by simp)]
    simp only [true_or, decide_True, hdecr]
    simp [Mode.isStream, he]

end Sm4Enc

/-! Input-validation outcomes of the two decrypt entry points (claim C9). -/

namespace AesEnc

theorem aes_decrypt_b64_fail {key : List Nat} {mode : Mode} {ivBytes : Option (List Nat)}
    {padding : Padding} {kS dR : Bool} {data : List Char} (hne : data ≠ [])
    (hfail : b64decode data = none) :
    decrypt key mode ivBytes padding .absent kS dR .base64 data =
      .error "input data parse failure (base64)" := by
  simp only [decrypt, if_neg hne, parseCipherData, hfail]

theorem aes_decrypt_hex_fail {key : List Nat} {mode : Mode} {ivBytes : Option (List Nat)}
    {padding : Padding} {kS dR : Bool} {data : List Char} (hne : data ≠ [])
    (hfail : hexDecode (data.filter fun c => c ≠ ' ' ∧ c ≠ '\n') = none) :
    decrypt key mode ivBytes padding .absent kS dR .hex data =
      .error "input data parse failure (hex)" := by
  simp only [decrypt, if_neg hne, parseCipherData, hfail]

theorem aes_decrypt_default_fail {key : List Nat} {mode : Mode} {ivBytes : Option (List Nat)}
    {padding : Padding} {kS dR : Bool} {data : List Char} (hne : data ≠ [])
    (hfail : b64decode data = none) :
    decrypt key mode ivBytes padding .absent kS dR .default data = .ok invalidInputMarker := by
  simp only [decrypt, if_neg hne, parseCipherData, hfail]

theorem aes_decrypt_short_iv {key : List Nat} {mode : Mode} {padding : Padding}
    {kS dR : Bool} {data : List Char} {bs : List Nat} (hmode : mode ≠ .ECB)
    (hne : data ≠ []) (hsome : b64decode data = some bs) (hshort : bs.length < 16) :
    decrypt key mode none padding .absent kS dR .default data =
      .error "encrypted data too short to extract IV" := by
  cases mode with
  | ECB => exact absurd rfl hmode
  | CBC => simp only [decrypt, if_neg hne, parseCipherData, hsome, ivResolve, if_pos hshort]
  | CTR => simp only [decrypt, if_neg hne, parseCipherData, hsome, ivResolve, if_pos hshort]
  | OFB => simp only [decrypt, if_neg hne, parseCipherData, hsome, ivResolve, if_pos hshort]
  | CFB => simp only [decrypt, if_neg hne, parseCipherData, hsome, ivResolve, if_pos hshort]

end AesEnc

namespace Sm4Enc

theorem sm4_decrypt_b64_fail {key : List Nat} {mode : Mode} {ivBytes : Option (List Nat)}
    {padding : Padding} {kS dR sE : Bool} {data : List Char} (hne : data ≠ [])
    (hfail : b64decode data = none) :
    decrypt key mode ivBytes padding .absent kS dR sE .base64 data =
      .error "input data parse failure (base64)" := by
  simp only [decrypt, if_neg hne, parseCipherData, hfail]

theorem sm4_decrypt_hex_fail {key : List Nat} {mode : Mode} {ivBytes : Option (List Nat)}
    {padding : Padding} {kS dR sE : Bool} {data : List Char} (hne : data ≠ [])
    (hfail : hexDecode (data.filter fun c => c ≠ ' ' ∧ c ≠ '\n') = none) :
    decrypt key mode ivBytes padding .absent kS dR sE .hex data =
      .error "input data parse failure (hex)" := by
  simp only [decrypt, if_neg hne, parseCipherData, hfail]

theorem sm4_decrypt_default_fail {key : List Nat} {mode : Mode} {ivBytes : Option (List Nat)}
    {padding : Padding} {kS dR sE : Bool} {data : List Char} (hne : data ≠ [])
    (hfail : b64decode data = none) :
    decrypt key mode ivBytes padding .absent kS dR sE .default data = .ok [] := by
  simp only [decrypt, if_neg hne, parseCipherData, hfail]

theorem sm4_decrypt_short {key : List Nat} {mode : Mode} {padding : Padding}
    {kS dR sE : Bool} {data : List Char} {bs : List Nat} (hmode : mode ≠ .ECB)
    (hne : data ≠ []) (hsome : b64decode data = some bs) (hshort : bs.length < 16) :
    decrypt key mode none padding .absent kS dR sE .default data = .ok [] := by
  cases mode with
  | ECB => exact absurd rfl hmode
  | CBC => simp [decrypt, if_neg hne, parseCipherData, hsome, hshort]
  | CTR => simp [decrypt, if_neg hne, parseCipherData, hsome, hshort]
  | OFB => simp [decrypt, if_neg hne, parseCipherData, hsome, hshort]
  | CFB => simp [decrypt, if_neg hne, parseCipherData, hsome, hshort]

end Sm4Enc

/-! CTR counter overflow (claim C10). -/

theorem natFromBytesBE_ff : natFromBytesBE (List.replicate 16 255) = 2 ^ 128 - 1 := by decide

namespace AesEnc

theorem aes_ctrProc_ff {ctx : Aes.Ctx} (l : List Nat) (h : 16 < l.length) :
    ctrProc ctx (2 ^ 128 - 1) l = .error "OverflowError: int too big to convert" := by
  have hinner : ctrProc ctx (2 ^ 128 - 1 + 1) (l.drop 16) =
      .error "OverflowError: int too big to convert" := by
    rw [ctrProc]
    rw [dif_neg (show ¬ l.drop 16 = [] from by
      intro h0
      have h1 := congrArg List.length h0
      simp at h1
      omega)]
    rw [if_pos (by omega)]
  conv_lhs => rw [ctrProc]
  rw [dif_neg (show ¬ l = [] from by intro h0; subst h0; simp at h)]
  rw [if_neg (by omega)]
  simp only [hinner]

theorem aes_ctr_encrypt_overflow (key : List Nat) (kS dR : Bool) (data : List Nat)
    (h : 16 < data.length) :
    encrypt key .CTR (some (List.replicate 16 255)) .nopadding .absent kS dR data =
      .error "OverflowError: int too big to convert" := by
  have hne : data ≠ [] := by
    intro h0
    subst h0
    simp at h
  simp only [encrypt, if_neg hne, encryptRaw, natFromBytesBE_ff]
  rw [if_pos (show Mode.isStream .CTR = true ∧ True from by simp [Mode.isStream])]
  rw [aes_ctrProc_ff data h]

theorem aes_ctr_decrypt_overflow (key : List Nat) (kS dR : Bool) (data : List Nat)
    (hd : Bytes data) (h : 16 < data.length) :
    decrypt key .CTR (some (List.replicate 16 255)) .nopadding .absent kS dR .default
      (b64encode data) = .error "OverflowError: int too big to convert" := by
  have hne : data ≠ [] := by
    intro h0
    subst h0
    simp at h
  have hdne := b64encode_ne_nil hd hne
  simp only [decrypt, if_neg hdne, parseCipherData, b64decode_encode hd, ivResolve,
    natFromBytesBE_ff]
  rw [aes_ctrProc_ff data h]

end AesEnc

namespace Sm4Enc

theorem sm4_ctrProc_ff {ctx : Ctx} (l : List Nat) (h : 16 < l.length) :
    ctrProc ctx (2 ^ 128 - 1) l = .error "OverflowError: int too big to convert" := by
  have hinner : ctrProc ctx (2 ^ 128 - 1 + 1) (l.drop 16) =
      .error "OverflowError: int too big to convert" := by
    rw [ctrProc]
    rw [dif_neg (show ¬ l.drop 16 = [] from by
      intro h0
      have h1 := congrArg List.length h0
      simp at h1
      omega)]
    rw [if_pos (by omega)]
  conv_lhs => rw [ctrProc]
  rw [dif_neg (show ¬ l = [] from by intro h0; subst h0; simp at h)]
  rw [if_neg (by omega)]
  rw [blockOp_eq (natToBytesBE_length 16 _)]
  simp only [hinner]

theorem sm4_ctr_encrypt_overflow (key : List Nat) (kS dR sE : Bool) (data : List Nat)
    (h : 16 < data.length) :
    encrypt key .CTR (some (List.replicate 16 255)) .nopadding .absent kS dR sE data =
      .error "OverflowError: int too big to convert" := by
  have hne : data ≠ [] := by
    intro h0
    subst h0
    simp at h
  simp only [encrypt, if_neg hne, encryptRaw, natFromBytesBE_ff]
  rw [if_pos (show Mode.isStream .CTR = true ∧ True from by simp [Mode.isStream])]
  rw [sm4_ctrProc_ff data h]

theorem sm4_ctr_decrypt_overflow (key : List Nat) (kS dR sE : Bool) (data : List Nat)
    (hd : Bytes data) (h : 16 < data.length) :
    decrypt key .CTR (some (List.replicate 16 255)) .nopadding .absent kS dR sE .default
      (b64encode data) = .error "OverflowError: int too big to convert" := by
  have hne : data ≠ [] := by
    intro h0
    subst h0
    simp at h
  have hdne := b64encode_ne_nil hd hne
  simp only [decrypt, if_neg hdne, parseCipherData, b64decode_encode hd, natFromBytesBE_ff]
  rw [if_neg (show ¬(Mode.CTR ≠ Mode.ECB ∧ some (List.replicate 16 255) = none ∧
    data.length < 16) from by simp)]
  rw [show decide (Mode.CTR = Mode.ECB ∨ Mode.CTR = Mode.CBC) = false from rfl]
  rw [sm4_ctrProc_ff data h]

end Sm4Enc

/-! Stream-mode ciphertext length (claim C4). -/

namespace AesEnc

theorem aes_stream_len (key iv : List Nat) (hkey : Bytes key) (hivb : Bytes iv)
    (hivlen : iv.length = 16) (mode : Mode) (hm : mode.isStream = true) (kS dR : Bool)
    (data : List Nat) (hd : Bytes data)
    (hbound : mode = .CTR → natFromBytesBE iv + (data.length + 15) / 16 ≤ 2 ^ 128) :
    ∃ c cb, encrypt key mode (some iv) .nopadding .absent kS dR data = .ok c ∧
      b64decode c = some cb ∧ cb.length = data.length := by
  by_cases hde : data = []
  · subst hde
    exact ⟨[], [], by simp [encrypt], b64decode_nil, rfl⟩
  have hctx : GoodCtx (Aes.mkCtx key (parseSbox .absent) kS dR) := goodCtx_std key hkey kS dR
  cases mode with
  | ECB => exact Bool.noConfusion hm
  | CBC => exact Bool.noConfusion hm
  | CTR =>
    obtain ⟨res, hres⟩ := @aes_ctrProc_ok (Aes.mkCtx key (parseSbox .absent) kS dR)
      (natFromBytesBE iv) data (hbound rfl)
    refine ⟨b64encode res, res, ?_,
      b64decode_encode (ctrProc_bytes hctx _ _ hd _ hres), ctrProc_length _ _ _ hres⟩
    simp only [encrypt, if_neg hde, encryptRaw]
    simp [Mode.isStream, hres]
  | OFB =>
    refine ⟨b64encode (ofbProc (Aes.mkCtx key (parseSbox .absent) kS dR) iv data), _, ?_,
      b64decode_encode (ofbProc_bytes hctx iv data hivb hd), ofbProc_length iv data⟩
    simp only [encrypt, if_neg hde, encryptRaw]
    simp [Mode.isStream]
  | CFB =>
    refine ⟨b64encode (cfbEnc (Aes.mkCtx key (parseSbox .absent) kS dR) iv data), _, ?_,
      b64decode_encode (cfbEnc_bytes hctx iv data hivb hd), cfbEnc_length iv data⟩
    simp only [encrypt, if_neg hde, encryptRaw]
    simp [Mode.isStream]

end AesEnc

namespace Sm4Enc

theorem sm4_stream_len (key iv : List Nat) (hivb : Bytes iv)
    (hivlen : iv.length = 16) (mode : Mode) (hm : mode.isStream = true) (kS dR sE : Bool)
    (data : List Nat) (hd : Bytes data)
    (hbound : mode = .CTR → natFromBytesBE iv + (data.length + 15) / 16 ≤ 2 ^ 128) :
    ∃ c cb, encrypt key mode (some iv) .nopadding .absent kS dR sE data = .ok c ∧
      b64decode c = some cb ∧ cb.length = data.length := by
  by_cases hde : data = []
  · subst hde
    exact ⟨[], [], by simp [encrypt], b64decode_nil, rfl⟩
  cases mode with
  | ECB => exact Bool.noConfusion hm
  | CBC => exact Bool.noConfusion hm
  | CTR =>
    obtain ⟨res, hres⟩ := @sm4_ctrProc_ok
      (mkCtx key (parseSbox .absent) false (kS || sE) (dR || sE))
      (natFromBytesBE iv) data (hbound rfl)
    refine ⟨b64encode res, res, ?_,
      b64decode_encode (sm4_ctrProc_bytes _ _ hd _ hres), sm4_ctrProc_length _ _ _ hres⟩
    simp only [encrypt, if_neg hde, encryptRaw]
    simp [Mode.isStream, hres]
  | OFB =>
    obtain ⟨res, hres, hreslen, hresb, -⟩ := @sm4_ofbProc_ok
      (mkCtx key (parseSbox .absent) false (kS || sE) (dR || sE)) iv data hivlen hd
    refine ⟨b64encode res, res, ?_, b64decode_encode hresb, hreslen⟩
    simp only [encrypt, if_neg hde, encryptRaw]
    simp [Mode.isStream, hres]
  | CFB =>
    obtain ⟨res, hres, hreslen, hresb, -⟩ := @sm4_cfbEnc_ok
      (mkCtx key (parseSbox .absent) false (kS || sE) (dR || sE)) iv data hivlen hd
    refine ⟨b64encode res, res, ?_, b64decode_encode hresb, hreslen⟩
    simp only [encrypt, if_neg hde, encryptRaw]
    simp [Mode.isStream, hres]

end Sm4Enc

/-! The claims. -/

/-- C1 (amended): decrypt ∘ encrypt is the identity for both AES and SM4 for
the block modes ECB/CBC under pkcs7, ansix923 or (block-aligned) nopadding,
and for the stream modes CFB/OFB/CTR under nopadding (a non-trivial padding
is never removed by stream-mode decryption, see the counterexample), for any
key bytes, any supplied 16-byte IV or the embedded zero IV, with CTR
additionally not overflowing its counter. -/
theorem C1_roundtrip_amended (key : List Nat) (hkey : Bytes key) (mode : Mode)
    (ivBytes : Option (List Nat)) (iv : List Nat)
    (hiv : (ivBytes = none ∧ iv = List.replicate 16 0) ∨ ivBytes = some iv)
    (hivb : Bytes iv) (hivlen : iv.length = 16) (padding : Padding) (kS dR sE : Bool)
    (dataBytes : List Nat) (hd : Bytes dataBytes)
    (hpad : (mode.isStream = false ∧ (padding = .pkcs7 ∨ padding = .ansix923 ∨
        (padding = .nopadding ∧ dataBytes.length % 16 = 0))) ∨
      (mode.isStream = true ∧ padding = .nopadding))
    (hbound : mode = .CTR → natFromBytesBE iv + (dataBytes.length + 15) / 16 ≤ 2 ^ 128) :
    (∃ c, AesEnc.encrypt key mode ivBytes padding .absent kS dR dataBytes = .ok c ∧
      AesEnc.decrypt key mode ivBytes padding .absent kS dR .default c = .ok dataBytes) ∧
    (∃ c, Sm4Enc.encrypt key mode ivBytes padding .absent kS dR sE dataBytes = .ok c ∧
      Sm4Enc.decrypt key mode ivBytes padding .absent kS dR sE .default c = .ok dataBytes) :=
  ⟨AesEnc.aes_roundtrip key hkey mode ivBytes iv hiv hivb hivlen padding kS dR dataBytes
      hd hpad hbound,
   Sm4Enc.sm4_roundtrip key mode ivBytes iv hiv hivb hivlen padding kS dR sE dataBytes
      hd hpad hbound⟩

/-- Concrete instance of C1: CBC+pkcs7 with the embedded zero IV round-trips
the two-byte plaintext `Hi` under both ciphers. -/
theorem C1_roundtrip_witness :
    (∃ c, AesEnc.encrypt (List.replicate 16 0) .CBC none .pkcs7 .absent false false
        [72, 105] = .ok c ∧
      AesEnc.decrypt (List.replicate 16 0) .CBC none .pkcs7 .absent false false .default c =
        .ok [72, 105]) ∧
    (∃ c, Sm4Enc.encrypt (List.replicate 16 0) .CBC none .pkcs7 .absent false false false
        [72, 105] = .ok c ∧
      Sm4Enc.decrypt (List.replicate 16 0) .CBC none .pkcs7 .absent false false false
        .default c = .ok [72, 105]) :=
  C1_roundtrip_amended (List.replicate 16 0) (bytes_replicate_zero 16) .CBC none
    (List.replicate 16 0) (Or.inl ⟨rfl, rfl⟩) (bytes_replicate_zero 16) (by decide)
    .pkcs7 false false false [72, 105] (by decide) (Or.inl ⟨rfl, Or.inl rfl⟩)
    (fun h => Mode.noConfusion h)

/-- Refutation of C1 as stated: with OFB and pkcs7 the decryption of an
encryption of `A` returns the still-padded 16-byte block, not `A`. -/
theorem C1_stream_padding_counterexample :
    ∃ c r, AesEnc.encrypt (List.replicate 16 0) .OFB (some (List.replicate 16 0)) .pkcs7
        .absent false false [65] = .ok c ∧
      AesEnc.decrypt (List.replicate 16 0) .OFB (some (List.replicate 16 0)) .pkcs7
        .absent false false .default c = .ok r ∧ r ≠ [65] := by
  have hkey : Bytes (List.replicate 16 (0 : Nat)) := bytes_replicate_zero 16
  have hctx : AesEnc.GoodCtx (Aes.mkCtx (List.replicate 16 0) (parseSbox .absent)
      false false) := AesEnc.goodCtx_std _ hkey false false
  have hpadb : Bytes (AesEnc.pad [65] .pkcs7) := AesEnc.pad_bytes (by decide) _
  have hresb := AesEnc.ofbProc_bytes hctx (List.replicate 16 0) (AesEnc.pad [65] .pkcs7)
    hkey hpadb
  have hreslen := @AesEnc.ofbProc_length
    (Aes.mkCtx (List.replicate 16 0) (parseSbox .absent) false false)
    (List.replicate 16 0) (AesEnc.pad [65] .pkcs7)
  have hinv := @AesEnc.ofbProc_involutive
    (Aes.mkCtx (List.replicate 16 0) (parseSbox .absent) false false)
    (List.replicate 16 0) (AesEnc.pad [65] .pkcs7)
  have hresne : AesEnc.ofbProc (Aes.mkCtx (List.replicate 16 0) (parseSbox .absent)
      false false) (List.replicate 16 0) (AesEnc.pad [65] .pkcs7) ≠ [] := by
    intro h
    rw [h] at hreslen
    simp at hreslen
    exact absurd hreslen.symm (by decide)
  refine ⟨b64encode (AesEnc.ofbProc (Aes.mkCtx (List.replicate 16 0) (parseSbox .absent)
      false false) (List.replicate 16 0) (AesEnc.pad [65] .pkcs7)),
    AesEnc.pad [65] .pkcs7, ?_, ?_, by decide⟩
  · simp only [AesEnc.encrypt, AesEnc.encryptRaw]
    simp [Mode.isStream]
  · have hdne := b64encode_ne_nil hresb hresne
    simp only [AesEnc.decrypt, if_neg hdne, parseCipherData, b64decode_encode hresb,
      AesEnc.ivResolve]
    simp [Mode.isStream]
    exact hinv

/-- C2 (amended): in ECB mode the AES encryption and decryption loops and the
SM4 encryption loop silently drop a trailing partial block, but the SM4
decryption loop feeds it to `one_round`, which raises `struct.error` (see the
counterexample). -/
theorem C2_ecb_partial_amended (actx : Aes.Ctx) (sctx : Sm4Enc.Ctx)
    (blocks extra : List Nat) (hb : blocks.length % 16 = 0) (hx : extra.length < 16) :
    AesEnc.ecbEnc actx (blocks ++ extra) = AesEnc.ecbEnc actx blocks ∧
    AesEnc.ecbDec actx (blocks ++ extra) = AesEnc.ecbDec actx blocks ∧
    Sm4Enc.ecbEnc sctx (blocks ++ extra) = Sm4Enc.ecbEnc sctx blocks ∧
    (extra ≠ [] → Sm4Enc.ecbDec sctx (blocks ++ extra) =
      .error "struct.error: unpack requires a buffer of 16 bytes") := by
  refine ⟨AesEnc.aes_ecbEnc_drop blocks extra hb hx,
    AesEnc.aes_ecbDec_drop blocks extra hb hx,
    Sm4Enc.sm4_ecbEnc_drop blocks extra hb hx, ?_⟩
  intro hne
  apply Sm4Enc.sm4_ecbDec_misaligned_err
  have := List.length_pos.mpr hne
  simp
  omega

/-- Concrete instance of C2 on a lone 3-byte partial block. -/
theorem C2_ecb_partial_witness :
    AesEnc.ecbEnc (Aes.mkCtx (List.replicate 16 0) none false false) ([] ++ [1, 2, 3]) =
      AesEnc.ecbEnc (Aes.mkCtx (List.replicate 16 0) none false false) [] ∧
    AesEnc.ecbDec (Aes.mkCtx (List.replicate 16 0) none false false) ([] ++ [1, 2, 3]) =
      AesEnc.ecbDec (Aes.mkCtx (List.replicate 16 0) none false false) [] ∧
    Sm4Enc.ecbEnc (Sm4Enc.mkCtx (List.replicate 16 0) none true false false)
        ([] ++ [1, 2, 3]) =
      Sm4Enc.ecbEnc (Sm4Enc.mkCtx (List.replicate 16 0) none true false false) [] ∧
    ([1, 2, 3] ≠ ([] : List Nat) →
      Sm4Enc.ecbDec (Sm4Enc.mkCtx (List.replicate 16 0) none true false false)
          ([] ++ [1, 2, 3]) =
        .error "struct.error: unpack requires a buffer of 16 bytes") :=
  C2_ecb_partial_amended (Aes.mkCtx (List.replicate 16 0) none false false)
    (Sm4Enc.mkCtx (List.replicate 16 0) none true false false) [] [1, 2, 3]
    (by decide) (by decide)

/-- Refutation of the C2 wording for SM4 decryption: a lone partial block is
not dropped, it raises `struct.error`. -/
theorem C2_sm4_ecbdec_counterexample :
    Sm4Enc.ecbDec (Sm4Enc.mkCtx (List.replicate 16 0) none true false false) [0] =
      .error "struct.error: unpack requires a buffer of 16 bytes" :=
  Sm4Enc.sm4_ecbDec_misaligned_err [0] (by decide)

/-- C3: whenever removal of the padding from the decrypted bytes fails —
including a length byte outside 1..16 for either cipher, and SM4's
pkcs7-only check of the filler bytes against the length byte — AES `decrypt`
swallows the failure and returns the still-padded bytes, while SM4
`sm4_decrypt` propagates the failure to the caller as an error. -/
theorem C3_unpad_divergence (key : List Nat) (hkey : Bytes key) (padding : Padding)
    (kS dR sE : Bool) :
    (∀ P, Bytes P → P.length % 16 = 0 → P ≠ [] → ∀ eA,
      AesEnc.unpad P padding = .error eA →
      ∃ c, AesEnc.encrypt key .ECB none .nopadding .absent kS dR P = .ok c ∧
        AesEnc.decrypt key .ECB none padding .absent kS dR .default c = .ok P) ∧
    (∀ P, Bytes P → P.length % 16 = 0 → P ≠ [] → ∀ eS,
      Sm4Enc.unpad P padding = .error eS →
      ∃ c, Sm4Enc.encrypt key .ECB none .nopadding .absent kS dR sE P = .ok c ∧
        Sm4Enc.decrypt key .ECB none padding .absent kS dR sE .default c = .error eS) := by
  constructor
  · intro P hp hlen hne eA hbad
    obtain ⟨c, hc, -, hsw⟩ := AesEnc.aes_ecb_nopad_decrypt hkey kS dR P hp hlen hne padding
    exact ⟨c, hc, hsw eA hbad⟩
  · intro P hp hlen hne eS hbad
    obtain ⟨c, hc, -, herr⟩ := Sm4Enc.sm4_ecb_nopad_decrypt key kS dR sE P hp hlen hne padding
    exact ⟨c, hc, herr eS hbad⟩

/-- Concrete instances of C3: an all-zero block (padding length byte 0) makes
AES swallow the unpad failure, and a block ending `…, 5, 2` — a valid pkcs7
length byte 2 but a filler byte 5 ≠ 2 — trips SM4's filler-byte check, an
error AES's unpad does not even detect, and SM4 propagates it. -/
theorem C3_unpad_divergence_witness :
    (∃ c, AesEnc.encrypt (List.replicate 16 0) .ECB none .nopadding .absent false false
        (List.replicate 16 0) = .ok c ∧
      AesEnc.decrypt (List.replicate 16 0) .ECB none .pkcs7 .absent false false .default c =
        .ok (List.replicate 16 0)) ∧
    (∃ c, Sm4Enc.encrypt (List.replicate 16 0) .ECB none .nopadding .absent false false false
        (List.replicate 14 0 ++ [5, 2]) = .ok c ∧
      Sm4Enc.decrypt (List.replicate 16 0) .ECB none .pkcs7 .absent false false false
        .default c = .error "Invalid PKCS7 padding bytes") :=
  ⟨(C3_unpad_divergence (List.replicate 16 0) (bytes_replicate_zero 16) .pkcs7
      false false false).1 (List.replicate 16 0) (bytes_replicate_zero 16) (by decide)
      (by decide) "Invalid padding length" rfl,
   (C3_unpad_divergence (List.replicate 16 0) (bytes_replicate_zero 16) .pkcs7
      false false false).2 (List.replicate 14 0 ++ [5, 2]) (by decide) (by decide)
      (by decide) "Invalid PKCS7 padding bytes" rfl⟩

/-- C4 (amended): for the stream modes CFB/OFB/CTR the ciphertext byte length
equals the plaintext byte length when `nopadding` is selected (with any other
padding the plaintext is padded before the keystream XOR, inflating the
ciphertext, see the counterexample). -/
theorem C4_stream_length_amended (key iv : List Nat) (hkey : Bytes key) (hivb : Bytes iv)
    (hivlen : iv.length = 16) (mode : Mode) (hm : mode.isStream = true) (kS dR sE : Bool)
    (data : List Nat) (hd : Bytes data)
    (hbound : mode = .CTR → natFromBytesBE iv + (data.length + 15) / 16 ≤ 2 ^ 128) :
    (∃ c cb, AesEnc.encrypt key mode (some iv) .nopadding .absent kS dR data = .ok c ∧
      b64decode c = some cb ∧ cb.length = data.length) ∧
    (∃ c cb, Sm4Enc.encrypt key mode (some iv) .nopadding .absent kS dR sE data = .ok c ∧
      b64decode c = some cb ∧ cb.length = data.length) :=
  ⟨AesEnc.aes_stream_len key iv hkey hivb hivlen mode hm kS dR data hd hbound,
   Sm4Enc.sm4_stream_len key iv hivb hivlen mode hm kS dR sE data hd hbound⟩

/-- Concrete instance of C4 in OFB mode on a 3-byte plaintext. -/
theorem C4_stream_length_witness :
    (∃ c cb, AesEnc.encrypt (List.replicate 16 0) .OFB (some (List.replicate 16 0))
        .nopadding .absent false false [1, 2, 3] = .ok c ∧
      b64decode c = some cb ∧ cb.length = [1, 2, 3].length) ∧
    (∃ c cb, Sm4Enc.encrypt (List.replicate 16 0) .OFB (some (List.replicate 16 0))
        .nopadding .absent false false false [1, 2, 3] = .ok c ∧
      b64decode c = some cb ∧ cb.length = [1, 2, 3].length) :=
  C4_stream_length_amended (List.replicate 16 0) (List.replicate 16 0)
    (bytes_replicate_zero 16) (bytes_replicate_zero 16) (by decide) .OFB rfl
    false false false [1, 2, 3] (by decide) (fun h => Mode.noConfusion h)

/-- Refutation of C4 as stated: with pkcs7 the OFB ciphertext of the 1-byte
plaintext `A` is 16 bytes long. -/
theorem C4_pkcs7_inflation_counterexample :
    ∃ c cb, AesEnc.encrypt (List.replicate 16 0) .OFB (some (List.replicate 16 0)) .pkcs7
        .absent false false [65] = .ok c ∧ b64decode c = some cb ∧ cb.length ≠ 1 := by
  have hkey : Bytes (List.replicate 16 (0 : Nat)) := bytes_replicate_zero 16
  have hctx : AesEnc.GoodCtx (Aes.mkCtx (List.replicate 16 0) (parseSbox .absent)
      false false) := AesEnc.goodCtx_std _ hkey false false
  have hpadb : Bytes (AesEnc.pad [65] .pkcs7) := AesEnc.pad_bytes (by decide) _
  have hresb := AesEnc.ofbProc_bytes hctx (List.replicate 16 0) (AesEnc.pad [65] .pkcs7)
    hkey hpadb
  have hreslen := @AesEnc.ofbProc_length
    (Aes.mkCtx (List.replicate 16 0) (parseSbox .absent) false false)
    (List.replicate 16 0) (AesEnc.pad [65] .pkcs7)
  refine ⟨b64encode (AesEnc.ofbProc (Aes.mkCtx (List.replicate 16 0) (parseSbox .absent)
      false false) (List.replicate 16 0) (AesEnc.pad [65] .pkcs7)),
    AesEnc.ofbProc (Aes.mkCtx (List.replicate 16 0) (parseSbox .absent) false false)
      (List.replicate 16 0) (AesEnc.pad [65] .pkcs7), ?_, b64decode_encode hresb, ?_⟩
  · simp only [AesEnc.encrypt, AesEnc.encryptRaw]
    simp [Mode.isStream]
  · rw [hreslen]
    decide

/-- C5 (amended): with the same key and IV the OFB keystream cancels for any
two equal-length plaintexts, and the CFB keystream cancels for equal-length
plaintexts of at most one block (beyond one block the CFB keystream depends
on the ciphertext, see the counterexample). -/
theorem C5_keystream_cancellation_amended (ctx : Aes.Ctx) (iv A B : List Nat)
    (hlen : A.length = B.length) :
    lxor (AesEnc.ofbProc ctx iv A) (AesEnc.ofbProc ctx iv B) = lxor A B ∧
    (A.length ≤ 16 → lxor (AesEnc.cfbEnc ctx iv A) (AesEnc.cfbEnc ctx iv B) = lxor A B) :=
  ⟨AesEnc.aes_ofb_cancel iv A B hlen,
   fun hA => AesEnc.aes_cfb_single_cancel iv A B hlen hA⟩

/-- Concrete instance of C5 on two 2-byte plaintexts. -/
theorem C5_keystream_cancellation_witness :
    lxor (AesEnc.ofbProc (Aes.mkCtx (List.replicate 16 0) none false false)
        (List.replicate 16 0) [1, 2])
      (AesEnc.ofbProc (Aes.mkCtx (List.replicate 16 0) none false false)
        (List.replicate 16 0) [3, 4]) = lxor [1, 2] [3, 4] ∧
    ([1, 2].length ≤ 16 →
      lxor (AesEnc.cfbEnc (Aes.mkCtx (List.replicate 16 0) none false false)
          (List.replicate 16 0) [1, 2])
        (AesEnc.cfbEnc (Aes.mkCtx (List.replicate 16 0) none false false)
          (List.replicate 16 0) [3, 4]) = lxor [1, 2] [3, 4]) :=
  C5_keystream_cancellation_amended (Aes.mkCtx (List.replicate 16 0) none false false)
    (List.replicate 16 0) [1, 2] [3, 4] (by decide)

/-- Refutation of C5 for CFB beyond one block: two 32-byte plaintexts
differing in the first byte break the cancellation identity. -/
theorem C5_cfb_multiblock_counterexample :
    lxor (AesEnc.cfbEnc (Aes.mkCtx (List.replicate 16 0) none false false)
        (List.replicate 16 0) (List.replicate 32 0))
      (AesEnc.cfbEnc (Aes.mkCtx (List.replicate 16 0) none false false)
        (List.replicate 16 0) (1 :: List.replicate 31 0)) ≠
      lxor (List.replicate 32 0) (1 :: List.replicate 31 0) :=
  AesEnc.aes_cfb_two_block_breaks
    (AesEnc.goodCtx_std (List.replicate 16 0) (bytes_replicate_zero 16) false false)
    (List.replicate 16 0) (bytes_replicate_zero 16) (by decide)

/-- C6: the AES data-round magic swap is an involution, and with
`swap_data_round` enabled on both sides `decrypt_block ∘ encrypt_block` is the
identity on 16-byte blocks. -/
theorem C6_magic_swap_roundtrip (s : Aes.St) (key block : List Nat) (hkey : Bytes key)
    (hb : Bytes block) (hl : block.length = 16) (kS : Bool) :
    Aes.magicSwap (Aes.magicSwap s) = s ∧
    Aes.decryptBlock (Aes.mkCtx key none kS true)
      (Aes.encryptBlock (Aes.mkCtx key none kS true) block) = block :=
  ⟨Aes.magicSwap_magicSwap s, Aes.decryptBlock_encryptBlock key hkey kS true block hb hl⟩

/-- Concrete instance of C6 on an all-ones state and an all-twos block. -/
theorem C6_magic_swap_witness :
    Aes.magicSwap (Aes.magicSwap (Aes.toSt (List.replicate 16 1))) =
      Aes.toSt (List.replicate 16 1) ∧
    Aes.decryptBlock (Aes.mkCtx (List.replicate 16 0) none false true)
      (Aes.encryptBlock (Aes.mkCtx (List.replicate 16 0) none false true)
        (List.replicate 16 2)) = List.replicate 16 2 :=
  C6_magic_swap_roundtrip (Aes.toSt (List.replicate 16 1)) (List.replicate 16 0)
    (List.replicate 16 2) (bytes_replicate_zero 16) (by decide) (by decide) false

/-- C7: `key_expansion` normalizes the key length: shorter than 16 bytes is
zero-padded to 16; strictly between 16 and 24 truncates to 16; strictly
between 24 and 32 truncates to 24; above 32 truncates to 32; the round count
is 10/12/14 for a resulting 16/24/32-byte key. -/
theorem C7_key_length_normalization (key : List Nat) :
    (key.length < 16 → Aes.normalizeKey key =
      (key ++ List.replicate (16 - key.length) 0, 10)) ∧
    (key.length = 16 → Aes.normalizeKey key = (key, 10)) ∧
    (16 < key.length → key.length < 24 → Aes.normalizeKey key = (key.take 16, 10)) ∧
    (key.length = 24 → Aes.normalizeKey key = (key, 12)) ∧
    (24 < key.length → key.length < 32 → Aes.normalizeKey key = (key.take 24, 12)) ∧
    (key.length = 32 → Aes.normalizeKey key = (key, 14)) ∧
    (32 < key.length → Aes.normalizeKey key = (key.take 32, 14)) := by
  refine ⟨?_, ?_, ?_, ?_, ?_, ?_, ?_⟩
  · intro h
    simp only [Aes.normalizeKey]
    rw [if_neg (by omega), if_neg (by omega), if_neg (by omega), if_pos h]
    have hl : (key ++ List.replicate (16 - key.length) 0).length = 16 := by
      simp
      omega
    rw [hl]
    simp
  · intro h
    simp only [Aes.normalizeKey]
    rw [if_pos h]
  · intro h1 h2
    simp only [Aes.normalizeKey]
    rw [if_neg (by omega), if_neg (by omega), if_neg (by omega), if_neg (by omega),
      if_pos h2]
    rw [show (key.take 16).length = 16 from by simp; omega]
    simp
  · intro h
    simp only [Aes.normalizeKey]
    rw [if_neg (by omega), if_pos h]
  · intro h1 h2
    simp only [Aes.normalizeKey]
    rw [if_neg (by omega), if_neg (by omega), if_neg (by omega), if_neg (by omega),
      if_neg (by omega), if_pos h2]
    rw [show (key.take 24).length = 24 from by simp; omega]
    simp
  · intro h
    simp only [Aes.normalizeKey]
    rw [if_neg (by omega), if_neg (by omega), if_pos h]
  · intro h
    simp only [Aes.normalizeKey]
    rw [if_neg (by omega), if_neg (by omega), if_neg (by omega), if_neg (by omega),
      if_neg (by omega), if_neg (by omega)]
    rw [show (key.take 32).length = 32 from by simp; omega]
    simp

/-- Concrete instances of C7: a 20-byte key truncates to 16 bytes with 10
rounds, an 8-byte key zero-pads to 16 bytes. -/
theorem C7_key_length_witness :
    Aes.normalizeKey (List.replicate 20 7) = ((List.replicate 20 7).take 16, 10) ∧
    Aes.normalizeKey (List.replicate 8 7) =
      (List.replicate 8 7 ++ List.replicate (16 - (List.replicate 8 7).length) 0, 10) :=
  ⟨(C7_key_length_normalization (List.replicate 20 7)).2.2.1 (by decide) (by decide),
   (C7_key_length_normalization (List.replicate 8 7)).1 (by decide)⟩

/-- C8: `_parse_sbox` yields a table exactly for a 256-element list, a JSON
array of 256 integers, or a hex string unhexlifying to 256 bytes; every other
input yields no table, and the cipher cores fall back to the standard S-box
for an absent or wrong-length table. -/
theorem C8_sbox_parsing_fallback :
    (∀ l : List Nat, parseSbox (.ofList l) = if l.length = 256 then some l else none) ∧
    (∀ s : List Char, s ≠ [] → ∀ arr, jsonNatArray s = some arr →
      parseSbox (.ofStr s) = if arr.length = 256 then some arr else parseSboxHex s) ∧
    (∀ s : List Char, s ≠ [] → jsonNatArray s = none →
      parseSbox (.ofStr s) = parseSboxHex s) ∧
    (∀ (s : List Char) (bs : List Nat),
      hexDecode (s.filter fun c => c ≠ ' ' ∧ c ≠ '\n') = some bs →
      parseSboxHex s = if bs.length = 256 then some bs else none) ∧
    (∀ s : List Char, hexDecode (s.filter fun c => c ≠ ' ' ∧ c ≠ '\n') = none →
      parseSboxHex s = none) ∧
    Aes.resolveSbox none = Aes.STANDARD_SBOX ∧
    (∀ sb, sb.length ≠ 256 → Aes.resolveSbox (some sb) = Aes.STANDARD_SBOX) ∧
    Sm4.resolveSbox none = Sm4.STANDARD_SBOX ∧
    (∀ sb, sb.length ≠ 256 → Sm4.resolveSbox (some sb) = Sm4.STANDARD_SBOX) := by
  refine ⟨fun l => rfl, ?_, ?_, ?_, ?_, rfl, ?_, rfl, ?_⟩
  · intro s hs arr harr
    simp only [parseSbox, if_neg hs, harr]
  · intro s hs hnone
    simp only [parseSbox, if_neg hs, hnone]
  · intro s bs hbs
    simp only [parseSboxHex, hbs]
  · intro s hnone
    simp only [parseSboxHex, hnone]
  · intro sb h
    simp only [Aes.resolveSbox, if_neg h]
  · intro sb h
    simp only [Sm4.resolveSbox, if_neg h]

/-- Concrete instance of C8: a 10-element list yields no table and the AES
core falls back to the standard S-box. -/
theorem C8_sbox_parsing_witness :
    parseSbox (.ofList (List.replicate 10 0)) =
      (if (List.replicate 10 (0 : Nat)).length = 256 then some (List.replicate 10 0)
       else none) ∧
    Aes.resolveSbox (some (List.replicate 10 0)) = Aes.STANDARD_SBOX :=
  ⟨C8_sbox_parsing_fallback.1 (List.replicate 10 0),
   C8_sbox_parsing_fallback.2.2.2.2.2.2.1 (List.replicate 10 0) (by decide)⟩

/-- C9 (amended): a declared (hex/base64) encoding that fails to parse
propagates as an error for both ciphers, but an undeclared (default base64)
failure returns a normal value — AES the marker string
`[Error] Invalid input data`, SM4 the empty string — and an input too short
for an embedded IV is an error only for AES, SM4 returning the empty string
(see the counterexample). -/
theorem C9_validation_outcomes_amended (key : List Nat) (mode : Mode)
    (ivBytes : Option (List Nat)) (padding : Padding) (kS dR sE : Bool)
    (data : List Char) (hne : data ≠ []) :
    (b64decode data = none →
      AesEnc.decrypt key mode ivBytes padding .absent kS dR .base64 data =
        .error "input data parse failure (base64)" ∧
      Sm4Enc.decrypt key mode ivBytes padding .absent kS dR sE .base64 data =
        .error "input data parse failure (base64)" ∧
      AesEnc.decrypt key mode ivBytes padding .absent kS dR .default data =
        .ok AesEnc.invalidInputMarker ∧
      Sm4Enc.decrypt key mode ivBytes padding .absent kS dR sE .default data = .ok []) ∧
    (hexDecode (data.filter fun c => c ≠ ' ' ∧ c ≠ '\n') = none →
      AesEnc.decrypt key mode ivBytes padding .absent kS dR .hex data =
        .error "input data parse failure (hex)" ∧
      Sm4Enc.decrypt key mode ivBytes padding .absent kS dR sE .hex data =
        .error "input data parse failure (hex)") ∧
    (∀ bs, mode ≠ .ECB → b64decode data = some bs → bs.length < 16 →
      AesEnc.decrypt key mode none padding .absent kS dR .default data =
        .error "encrypted data too short to extract IV" ∧
      Sm4Enc.decrypt key mode none padding .absent kS dR sE .default data = .ok []) :=
  ⟨fun hf => ⟨AesEnc.aes_decrypt_b64_fail hne hf, Sm4Enc.sm4_decrypt_b64_fail hne hf,
      AesEnc.aes_decrypt_default_fail hne hf, Sm4Enc.sm4_decrypt_default_fail hne hf⟩,
   fun hf => ⟨AesEnc.aes_decrypt_hex_fail hne hf, Sm4Enc.sm4_decrypt_hex_fail hne hf⟩,
   fun bs hm hs hsh => ⟨AesEnc.aes_decrypt_short_iv hm hne hs hsh,
      Sm4Enc.sm4_decrypt_short hm hne hs hsh⟩⟩

/-- Concrete instance of C9 on the undecodable input `A`. -/
theorem C9_validation_witness :
    (b64decode ['A'] = none →
      AesEnc.decrypt (List.replicate 16 0) .CBC none .pkcs7 .absent false false
        .base64 ['A'] = .error "input data parse failure (base64)" ∧
      Sm4Enc.decrypt (List.replicate 16 0) .CBC none .pkcs7 .absent false false false
        .base64 ['A'] = .error "input data parse failure (base64)" ∧
      AesEnc.decrypt (List.replicate 16 0) .CBC none .pkcs7 .absent false false
        .default ['A'] = .ok AesEnc.invalidInputMarker ∧
      Sm4Enc.decrypt (List.replicate 16 0) .CBC none .pkcs7 .absent false false false
        .default ['A'] = .ok []) ∧
    (hexDecode (['A'].filter fun c => c ≠ ' ' ∧ c ≠ '\n') = none →
      AesEnc.decrypt (List.replicate 16 0) .CBC none .pkcs7 .absent false false
        .hex ['A'] = .error "input data parse failure (hex)" ∧
      Sm4Enc.decrypt (List.replicate 16 0) .CBC none .pkcs7 .absent false false false
        .hex ['A'] = .error "input data parse failure (hex)") ∧
    (∀ bs, Mode.CBC ≠ Mode.ECB → b64decode ['A'] = some bs → bs.length < 16 →
      AesEnc.decrypt (List.replicate 16 0) .CBC none .pkcs7 .absent false false
        .default ['A'] = .error "encrypted data too short to extract IV" ∧
      Sm4Enc.decrypt (List.replicate 16 0) .CBC none .pkcs7 .absent false false false
        .default ['A'] = .ok []) :=
  C9_validation_outcomes_amended (List.replicate 16 0) .CBC none .pkcs7 false false false
    ['A'] (by decide)

/-- Refutation of C9 as stated: an undeclared base64 failure makes AES return
the marker string as a normal result, and a short embedded-IV input makes SM4
return the empty string, neither an error. -/
theorem C9_normal_result_counterexample :
    AesEnc.decrypt (List.replicate 16 0) .ECB none .pkcs7 .absent false false .default
      ['A'] = .ok AesEnc.invalidInputMarker ∧
    Sm4Enc.decrypt (List.replicate 16 0) .CBC none .pkcs7 .absent false false false .default
      (b64encode [1, 2, 3]) = .ok [] := by
  constructor
  · exact AesEnc.aes_decrypt_default_fail (by decide) (by decide)
  · exact Sm4Enc.sm4_decrypt_short (by decide) (by decide)
      (show b64decode (b64encode [1, 2, 3]) = some [1, 2, 3] from by decide) (by decide)

/-- C10: with the all-0xFF IV the CTR counter reaches 2^128 on the second
block, so encrypting or decrypting more than 16 bytes raises `OverflowError`
instead of wrapping, for both AES and SM4. -/
theorem C10_ctr_overflow (key data : List Nat) (hd : Bytes data) (h : 16 < data.length)
    (kS dR sE : Bool) :
    AesEnc.encrypt key .CTR (some (List.replicate 16 255)) .nopadding .absent kS dR data =
      .error "OverflowError: int too big to convert" ∧
    AesEnc.decrypt key .CTR (some (List.replicate 16 255)) .nopadding .absent kS dR .default
      (b64encode data) = .error "OverflowError: int too big to convert" ∧
    Sm4Enc.encrypt key .CTR (some (List.replicate 16 255)) .nopadding .absent kS dR sE data =
      .error "OverflowError: int too big to convert" ∧
    Sm4Enc.decrypt key .CTR (some (List.replicate 16 255)) .nopadding .absent kS dR sE
      .default (b64encode data) = .error "OverflowError: int too big to convert" :=
  ⟨AesEnc.aes_ctr_encrypt_overflow key kS dR data h,
   AesEnc.aes_ctr_decrypt_overflow key kS dR data hd h,
   Sm4Enc.sm4_ctr_encrypt_overflow key kS dR sE data h,
   Sm4Enc.sm4_ctr_decrypt_overflow key kS dR sE data hd h⟩

/-- Concrete instance of C10 on 17 zero bytes. -/
theorem C10_ctr_overflow_witness :
    AesEnc.encrypt (List.replicate 16 0) .CTR (some (List.replicate 16 255)) .nopadding
        .absent false false (List.replicate 17 0) =
      .error "OverflowError: int too big to convert" ∧
    AesEnc.decrypt (List.replicate 16 0) .CTR (some (List.replicate 16 255)) .nopadding
        .absent false false .default (b64encode (List.replicate 17 0)) =
      .error "OverflowError: int too big to convert" ∧
    Sm4Enc.encrypt (List.replicate 16 0) .CTR (some (List.replicate 16 255)) .nopadding
        .absent false false false (List.replicate 17 0) =
      .error "OverflowError: int too big to convert" ∧
    Sm4Enc.decrypt (List.replicate 16 0) .CTR (some (List.replicate 16 255)) .nopadding
        .absent false false false .default (b64encode (List.replicate 17 0)) =
      .error "OverflowError: int too big to convert" :=
  C10_ctr_overflow (List.replicate 16 0) (List.replicate 17 0) (bytes_replicate_zero 17)
    (by decide) false false false

end ByteAlchemy
